import Mathlib

/-!
# triangolatte: hole joining and ear clipping

A shallow embedding of `polygon.go` (package `triangolatte`) and a verification
development over it.

Conventions of the embedding.

* A finite `float64` value is the rational (`ℚ`) it denotes. The functions are
  embedded twice. The first embedding computes in exact arithmetic: a statement
  about it is a statement of exact arithmetic (the one place where IEEE
  division by zero is observable, `findK` on a horizontal edge, is modelled
  explicitly). The second embedding, in the namespace `F64`, rounds every
  operation of `isReflex`, `isInsideTriangle` and, through them, `Polygon` as
  IEEE 754 binary64 does; the two agree on integer coordinates of absolute
  value at most `2 ^ 25`.
* `*Element` pointers are indices into the `elements` slice that `Polygon`
  allocates; the heap is the map from such an index to its `Element`.
* A Go run either returns (a value and an `error`, which may be `nil`) or does
  not return normally: `Fault.indexOutOfRange` is the run-time panic of an
  index or slice expression, `Fault.outOfFuel` is the embedding's own bound on
  the number of loop iterations being exhausted.
-/

set_option autoImplicit false

namespace Triangolatte

/-! ## Data model -/

/-- Modelled from the spec: the `Point` value type (its declaration is not in
`polygon.go`), "immutable 2-D coordinate `{X, Y}`", compared by exact
equality. -/
structure Point where
  X : ℚ
  Y : ℚ
  deriving DecidableEq, Repr

instance : Inhabited Point := ⟨⟨0, 0⟩⟩

/-- Modelled from the spec: vector subtraction of `Point`s (`p.Sub(r)`), whose
declaration is not in `polygon.go`. -/
def Point.Sub (p r : Point) : Point := ⟨p.X - r.X, p.Y - r.Y⟩

/-- Modelled from the spec: the 2-D cross product of `Point`s (`p.Cross(r)`),
whose declaration is not in `polygon.go`. -/
def Point.Cross (p r : Point) : ℚ := p.X * r.Y - p.Y * r.X

/-- Modelled from the spec: the squared Euclidean distance of `Point`s
(`p.Distance2(r)`), whose declaration is not in `polygon.go`. -/
def Point.Distance2 (p r : Point) : ℚ :=
  (p.X - r.X) * (p.X - r.X) + (p.Y - r.Y) * (p.Y - r.Y)

/-- The Go errors that `polygon.go` creates with `errors.New`. -/
inductive GoError where
  | cannotCalculateIntersection
  | couldNotFindVisibleVertex
  | cannotProcessEmptyPointsArray
  | lessThanThreePoints
  | oops
  deriving DecidableEq, Repr

deriving instance DecidableEq for Except

/-- Ways in which a run does not return normally. -/
inductive Fault where
  | indexOutOfRange
  | outOfFuel
  deriving DecidableEq, Repr

/-- Go's `(i%n + n) % n` on `int`, with `%` truncating towards zero. -/
def cyclic (i n : Int) : Int := (Int.tmod i n + n).tmod n

/-- Source `isReflex` in exact arithmetic: the sign of `(b-a) × (c-b)`. The
same function with `float64` rounding is `F64.isReflex`. -/
def isReflex (a b c : Point) : Bool :=
  decide ((b.X - a.X) * (c.Y - b.Y) - (c.X - b.X) * (b.Y - a.Y) < 0)

/-- Source `isInsideTriangle` in exact arithmetic: three half-plane tests, edges
included. The same function with `float64` rounding is
`F64.isInsideTriangle`. -/
def isInsideTriangle (a b c p : Point) : Bool :=
  decide ((c.X - p.X) * (a.Y - p.Y) - (a.X - p.X) * (c.Y - p.Y) ≥ 0) &&
  decide ((a.X - p.X) * (b.Y - p.Y) - (b.X - p.X) * (a.Y - p.Y) ≥ 0) &&
  decide ((b.X - p.X) * (c.Y - p.Y) - (c.X - p.X) * (b.Y - p.Y) ≥ 0)

/-! ## Ear clipping -/

/-- Modelled from the spec: the `Element` vertex node (its declaration is not in
`polygon.go`): "a mutable record holding a Point and two relations, `prev` and
`next`, to neighboring nodes". A pointer is the index of the node in the
`elements` slice. -/
structure Element where
  Prev : Nat
  Next : Nat
  Point : Point
  deriving DecidableEq, Repr

instance : Inhabited Element := ⟨⟨0, 0, default⟩⟩

/-- The memory that holds the `elements` slice. -/
abbrev Heap := Nat → Element

/-- The heap after the assignment `*x = v`. -/
def Heap.store (h : Heap) (x : Nat) (v : Element) : Heap :=
  fun k => if k = x then v else h k

/-- Modelled from the spec: `(e *Element) Remove()` (its declaration is not in
`polygon.go`): "removing a node from the list is an O(1) relink of its
neighbors", i.e. `e.Next.Prev = e.Prev; e.Prev.Next = e.Next`. -/
def Element.Remove (h : Heap) (e : Nat) : Heap :=
  let h1 := h.store (h e).Next { h (h e).Next with Prev := (h e).Prev }
  h1.store (h1 e).Prev { h1 (h1 e).Prev with Next := (h1 e).Next }

/-- Sum of the cross products of consecutive points of `p :: l`. -/
def shoelaceSum : Point → List Point → ℚ
  | _, [] => 0
  | p, q :: l => p.Cross q + shoelaceSum q l

/-- Modelled from the spec: `polygonArea` (its declaration is not in
`polygon.go`), the "shoelace-formula signed area" of the closed polygon `data`,
positive for counter-clockwise order (`TestPolygonArea` expects `45.5` for the
counter-clockwise quadrilateral `(2,2),(11,2),(9,7),(4,10)`). -/
def polygonArea (data : List Point) : ℚ :=
  match data.getLast? with
  | none => 0
  | some z => shoelaceSum z data / 2

/-- The loop `for r != p.Prev { ... r = r.Next }` of `isEar`; `last` is
`p.Prev`. -/
def isEarLoop (h : Heap) (a b c : Point) (last : Nat) :
    Nat → Nat → Except Fault Bool
  | 0, _ => .error .outOfFuel
  | fuel + 1, r =>
    if r = last then .ok true
    else
      let inside := isInsideTriangle a b c (h r).Point
      let reflex := isReflex (h (h r).Prev).Point (h r).Point (h (h r).Next).Point
      if inside && reflex then .ok false
      else isEarLoop h a b c last fuel (h r).Next

/-- Source `isEar`, with a bound `fuel` on the iterations of its loop. -/
def isEar (fuel : Nat) (h : Heap) (p : Nat) : Except Fault Bool :=
  let a := (h (h p).Prev).Point
  let b := (h p).Point
  let c := (h (h p).Next).Point
  if isReflex a b c then .ok false
  else isEarLoop h a b c (h p).Prev fuel (h (h p).Next).Next

/-- The local variables of `Polygon` that live across loop iterations. -/
structure State where
  elements : Heap
  ear : Nat
  stop : Nat
  i : Nat
  t : List ℚ

/-- The six assignments `t[i+0], ..., t[i+5] = ...`; an index beyond the
length of `t` is a run-time panic. -/
def writeTriangle (t : List ℚ) (i : Nat) (a b c : Point) : Except Fault (List ℚ) :=
  if i + 5 < t.length then
    .ok ((((((t.set i a.X).set (i + 1) a.Y).set (i + 2) b.X).set (i + 3) b.Y).set
      (i + 4) c.X).set (i + 5) c.Y)
  else .error .indexOutOfRange

/-- What one evaluation of the loop condition and body of `Polygon` does. -/
inductive Step where
  | next (s : State)
  | ret (t : List ℚ) (err : Option GoError)
  | fault (f : Fault)

/-- One iteration of `for ear.Prev != ear.Next { ... }` in `Polygon`, the loop
condition included; `n` is `len(points)`. -/
def Polygon.step (n : Nat) (s : State) : Step :=
  let h := s.elements
  if (h s.ear).Prev = (h s.ear).Next then
    -- `return t[0:i], nil`
    if s.i ≤ s.t.length then .ret (s.t.take s.i) none else .fault .indexOutOfRange
  else
    let prev := (h s.ear).Prev
    let next := (h s.ear).Next
    match isEar n h s.ear with
    | .error f => .fault f
    | .ok true =>
      let h1 := Element.Remove h s.ear
      let ear1 := (h1 s.ear).Next
      if polygonArea [(h prev).Point, (h s.ear).Point, (h next).Point] > 0 then
        match writeTriangle s.t s.i (h prev).Point (h s.ear).Point (h next).Point with
        | .error f => .fault f
        | .ok t1 => .next { elements := h1, ear := ear1, stop := ear1, i := s.i + 6, t := t1 }
      else .next { elements := h1, ear := ear1, stop := ear1, i := s.i, t := s.t }
    | .ok false =>
      if next = s.stop then .ret [] (some .oops)
      else .next { s with ear := next }

/-- The main loop of `Polygon`, run for at most `fuel` iterations. -/
def Polygon.loop (n : Nat) : Nat → State → Except Fault (List ℚ × Option GoError)
  | 0, _ => .error .outOfFuel
  | fuel + 1, s =>
    match Polygon.step n s with
    | .next s1 => Polygon.loop n fuel s1
    | .ret t err => .ok (t, err)
    | .fault f => .error f

/-- The `elements` slice as `Polygon` initialises it. -/
def Polygon.initElements (points : List Point) : Heap := fun k =>
  let n := points.length
  if k = 0 then ⟨n - 1, 1, points.getD 0 default⟩
  else if k < n - 1 then ⟨k - 1, k + 1, points.getD k default⟩
  else if k = n - 1 then ⟨n - 2, 0, points.getD (n - 1) default⟩
  else default

/-- The state in which `Polygon` enters its loop: `ear` and `stop` are
`&elements[0]`, `i` is `0` and `t` is `make([]float64, (n-2)*6)`. -/
def Polygon.init (points : List Point) : State :=
  { elements := Polygon.initElements points, ear := 0, stop := 0, i := 0,
    t := List.replicate ((points.length - 2) * 6) 0 }

/-- Source `Polygon`. The result is the returned pair `(triangles, err)`. The
loop is given `n * n` iterations of fuel. -/
def Polygon (points : List Point) : Except Fault (List ℚ × Option GoError) :=
  let n := points.length
  if n < 3 then .ok ([], some .lessThanThreePoints)
  else Polygon.loop n (n * n) (Polygon.init points)

/-- The state after `k` more iterations of the loop of `Polygon`, when none of
them leaves the loop. -/
def Polygon.iter (n : Nat) : Nat → State → Option State
  | 0, s => some s
  | k + 1, s =>
    match Polygon.step n s with
    | .next s1 => Polygon.iter n k s1
    | _ => none

/-- The state after `k` more iterations of the loop of `Polygon` together with
two counters, when none of the iterations leaves the loop: `removed` counts
the iterations that removed a vertex (`isEar(ear)` was true) and `rejected` the
iterations since the last removal (each inspected one candidate and moved on).
The counters start at `removed` and `rejected`. -/
def Polygon.count (n : Nat) : Nat → State → Nat → Nat → Option (State × Nat × Nat)
  | 0, s, removed, rejected => some (s, removed, rejected)
  | k + 1, s, removed, rejected =>
    match Polygon.step n s with
    | .next s1 =>
      if isEar n s.elements s.ear = .ok true then Polygon.count n k s1 (removed + 1) 0
      else Polygon.count n k s1 removed (rejected + 1)
    | _ => none

/-- The node reached from `e` by following `Next` `j` times. -/
def nextIter (h : Heap) : Nat → Nat → Nat
  | 0, e => e
  | j + 1, e => nextIter h j (h e).Next

/-- A state of the loop of `Polygon` in which at least three nodes are left
(`ear.Prev != ear.Next`) and none of them, `ear`, `ear.Next`,
`ear.Next.Next`, ..., is an ear. -/
def Stuck (n : Nat) (s : State) : Prop :=
  (s.elements s.ear).Prev ≠ (s.elements s.ear).Next ∧
    ∀ j, isEar n s.elements (nextIter s.elements j s.ear) = .ok false

/-! ## Hole joining -/

/-- The body of the loop of `findK`, from index pair `(i, j)` on; `rem` is
`len(outer) - j`, the number of iterations left. The named result `k` still has
its zero value `(0, 0)` whenever it is read, as the only assignment to it is
followed by `return`.

`t1` and `t2` divide by `v2.Y`. An edge that is not skipped and has `v2.Y = 0`
has `v1.Y = 0` as well, so in IEEE arithmetic `t2` is `0/0 = NaN` and the
comparison fails: the guard `v2.Y ≠ 0` states this. -/
def findK.loop (m : Point) (outer : List Point) :
    Nat → Nat → Nat → Point × Nat × Nat × Option GoError
  | 0, _, _ => (⟨0, 0⟩, 0, 0, none)
  | rem + 1, i, j =>
    let k : Point := ⟨0, 0⟩
    let vi := outer.getD i default
    let vj := outer.getD j default
    if vi.Y > m.Y || vj.Y < m.Y then findK.loop m outer rem j (j + 1)
    else
      let v1 := m.Sub vi
      let v2 := vj.Sub vi
      let t1 := v2.Cross v1 / v2.Y
      let t2 := v1.Y / v2.Y
      if v2.Y ≠ 0 && decide (t1 ≥ 0) && decide (t2 ≥ 0) && decide (t2 ≤ 1) then
        if t1 - m.X < k.X then (⟨t1 + m.X, m.Y⟩, i, j, none)
        else findK.loop m outer rem j (j + 1)
      else (k, 0, 0, some .cannotCalculateIntersection)

/-- Source `findK`: the results are `(k, k1, k2, err)`. -/
def findK (m : Point) (outer : List Point) : Point × Nat × Nat × Option GoError :=
  findK.loop m outer outer.length (outer.length - 1) 0

/-- An index expression `s[i]`, which panics when `i` is out of range. -/
def index {α : Type} (s : List α) (i : Nat) : Except Fault α :=
  match s[i]? with
  | some a => .ok a
  | none => .error .indexOutOfRange

/-- Source `areAllOutside`. -/
def areAllOutside (m k : Point) (pIndex : Nat) (outer : List Point) : Except Fault Bool :=
  (List.range outer.length).foldlM
    (fun (allOutside : Bool) (i : Nat) =>
      if i = pIndex then pure allOutside
      else do
        let p ← index outer pIndex
        let q ← index outer i
        pure (if isInsideTriangle m k p q then false else allOutside))
    true

/-- The first loop of `findClosest`: the indices pushed to the list `reflex`. -/
def findClosest.reflex (m k : Point) (pIndex : Nat) (outer : List Point) :
    Except Fault (List Nat) :=
  let n := outer.length
  (List.range n).foldlM
    (fun (reflex : List Nat) (i : Nat) => do
      let p ← index outer pIndex
      let q ← index outer i
      let notInside := !isInsideTriangle m k p q
      let prev := cyclic ((i : Int) - 1) n
      let next := cyclic ((i : Int) + 1) n
      let a ← index outer prev.toNat
      let c ← index outer next.toNat
      let notReflex := !isReflex a q c
      if notInside || notReflex then pure reflex else pure (reflex ++ [i]))
    []

/-- Source `findClosest`. -/
def findClosest (m k : Point) (pIndex : Nat) (outer : List Point) : Except Fault Nat := do
  let reflex ← findClosest.reflex m k pIndex outer
  let r ← reflex.foldlM
    (fun (st : Nat × ℚ) (i : Nat) => do
      let closest := st.1
      let maxDist := st.2
      let a ← index outer i
      let b ← index outer closest
      let dist := a.Distance2 b
      if dist > maxDist then pure (i, dist) else pure (closest, maxDist))
    ((0 : Nat), (0 : ℚ))
  pure r.1

/-- The first loop of `combinePolygons`: the index `mIndex`. -/
def combinePolygons.mIndex (inner : List Point) : Nat :=
  ((List.range inner.length).foldl
    (fun (st : ℚ × Nat) (i : Nat) =>
      if (inner.getD i default).X > st.1 then ((inner.getD i default).X, i) else st)
    ((0 : ℚ), (0 : Nat))).2

/-- The loop `for i := 0; i < len(outer); i++ { if outer[i] == k { visibleIndex = i } }`
of `combinePolygons`, started with `visibleIndex = -1`. -/
def combinePolygons.vertexAt (k : Point) (outer : List Point) : Int :=
  (List.range outer.length).foldl
    (fun (visibleIndex : Int) (i : Nat) =>
      if outer.getD i default = k then (i : Int) else visibleIndex)
    (-1)

/-- The indices `mIndex` and `visibleIndex` that `combinePolygons` computes
before it builds its result, or the error it returns instead. -/
def combinePolygons.bridge (outer inner : List Point) :
    Except Fault (Except GoError (Nat × Int)) := do
  let mIndex := combinePolygons.mIndex inner
  let m ← index inner mIndex
  let (k, k1, k2, err) := findK m outer
  if err.isSome then return .error (err.getD .cannotCalculateIntersection)
  let visibleIndex := combinePolygons.vertexAt k outer
  let pk1 ← index outer k1
  let pk2 ← index outer k2
  let pIndex := if pk1.X > pk2.X then k1 else k2
  let allOutside ← areAllOutside m k pIndex outer
  let visibleIndex := if visibleIndex < 0 && allOutside then (pIndex : Int) else visibleIndex
  let visibleIndex ←
    if visibleIndex < 0 then (do
      let c ← findClosest m k pIndex outer
      pure (c : Int))
    else pure visibleIndex
  if visibleIndex < 0 then return .error .couldNotFindVisibleVertex
  return .ok (mIndex, visibleIndex)

/-- The result slice that `combinePolygons` builds from `mIndex` and
`visibleIndex ≥ 0`. The slice expression `outer[:visibleIndex+1]` panics when
`visibleIndex+1` is beyond the slice (whose capacity is taken to be its
length; with a larger capacity the later `outer[visibleIndex]` panics). -/
def combinePolygons.splice (outer inner : List Point) (mIndex : Nat) (visibleIndex : Int) :
    Except Fault (List Point) := do
  let v := visibleIndex.toNat
  -- `outer[:visibleIndex+1]`
  if outer.length < v + 1 then throw .indexOutOfRange
  let result := outer.take (v + 1)
  let result ← (List.range inner.length).foldlM
    (fun (result : List Point) (i : Nat) => do
      let q ← index inner (cyclic ((mIndex : Int) + (i : Int)) inner.length).toNat
      pure (result ++ [q]))
    result
  let im ← index inner mIndex
  let ov ← index outer v
  let result := result ++ [im, ov]
  -- `outer[visibleIndex+1:]`
  pure (result ++ outer.drop (v + 1))

/-- Source `combinePolygons`: the result is the returned pair `(points, err)`. -/
def combinePolygons (outer inner : List Point) :
    Except Fault (List Point × Option GoError) := do
  match ← combinePolygons.bridge outer inner with
  | .error e => pure ([], some e)
  | .ok (mIndex, visibleIndex) =>
    let result ← combinePolygons.splice outer inner mIndex visibleIndex
    pure (result, none)

/-- The loop `for i := 1; i < len(points); i++ { ... }` of `JoinHoles` over the
holes that are left. -/
def JoinHoles.loop : List Point → List (List Point) →
    Except Fault (List Point × Option GoError)
  | current, [] => .ok (current, none)
  | current, hole :: rest =>
    match combinePolygons current hole with
    | .error f => .error f
    | .ok (_, some err) => .ok ([], some err)
    | .ok (next, none) => JoinHoles.loop next rest

/-- Source `JoinHoles`. `sort` stands for `sort.Sort(byMaxX(points[1:]))`, the
Go library sort on the holes with the comparison `byMaxX.Less`. -/
def JoinHoles (sort : List (List Point) → List (List Point)) (points : List (List Point)) :
    Except Fault (List Point × Option GoError) :=
  match points with
  | [] => .ok ([], some .cannotProcessEmptyPointsArray)
  | [p] => .ok (p, none)
  | outer :: holes => JoinHoles.loop outer (sort holes)

/-- Source `byMaxX.Less`, on the polygons at the two indices `i` and `j`. -/
def byMaxX.Less (pi pj : List Point) : Bool :=
  let xMax := pi.foldl (fun (xMax : ℚ) (p : Point) => if p.X > xMax then p.X else xMax) 0
  pj.all fun p => !decide (p.X > xMax)

/-- The inner loop `for j := i; j > a && data.Less(j, j-1); j-- { data.Swap(j, j-1) }`
of the insertion sort of Go's package `sort`: the element `x` at index `i` is
moved into the prefix before it, which is given last element first, and the
result is the new prefix, last element first. -/
def insertionSort.insert {α : Type} (less : α → α → Bool) : List α → α → List α
  | [], x => [x]
  | z :: zs, x => if less x z then z :: insertionSort.insert less zs x else x :: z :: zs

/-- The function `insertionSort` of Go's package `sort` (library code, not of
this repository): `for i := a + 1; i < b; i++ { ... }` around the loop above.
`sort.Sort` calls it on a slice of at most 12 elements (Go 1.19 and later; in
earlier releases on fewer than 7 elements), see `sort.Sort` below. -/
def insertionSort {α : Type} (less : α → α → Bool) (data : List α) : List α :=
  (data.foldl (insertionSort.insert less) []).reverse

/-- The function `Sort` of Go's package `sort` (library code, not of this
repository) on the slice `data` with the comparison `less`. Since Go 1.19,
`pdqsort` starts with `if length <= maxInsertion { insertionSort(data, a, b);
return }`, `maxInsertion = 12`. Its path for longer slices is not embedded: it
is the parameter `long`. -/
def sort.Sort {α : Type} (long : (α → α → Bool) → List α → List α) (less : α → α → Bool)
    (data : List α) : List α :=
  if data.length ≤ 12 then insertionSort less data else long less data

/-! ## The predicates in `float64` arithmetic

The definitions above compute with exact rationals. The definitions of this
section are the same source functions with each `float64` operation rounded as
IEEE 754 binary64 does (round to nearest, ties to even, overflow to an
infinity, gradual underflow), one operation at a time: no fused multiply-add
(the Go compiler emits none on amd64). A finite `float64` is the rational it
denotes. -/

/-- The power `2 ^ e`. -/
def pow2 (e : Int) : ℚ := (2 : ℚ) ^ e

/-- A `float64` value: a finite number, an infinity with its sign, or NaN. The
sign of a zero is not kept: subtraction, multiplication and the comparisons,
the operations of `isReflex` and `isInsideTriangle`, give the same result on
`+0` and `-0`. -/
inductive F64 where
  | fin (q : ℚ)
  | inf (neg : Bool)
  | nan
  deriving DecidableEq, Repr

/-- The number of halvings that take `n` below 2, `⌊log₂ n⌋` for `n ≥ 1`
(`fuel ≥ n` is enough). -/
def F64.bits : Nat → Nat → Nat
  | 0, _ => 0
  | fuel + 1, n => if n < 2 then 0 else F64.bits fuel (n / 2) + 1

/-- The exponent `⌊log₂ a⌋` of a positive rational `a`. -/
def F64.ilog2 (a : ℚ) : Int :=
  let l : Int := (F64.bits a.num.natAbs a.num.natAbs : Int) - (F64.bits a.den a.den : Int)
  if a < pow2 l then l - 1 else l

/-- IEEE 754 binary64 rounding of the real number `q`, to nearest with ties to
even: `e` is the exponent of the unit in the last place of the result (at least
`-1074`, the exponent of the subnormal numbers), `m` the significand of 53
bits; a result of magnitude `2 ^ 1024` or more is an infinity. -/
def F64.round (q : ℚ) : F64 :=
  if q = 0 then .fin 0
  else
    let a := |q|
    let e := max (F64.ilog2 a - 52) (-1074)
    let s := a / pow2 e
    let f := Int.floor s
    let r := s - f
    let m : Int :=
      if r < 1 / 2 then f else if 1 / 2 < r then f + 1 else if f % 2 = 0 then f else f + 1
    let v := (m : ℚ) * pow2 e
    if pow2 1024 ≤ v then .inf (decide (q < 0))
    else .fin (if q < 0 then -v else v)

/-- The `float64` subtraction `x - y`. -/
def F64.sub : F64 → F64 → F64
  | .fin a, .fin b => F64.round (a - b)
  | .fin _, .inf n => .inf (!n)
  | .inf n, .fin _ => .inf n
  | .inf n, .inf k => if n = k then .nan else .inf n
  | _, _ => .nan

/-- The `float64` multiplication `x * y`. -/
def F64.mul : F64 → F64 → F64
  | .fin a, .fin b => F64.round (a * b)
  | .fin a, .inf n => if a = 0 then .nan else .inf (xor (decide (a < 0)) n)
  | .inf n, .fin b => if b = 0 then .nan else .inf (xor n (decide (b < 0)))
  | .inf n, .inf k => .inf (xor n k)
  | _, _ => .nan

/-- The `float64` comparison `x < y`, false when an operand is NaN. -/
def F64.lt : F64 → F64 → Bool
  | .fin a, .fin b => decide (a < b)
  | .fin _, .inf n => !n
  | .inf n, .fin _ => n
  | .inf n, .inf k => n && !k
  | _, _ => false

/-- The `float64` comparison `x >= y`, false when an operand is NaN. -/
def F64.ge : F64 → F64 → Bool
  | .fin a, .fin b => decide (a ≥ b)
  | .fin _, .inf n => n
  | .inf n, .fin _ => !n
  | .inf n, .inf k => !n || k
  | _, _ => false

/-- The rational `q` is a `float64` value. -/
def F64.isFloat (q : ℚ) : Bool := decide (F64.round q = .fin q)

/-- Both coordinates of the point are `float64` values. -/
def Point.isFloat (p : Point) : Bool := F64.isFloat p.X && F64.isFloat p.Y

/-- Source `isReflex` in `float64` arithmetic:
`(b.X-a.X)*(c.Y-b.Y)-(c.X-b.X)*(b.Y-a.Y) < 0`. -/
def F64.isReflex (a b c : Point) : Bool :=
  F64.lt
    (F64.sub
      (F64.mul (F64.sub (.fin b.X) (.fin a.X)) (F64.sub (.fin c.Y) (.fin b.Y)))
      (F64.mul (F64.sub (.fin c.X) (.fin b.X)) (F64.sub (.fin b.Y) (.fin a.Y))))
    (.fin 0)

/-- Source `isInsideTriangle` in `float64` arithmetic. -/
def F64.isInsideTriangle (a b c p : Point) : Bool :=
  F64.ge
    (F64.sub
      (F64.mul (F64.sub (.fin c.X) (.fin p.X)) (F64.sub (.fin a.Y) (.fin p.Y)))
      (F64.mul (F64.sub (.fin a.X) (.fin p.X)) (F64.sub (.fin c.Y) (.fin p.Y))))
    (.fin 0) &&
  F64.ge
    (F64.sub
      (F64.mul (F64.sub (.fin a.X) (.fin p.X)) (F64.sub (.fin b.Y) (.fin p.Y)))
      (F64.mul (F64.sub (.fin b.X) (.fin p.X)) (F64.sub (.fin a.Y) (.fin p.Y))))
    (.fin 0) &&
  F64.ge
    (F64.sub
      (F64.mul (F64.sub (.fin b.X) (.fin p.X)) (F64.sub (.fin c.Y) (.fin p.Y)))
      (F64.mul (F64.sub (.fin c.X) (.fin p.X)) (F64.sub (.fin b.Y) (.fin p.Y))))
    (.fin 0)

/-- The loop of `isEar` with the predicates in `float64` arithmetic. -/
def F64.isEarLoop (h : Heap) (a b c : Point) (last : Nat) :
    Nat → Nat → Except Fault Bool
  | 0, _ => .error .outOfFuel
  | fuel + 1, r =>
    if r = last then .ok true
    else
      let inside := F64.isInsideTriangle a b c (h r).Point
      let reflex := F64.isReflex (h (h r).Prev).Point (h r).Point (h (h r).Next).Point
      if inside && reflex then .ok false
      else F64.isEarLoop h a b c last fuel (h r).Next

/-- Source `isEar` with the predicates in `float64` arithmetic. -/
def F64.isEar (fuel : Nat) (h : Heap) (p : Nat) : Except Fault Bool :=
  let a := (h (h p).Prev).Point
  let b := (h p).Point
  let c := (h (h p).Next).Point
  if F64.isReflex a b c then .ok false
  else F64.isEarLoop h a b c (h p).Prev fuel (h (h p).Next).Next

/-- One iteration of the loop of `Polygon` in `float64` arithmetic. The
function `polygonArea` is not in `polygon.go`: its test
`polygonArea([]Point{prev.Point, ear.Point, next.Point}) > 0` is the parameter
`positiveArea`. -/
def F64.Polygon.step (positiveArea : List Point → Bool) (n : Nat) (s : State) : Step :=
  let h := s.elements
  if (h s.ear).Prev = (h s.ear).Next then
    if s.i ≤ s.t.length then .ret (s.t.take s.i) none else .fault .indexOutOfRange
  else
    let prev := (h s.ear).Prev
    let next := (h s.ear).Next
    match F64.isEar n h s.ear with
    | .error f => .fault f
    | .ok true =>
      let h1 := Element.Remove h s.ear
      let ear1 := (h1 s.ear).Next
      if positiveArea [(h prev).Point, (h s.ear).Point, (h next).Point] then
        match writeTriangle s.t s.i (h prev).Point (h s.ear).Point (h next).Point with
        | .error f => .fault f
        | .ok t1 => .next { elements := h1, ear := ear1, stop := ear1, i := s.i + 6, t := t1 }
      else .next { elements := h1, ear := ear1, stop := ear1, i := s.i, t := s.t }
    | .ok false =>
      if next = s.stop then .ret [] (some .oops)
      else .next { s with ear := next }

/-- The main loop of `Polygon` in `float64` arithmetic, run for at most `fuel`
iterations. -/
def F64.Polygon.loop (positiveArea : List Point → Bool) (n : Nat) :
    Nat → State → Except Fault (List ℚ × Option GoError)
  | 0, _ => .error .outOfFuel
  | fuel + 1, s =>
    match F64.Polygon.step positiveArea n s with
    | .next s1 => F64.Polygon.loop positiveArea n fuel s1
    | .ret t err => .ok (t, err)
    | .fault f => .error f

/-- Source `Polygon` in `float64` arithmetic. -/
def F64.Polygon (positiveArea : List Point → Bool) (points : List Point) :
    Except Fault (List ℚ × Option GoError) :=
  let n := points.length
  if n < 3 then .ok ([], some .lessThanThreePoints)
  else F64.Polygon.loop positiveArea n (n * n) (Polygon.init points)


/-! ## The circular list as a list of node indices -/

/-- Node `b` follows node `a` in the doubly-linked list held in `h`. -/
def Follows (h : Heap) (a b : Nat) : Prop := (h a).Next = b ∧ (h b).Prev = a

/-- The nodes `e :: l`, pairwise distinct and in this order, are the circular
doubly-linked list held in `h`: each is followed by the next one and the last
one by `e`. -/
def IsRing (h : Heap) (e : Nat) (l : List Nat) : Prop :=
  (e :: l).Nodup ∧ List.Chain (Follows h) e (l ++ [e])

/-- The loop of `isEar` over the nodes that are left, as a recursion on the
list of these nodes: `q` is the node before the head of the list, and the last
node of the list is `p.Prev`, where the loop stops. -/
def scanRing (pt : Nat → Point) (a b c : Point) : Nat → List Nat → Bool
  | q, r :: s :: l =>
    !(isInsideTriangle a b c (pt r) && isReflex (pt q) (pt r) (pt s)) &&
      scanRing pt a b c r (s :: l)
  | _, _ => true

/-- The test `isEar` on the head `e` of the ring `e :: c :: rest`. -/
def isEarRing (pt : Nat → Point) : List Nat → Bool
  | e :: c :: rest =>
    let p := (c :: rest).getLast (List.cons_ne_nil c rest)
    !isReflex (pt p) (pt e) (pt c) && scanRing pt (pt p) (pt e) (pt c) c rest
  | _ => false

/-- The six coordinates of the triangle `(a, b, c)`, as `Polygon` writes
them. -/
def coords (a b c : Point) : List ℚ := [a.X, a.Y, b.X, b.Y, c.X, c.Y]

/-- The state of the clipping loop over the ring as a list: `post ++ pre` is
the ring from the current candidate `ear` on, `pre` are the candidates that
were rejected since the stop marker was set (so the stop marker is the head of
`pre ++ post`), and `out` are the coordinates emitted so far. -/
structure RingState where
  pre : List Nat
  post : List Nat
  out : List ℚ

/-- What one iteration does to a `RingState`. -/
inductive RingStep where
  | next (s : RingState)
  | ret (t : List ℚ) (err : Option GoError)

/-- One iteration of the loop of `Polygon` on the ring as a list. -/
def ringStep (pt : Nat → Point) (s : RingState) : RingStep :=
  match s.post ++ s.pre with
  | e :: c :: r :: rest =>
    if isEarRing pt (e :: c :: r :: rest) then
      let p := (r :: rest).getLast (List.cons_ne_nil r rest)
      if polygonArea [pt p, pt e, pt c] > 0 then
        .next ⟨[], c :: r :: rest, s.out ++ coords (pt p) (pt e) (pt c)⟩
      else .next ⟨[], c :: r :: rest, s.out⟩
    else
      match s.post with
      | _ :: c1 :: post1 => .next ⟨s.pre ++ [e], c1 :: post1, s.out⟩
      | _ => .ret [] (some .oops)
  | _ => .ret s.out none

/-- The loop of `Polygon` on the ring as a list, for at most `fuel`
iterations. -/
def ringLoop (pt : Nat → Point) : Nat → RingState → Except Fault (List ℚ × Option GoError)
  | 0, _ => .error .outOfFuel
  | fuel + 1, s =>
    match ringStep pt s with
    | .next s1 => ringLoop pt fuel s1
    | .ret t err => .ok (t, err)

/-- The concrete state `s` of `Polygon` holds the ring state `r`; `cap` is the
length of the buffer `t` and `n` the number of input points. -/
structure Holds (pt : Nat → Point) (n : Nat) (s : State) (r : RingState) : Prop where
  points : ∀ k, (s.elements k).Point = pt k
  ring : ∃ e l, r.post ++ r.pre = e :: l ∧ IsRing s.elements e l ∧ l.length < n
  post : r.post ≠ []
  ear : r.post.head? = some s.ear
  stop : (r.pre ++ r.post).head? = some s.stop
  idx : s.i = r.out.length
  out : s.t.take s.i = r.out
  cap : s.i + 6 * ((r.post ++ r.pre).length - 2) ≤ s.t.length
  buf : s.t.length = (n - 2) * 6

/-- The cross product `(b-a) × (c-b)`, whose sign `isReflex` tests: positive
for a strictly counter-clockwise triple. -/
def ccw (a b c : Point) : ℚ := (b.X - a.X) * (c.Y - b.Y) - (c.X - b.X) * (b.Y - a.Y)

/-- The triangles of a flat coordinate sequence, six values per triangle. -/
def triangles : List ℚ → List (Point × Point × Point)
  | ax :: ay :: bx :: by1 :: cx :: cy :: rest =>
    (⟨ax, ay⟩, ⟨bx, by1⟩, ⟨cx, cy⟩) :: triangles rest
  | _ => []

/-- The sum of the shoelace signed areas of the triangles of a flat coordinate
sequence. -/
def triangleAreaSum (t : List ℚ) : ℚ :=
  ((triangles t).map fun tr => polygonArea [tr.1, tr.2.1, tr.2.2]).sum

/-! ## Order of the holes -/

/-- The maximum X coordinate of the polygon `a` is at most that of the polygon
`b`: every vertex of `a` has a vertex of `b` with at least its X. -/
def maxXLe (a b : List Point) : Prop := ∀ p ∈ a, ∃ q ∈ b, p.X ≤ q.X

instance : DecidableRel maxXLe := fun a b =>
  inferInstanceAs (Decidable (∀ p ∈ a, ∃ q ∈ b, p.X ≤ q.X))

/-- The value `xMax` that `byMaxX.Less` computes for a polygon: the maximum of
`0.0` and its X coordinates. -/
def clampedMaxX (a : List Point) : ℚ :=
  a.foldl (fun (xMax : ℚ) (p : Point) => if p.X > xMax then p.X else xMax) 0

/-! ## Visibility -/

/-- The edges of the closed polygon `poly`, each with its two endpoints. -/
def edges (poly : List Point) : List (Point × Point) := poly.zip (poly.rotate 1)

/-- The segments `p q` and `a b` cross: each has its endpoints strictly on
opposite sides of the line through the other. -/
def properCross (p q a b : Point) : Bool :=
  decide (ccw p q a * ccw p q b < 0) && decide (ccw a b p * ccw a b q < 0)

/-- The point `p` lies on the closed segment `a b`. -/
def onSegment (a b p : Point) : Bool :=
  decide (ccw a b p = 0) && decide (min a.X b.X ≤ p.X) && decide (p.X ≤ max a.X b.X) &&
    decide (min a.Y b.Y ≤ p.Y) && decide (p.Y ≤ max a.Y b.Y)

/-- The closed segments `a b` and `c d` have a point in common. -/
def segmentsMeet (a b c d : Point) : Bool :=
  properCross a b c d || onSegment a b c || onSegment a b d || onSegment c d a ||
    onSegment c d b

/-- The segment `p q` crosses an edge of the polygon `poly`. -/
def crossesBoundary (poly : List Point) (p q : Point) : Bool :=
  (edges poly).any fun e => properCross p q e.1 e.2

/-- The closed polygon `poly` is simple: edges that are not neighbours have no
point in common, and neighbours only their common endpoint. -/
def isSimple (poly : List Point) : Bool :=
  let es := edges poly
  let n := es.length
  decide (3 ≤ n) &&
  (List.range n).all fun i => (List.range n).all fun j =>
    if i < j then
      let e := es.getD i default
      let f := es.getD j default
      if j = i + 1 then !onSegment e.1 e.2 f.2 && !onSegment f.1 f.2 e.1
      else if i = 0 ∧ j = n - 1 then !onSegment e.1 e.2 f.1 && !onSegment f.1 f.2 e.2
      else !segmentsMeet e.1 e.2 f.1 f.2
    else true

/-- The point `p` lies strictly inside the simple polygon `poly`: it is on no
edge, and the ray from `p` in direction `(1, 0)` crosses an odd number of
edges. -/
def strictlyInside (poly : List Point) (p : Point) : Bool :=
  ((edges poly).all fun e => !onSegment e.1 e.2 p) &&
  decide (((edges poly).filter fun e =>
    (decide (e.1.Y > p.Y) != decide (e.2.Y > p.Y)) &&
      decide (p.X < e.1.X + (p.Y - e.1.Y) * (e.2.X - e.1.X) / (e.2.Y - e.1.Y))).length % 2 = 1)

/-- The hole lies strictly inside the outer boundary: its vertices are strictly
inside and its edges have no point in common with the outer edges. -/
def holeStrictlyInside (outer hole : List Point) : Bool :=
  (hole.all fun p => strictlyInside outer p) &&
  (edges hole).all fun e => (edges outer).all fun f => !segmentsMeet e.1 e.2 f.1 f.2

/-- A simple counter-clockwise boundary with a notch cut in from the top: the
ray from a point of its left part in direction `(1, 0)` leaves the polygon at
`x = 103`, enters it again at `x = 105` and leaves it at `x = 108`. -/
def notchedOuter : List Point :=
  [⟨100, 0⟩, ⟨108, 0⟩, ⟨108, 10⟩, ⟨105, 10⟩, ⟨105, 2⟩, ⟨103, 2⟩, ⟨103, 10⟩, ⟨100, 10⟩]

/-- A triangular hole in the left part of `notchedOuter`. -/
def notchedHole : List Point := [⟨101, 4⟩, ⟨101, 6⟩, ⟨102, 5⟩]

/-- The boundary `notchedOuter` with its point list started at the vertex
`(103, 2)`. -/
def notchedOuterFrom5 : List Point :=
  [⟨103, 2⟩, ⟨103, 10⟩, ⟨100, 10⟩, ⟨100, 0⟩, ⟨108, 0⟩, ⟨108, 10⟩, ⟨105, 10⟩, ⟨105, 2⟩]

/-- A triangular hole in the right part of `notchedOuter`, with rightmost
vertex `(107, 5)`. -/
def rightHole : List Point := [⟨106, 4⟩, ⟨106, 6⟩, ⟨107, 5⟩]

/-- A simple counter-clockwise boundary with a notch cut in from a slanted top,
its point list started at the vertex `(108, 0)`: its convex vertex `(105, 8)`
lies inside the triangle `(102,5), (108,5), (108,12)`. -/
def slantedOuterFrom1 : List Point :=
  [⟨108, 0⟩, ⟨108, 12⟩, ⟨105, 8⟩, ⟨105, 2⟩, ⟨103, 2⟩, ⟨103, 8⟩, ⟨100, 8⟩, ⟨100, 0⟩]

/-- The outer boundary of the case 'triangle touching edge' of `TestJoinHoles`. -/
def touchingOuter : List Point := [⟨0, 0⟩, ⟨4, 0⟩, ⟨4, 4⟩, ⟨0, 4⟩]

/-- The hole of the case 'triangle touching edge' of `TestJoinHoles`. -/
def touchingHole : List Point := [⟨1, 1⟩, ⟨1, 3⟩, ⟨4, 2⟩]

/-- The coordinate `q` is an integer of absolute value at most `2 ^ 25`. -/
def smallInt (q : ℚ) : Prop := q.den = 1 ∧ |q| ≤ 2 ^ 25

instance : DecidablePred smallInt := fun q => by unfold smallInt; infer_instance

/-- Both coordinates of the point are integers of absolute value at most
`2 ^ 25`: on such points every operation of `isReflex` and `isInsideTriangle`
is exact in `float64`. -/
def Point.small (p : Point) : Prop := smallInt p.X ∧ smallInt p.Y

instance : DecidablePred Point.small := fun p => by unfold Point.small; infer_instance

/-- The triangle `(3.8, 0.9), (2.2, 1.7), (1.4, 2.1)`: the coordinates are the
`float64` values of these decimal literals. It is strictly counter-clockwise,
by `1801439850948199 / 2 ^ 104`. -/
def sliverTriangle : List Point :=
  [⟨4278419646001971 / 1125899906842624, 8106479329266893 / 9007199254740992⟩,
   ⟨2476979795053773 / 1125899906842624, 7656119366529843 / 4503599627370496⟩,
   ⟨3152519739159347 / 2251799813685248, 4728779608739021 / 2251799813685248⟩]

/-- The X coordinate at which the ray `m + t * (1, 0)`, `t ≥ 0`, crosses the
edge from `a` to `b`, when the endpoints of the edge straddle the Y coordinate
of `m`, the edge is not horizontal and the crossing is not behind `m`. -/
def rayCrossing (m a b : Point) : Option ℚ :=
  if (a.Y ≤ m.Y ∧ m.Y ≤ b.Y ∨ b.Y ≤ m.Y ∧ m.Y ≤ a.Y) ∧ a.Y ≠ b.Y then
    let x := a.X + (m.Y - a.Y) * (b.X - a.X) / (b.Y - a.Y)
    if m.X ≤ x then some x else none
  else none

/-- The five ways an iteration on the ring can go. -/
inductive RingStepSpec (pt : Nat → Point) (s : RingState) : RingStep → Prop
  | done : (s.post ++ s.pre).length ≤ 2 → RingStepSpec pt s (.ret s.out none)
  | emit (e c r : Nat) (rest : List Nat) : s.post ++ s.pre = e :: c :: r :: rest →
      isEarRing pt (e :: c :: r :: rest) = true →
      polygonArea [pt ((r :: rest).getLast (List.cons_ne_nil r rest)), pt e, pt c] > 0 →
      RingStepSpec pt s (.next ⟨[], c :: r :: rest,
        s.out ++ coords (pt ((r :: rest).getLast (List.cons_ne_nil r rest))) (pt e) (pt c)⟩)
  | drop (e c r : Nat) (rest : List Nat) : s.post ++ s.pre = e :: c :: r :: rest →
      isEarRing pt (e :: c :: r :: rest) = true →
      ¬ polygonArea [pt ((r :: rest).getLast (List.cons_ne_nil r rest)), pt e, pt c] > 0 →
      RingStepSpec pt s (.next ⟨[], c :: r :: rest, s.out⟩)
  | advance (e c : Nat) (post1 : List Nat) : s.post = e :: c :: post1 →
      3 ≤ (s.post ++ s.pre).length →
      isEarRing pt (s.post ++ s.pre) = false →
      RingStepSpec pt s (.next ⟨s.pre ++ [e], c :: post1, s.out⟩)
  | stuck : s.post.length ≤ 1 → 3 ≤ (s.post ++ s.pre).length →
      isEarRing pt (s.post ++ s.pre) = false →
      RingStepSpec pt s (.ret [] (some .oops))

/-- The invariant of the clipping loop on the ring as a list, for `n` input
points `pt 0, ..., pt (n-1)` of shoelace area `A`. -/
structure RingInv (pt : Nat → Point) (n : Nat) (A : ℚ) (s : RingState) : Prop where
  post : s.post ≠ []
  nodup : (s.post ++ s.pre).Nodup
  bound : ∀ x ∈ s.post ++ s.pre, x < n
  len6 : s.out.length % 6 = 0
  cap : s.out.length + 6 * ((s.post ++ s.pre).length - 2) ≤ 6 * (n - 2)
  area : triangleAreaSum s.out + polygonArea ((s.post ++ s.pre).map pt) = A
  ccw : ∀ tr ∈ triangles s.out, 0 < ccw tr.1 tr.2.1 tr.2.2
  src : ∀ tr ∈ triangles s.out, ∃ i j k, i < n ∧ j < n ∧ k < n ∧ i ≠ j ∧ j ≠ k ∧ i ≠ k ∧
    tr = (pt i, pt j, pt k)

/-- The candidates in `pre` were rejected: with the ring started at any of
them, its head is not an ear. -/
def Rejected (pt : Nat → Point) (s : RingState) : Prop :=
  ∀ j, j < s.pre.length → isEarRing pt ((s.pre ++ s.post).rotate j) = false

/-- The triangular number `1 + 2 + ... + m`. -/
def lapBudget : Nat → Nat
  | 0 => 0
  | m + 1 => lapBudget m + (m + 1)

/-- A bound on the number of iterations that are left from a ring state. -/
def potential (s : RingState) : Nat :=
  lapBudget (s.post ++ s.pre).length - s.pre.length

/-- The outcome of an iteration of `Polygon` agrees with that of the iteration
on the ring as a list. -/
def StepMatch (pt : Nat → Point) (n : Nat) : Step → RingStep → Prop
  | .next s1, .next r1 => Holds pt n s1 r1
  | .ret t e, .ret t1 e1 => t = t1 ∧ e = e1
  | _, _ => False


/-! ## Lemmas on the circular list -/

theorem chain_last_rel {R : Nat → Nat → Prop} :
    ∀ (l : List Nat) (a b : Nat), List.Chain R a (l ++ [b]) →
      R ((a :: l).getLast (List.cons_ne_nil a l)) b
  | [], a, b, h => by simpa using h
  | x :: l, a, b, h => by
    rw [List.cons_append, List.chain_cons] at h
    simpa [List.getLast_cons_cons] using chain_last_rel l x b h.2

theorem chain_rotate {R : Nat → Nat → Prop} (e c : Nat) (l : List Nat)
    (h : List.Chain R e (c :: l ++ [e])) : List.Chain R c ((l ++ [e]) ++ [c]) := by
  rw [List.cons_append, List.chain_cons] at h
  have e1 : (l ++ [e]) ++ [c] = l ++ e :: [c] := by simp
  rw [e1, List.chain_split]
  refine ⟨h.2, ?_⟩
  simpa using h.1

/-- A chain survives a change of the heap that keeps `Next` except at `p`, the
last node of the chain, and `Prev` except at a node `c` that is not in it. -/
theorem chain_of_agree {h h1 : Heap} {p c : Nat}
    (hn : ∀ x, x ≠ p → (h1 x).Next = (h x).Next)
    (hp : ∀ x, x ≠ c → (h1 x).Prev = (h x).Prev) :
    ∀ (l : List Nat) (a : Nat), List.Chain (Follows h) a (l ++ [p]) → p ∉ a :: l →
      c ∉ l ++ [p] → List.Chain (Follows h1) a (l ++ [p])
  | [], a, hc, hpa, hcl => by
    simp only [List.nil_append, List.chain_cons, List.Chain.nil, and_true] at hc ⊢
    simp only [List.mem_cons, List.not_mem_nil, or_false, List.nil_append] at hpa hcl
    refine ⟨?_, ?_⟩
    · rw [hn a (fun e => hpa e.symm)]; exact hc.1
    · rw [hp p (fun e => hcl e.symm)]; exact hc.2
  | x :: l, a, hc, hpa, hcl => by
    rw [List.cons_append, List.chain_cons] at hc ⊢
    simp only [List.mem_cons, not_or, List.cons_append] at hpa hcl
    refine ⟨⟨?_, ?_⟩, chain_of_agree hn hp l x hc.2 ?_ hcl.2⟩
    · rw [hn a (fun e => hpa.1 e.symm)]; exact hc.1.1
    · rw [hp x (fun e => hcl.1 e.symm)]; exact hc.1.2
    · simp only [List.mem_cons, not_or]; exact ⟨hpa.2.1, hpa.2.2⟩

theorem store_apply (g : Heap) (x : Nat) (v : Element) (k : Nat) :
    g.store x v k = if k = x then v else g k := rfl

theorem store_same (g : Heap) (x : Nat) (v : Element) : g.store x v x = v := by
  simp [store_apply]

theorem store_other (g : Heap) {x k : Nat} (v : Element) (hk : k ≠ x) :
    g.store x v k = g k := by
  simp [store_apply, hk]

theorem store_point (g : Heap) (x : Nat) (v : Element) (hv : v.Point = (g x).Point)
    (k : Nat) : (g.store x v k).Point = (g k).Point := by
  by_cases hk : k = x
  · subst hk; simp [store_same, hv]
  · rw [store_other g v hk]

theorem Remove_point (h : Heap) (e k : Nat) : (Element.Remove h e k).Point = (h k).Point := by
  unfold Element.Remove
  refine (store_point _ _ _ ?_ k).trans (store_point _ _ _ ?_ k) <;> rfl


theorem IsRing.next_eq {h : Heap} {e c : Nat} {rest : List Nat}
    (hr : IsRing h e (c :: rest)) : (h e).Next = c := by
  have := hr.2
  rw [List.cons_append, List.chain_cons] at this
  exact this.1.1

theorem IsRing.prev_eq {h : Heap} {e : Nat} {l : List Nat} (hr : IsRing h e l) :
    (h e).Prev = (e :: l).getLast (List.cons_ne_nil e l) :=
  (chain_last_rel l e e hr.2).2

theorem Remove_eq {h : Heap} {e c p : Nat} (hn : (h e).Next = c) (hp : (h e).Prev = p)
    (hec : e ≠ c) :
    Element.Remove h e =
      (h.store c { h c with Prev := p }).store p
        { h.store c { h c with Prev := p } p with Next := c } := by
  subst hn hp
  unfold Element.Remove
  simp only [store_other h _ hec]

theorem IsRing.remove {h : Heap} {e c r : Nat} {rest : List Nat}
    (hr : IsRing h e (c :: r :: rest)) : IsRing (Element.Remove h e) c (r :: rest) := by
  have hnext := hr.next_eq
  have hprev := hr.prev_eq
  obtain ⟨hnd, hch⟩ := hr
  set p := (r :: rest).getLast (List.cons_ne_nil r rest) with hpdef
  have hp2 : (h e).Prev = p := by
    rw [hprev, List.getLast_cons_cons, List.getLast_cons_cons]
  obtain ⟨mid, hmid⟩ : ∃ mid, r :: rest = mid ++ [p] :=
    ⟨(r :: rest).dropLast, (List.dropLast_append_getLast (List.cons_ne_nil r rest)).symm⟩
  rw [hmid] at hnd hch ⊢
  have hec : e ≠ c := by
    intro hh; simp [hh] at hnd
  have hnd2 : (c :: (mid ++ [p])).Nodup := (List.nodup_cons.1 hnd).2
  have hcp : c ≠ p := by
    intro hh; simp [hh] at hnd2
  have hpmid : p ∉ c :: mid := by
    have := hnd2
    rw [← List.cons_append, List.nodup_append] at this
    intro hh
    exact this.2.2 hh (List.mem_singleton_self p)
  have hcmid : c ∉ mid ++ [p] := (List.nodup_cons.1 hnd2).1
  rw [List.cons_append, List.chain_cons] at hch
  have hch2 : List.Chain (Follows h) c (mid ++ [p]) ∧ List.Chain (Follows h) p [e] := by
    have e1 : (mid ++ [p]) ++ [e] = mid ++ p :: [e] := by simp
    rw [e1, List.chain_split] at hch
    exact hch.2
  have hRem := Remove_eq hnext hp2 hec
  have hn : ∀ x, x ≠ p → (Element.Remove h e x).Next = (h x).Next := by
    intro x hx
    rw [hRem, store_other _ _ hx]
    by_cases hxc : x = c
    · subst hxc; simp [store_same]
    · rw [store_other _ _ hxc]
  have hpv : ∀ x, x ≠ c → (Element.Remove h e x).Prev = (h x).Prev := by
    intro x hx
    rw [hRem]
    by_cases hxp : x = p
    · subst hxp; simp [store_same, store_other _ _ hx]
    · rw [store_other _ _ hxp, store_other _ _ hx]
  refine ⟨hnd2, ?_⟩
  have e2 : (mid ++ [p]) ++ [c] = mid ++ p :: [c] := by simp
  rw [e2, List.chain_split]
  refine ⟨chain_of_agree hn hpv mid c hch2.1 hpmid hcmid, ?_⟩
  simp only [List.chain_cons, List.Chain.nil, and_true]
  refine ⟨?_, ?_⟩
  · rw [hRem]; simp [store_same]
  · rw [hRem, store_other _ _ hcp]; simp [store_same]

theorem IsRing.rotate {h : Heap} {e c : Nat} {l : List Nat} (hr : IsRing h e (c :: l)) :
    IsRing h c (l ++ [e]) := by
  refine ⟨?_, chain_rotate e c l hr.2⟩
  have hp : (c :: (l ++ [e])).Perm (e :: c :: l) := by
    rw [← List.cons_append]
    exact List.perm_append_singleton e (c :: l)
  exact hp.nodup_iff.2 hr.1


/-! ## `isEar` on a ring -/

theorem isEarLoop_eq {h : Heap} {pt : Nat → Point} (hpt : ∀ k, (h k).Point = pt k)
    (a b c : Point) (p : Nat) :
    ∀ (l : List Nat) (q r0 fuel : Nat), List.Chain (Follows h) q (l ++ [p]) → p ∉ l →
      l.length < fuel → (l ++ [p]).head? = some r0 →
      isEarLoop h a b c p fuel r0 = .ok (scanRing pt a b c q (l ++ [p]))
  | [], q, r0, fuel, _, _, hf, hr0 => by
    obtain ⟨f, rfl⟩ : ∃ f, fuel = f + 1 := ⟨fuel - 1, by simp at hf; omega⟩
    simp only [List.nil_append, List.head?_cons, Option.some.injEq] at hr0
    subst hr0
    simp [isEarLoop, scanRing]
  | r :: l, q, r0, fuel, hc, hp, hf, hr0 => by
    obtain ⟨f, rfl⟩ : ∃ f, fuel = f + 1 := ⟨fuel - 1, by simp at hf; omega⟩
    simp only [List.cons_append, List.head?_cons, Option.some.injEq] at hr0
    subst hr0
    simp only [List.mem_cons, not_or] at hp
    obtain ⟨s, l2, hs⟩ : ∃ s l2, l ++ [p] = s :: l2 := by
      cases l with
      | nil => exact ⟨p, [], rfl⟩
      | cons x l => exact ⟨x, l ++ [p], rfl⟩
    have hc1 := hc
    rw [List.cons_append, List.chain_cons] at hc1
    have hrs : (h r).Next = s := by
      have := hc1.2
      rw [hs, List.chain_cons] at this
      exact this.1.1
    have ih := isEarLoop_eq hpt a b c p l r s f hc1.2 hp.2
      (by simp at hf; omega) (by rw [hs]; rfl)
    have hne : r ≠ p := fun e => hp.1 e.symm
    rw [List.cons_append, hs]
    rw [hs] at ih
    simp only [isEarLoop, hne, if_false, scanRing, hpt, hc1.1.2, hrs, ih]
    by_cases hx : (isInsideTriangle a b c (pt r) && isReflex (pt q) (pt r) (pt s)) = true
    · simp [hx]
    · simp [hx]

theorem isEar_eq {h : Heap} {pt : Nat → Point} (hpt : ∀ k, (h k).Point = pt k)
    {e c r : Nat} {rest : List Nat} (hr : IsRing h e (c :: r :: rest)) {fuel : Nat}
    (hf : (r :: rest).length ≤ fuel) :
    isEar fuel h e = .ok (isEarRing pt (e :: c :: r :: rest)) := by
  have hnext := hr.next_eq
  have hprev := hr.prev_eq
  have hr1 := hr.rotate
  obtain ⟨hnd, hch⟩ := hr
  set p := (r :: rest).getLast (List.cons_ne_nil r rest) with hpdef
  have hp2 : (h e).Prev = p := by
    rw [hprev, List.getLast_cons_cons, List.getLast_cons_cons]
  obtain ⟨mid, hmid⟩ : ∃ mid, r :: rest = mid ++ [p] :=
    ⟨(r :: rest).dropLast, (List.dropLast_append_getLast (List.cons_ne_nil r rest)).symm⟩
  have hcn : (h c).Next = r := hr1.next_eq
  have hlast : (c :: r :: rest).getLast (List.cons_ne_nil c (r :: rest)) = p := by
    rw [List.getLast_cons_cons]
  rw [List.cons_append, List.chain_cons] at hch
  have hch2 : List.Chain (Follows h) c (mid ++ [p]) := by
    have h2 := hch.2
    rw [hmid] at h2
    have e1 : (mid ++ [p]) ++ [e] = mid ++ p :: [e] := by simp
    rw [e1, List.chain_split] at h2
    exact h2.1
  have hpmid : p ∉ mid := by
    have h3 : (mid ++ [p]).Nodup := by
      rw [← hmid]
      exact (List.nodup_cons.1 (List.nodup_cons.1 hnd).2).2
    rw [List.nodup_append] at h3
    intro hh
    exact h3.2.2 hh (List.mem_singleton_self p)
  have hlen : mid.length < fuel := by
    have : (r :: rest).length = mid.length + 1 := by rw [hmid]; simp
    omega
  have hloop := isEarLoop_eq hpt (pt p) (pt e) (pt c) p mid c r fuel hch2 hpmid hlen
    (by rw [← hmid]; rfl)
  unfold isEar
  simp only [isEarRing, hlast, hnext, hp2, hpt, hcn]
  by_cases hx : isReflex (pt p) (pt e) (pt c) = true
  · simp [hx]
  · rw [hloop, ← hmid]
    simp [hx]


theorem writeTriangle_ok (t : List ℚ) (i : Nat) (a b c : Point) (h : i + 6 ≤ t.length) :
    ∃ t1, writeTriangle t i a b c = .ok t1 ∧ t1.length = t.length ∧
      t1.take (i + 6) = t.take i ++ coords a b c := by
  refine ⟨_, by rw [writeTriangle, if_pos (by omega)], by simp, ?_⟩
  apply List.ext_getElem?
  intro j
  simp only [List.getElem?_take, List.getElem?_append, List.getElem?_set, List.length_set,
    List.length_take, coords]
  have hmin : min i t.length = i := by omega
  rw [hmin]
  by_cases h1 : j < i
  · have h2 : j < i + 6 := by omega
    simp only [h1, h2, if_true]
    have : ¬ i + 5 = j ∧ ¬ i + 4 = j ∧ ¬ i + 3 = j ∧ ¬ i + 2 = j ∧ ¬ i + 1 = j ∧ ¬ i = j := by
      omega
    simp [this]
  · by_cases h2 : j < i + 6
    · obtain ⟨d, rfl, hd⟩ : ∃ d, j = i + d ∧ d < 6 := ⟨j - i, by omega, by omega⟩
      have hlt : i + d < t.length := by omega
      interval_cases d <;> simp [h1, hlt]
      all_goals omega
    · have h3 : ¬ j - i < 6 := by omega
      have : 6 ≤ j - i := by omega
      simp [h1, h2, this]


theorem IsRing.remove_next {h : Heap} {e c r : Nat} {rest : List Nat}
    (hr : IsRing h e (c :: r :: rest)) : (Element.Remove h e e).Next = c := by
  have hnext := hr.next_eq
  have hprev := hr.prev_eq
  have hnd := hr.1
  have hec : e ≠ c := by
    intro hh; simp [hh] at hnd
  have hep : e ≠ (e :: c :: r :: rest).getLast (List.cons_ne_nil _ _) := by
    intro hh
    have hmem : (c :: r :: rest).getLast (List.cons_ne_nil _ _) ∈ c :: r :: rest :=
      List.getLast_mem _
    rw [List.getLast_cons_cons] at hh
    rw [← hh] at hmem
    exact (List.nodup_cons.1 hnd).1 hmem
  rw [Remove_eq hnext hprev hec, store_other _ _ hep, store_other _ _ hec, hnext]

theorem step_sim {pt : Nat → Point} {n : Nat} {s : State} {r : RingState}
    (H : Holds pt n s r) : StepMatch pt n (Polygon.step n s) (ringStep pt r) := by
  obtain ⟨pre, post, out⟩ := r
  obtain ⟨hpts, ⟨e, l, hel, hring, hlen⟩, hpost, hear, hstop, hidx, hout, hcap, hbuf⟩ := H
  simp only at hel hpost hear hstop hidx hout hcap
  cases post with
  | nil => exact absurd rfl hpost
  | cons e0 post1 =>
    simp only [List.head?_cons, Option.some.injEq] at hear
    simp only [List.cons_append, List.cons.injEq] at hel
    obtain ⟨rfl, hl⟩ := hel
    subst hear
    have hprev := hring.prev_eq
    match l, hl, hring, hlen, hprev with
    | [], hl, hring, hlen, hprev =>
      have h1 : (s.elements s.ear).Next = s.ear := by
        have := hring.2; simp at this; exact this.1
      have h2 : (s.elements s.ear).Prev = s.ear := by
        have := hring.2; simp at this; exact this.2
      simp only [List.cons_append, hl, List.length_singleton] at hcap
      have hi : s.i ≤ s.t.length := by omega
      simp [Polygon.step, ringStep, hl, h1, h2, hi, StepMatch, hout]
    | [c], hl, hring, hlen, hprev =>
      have h1 : (s.elements s.ear).Next = c := hring.next_eq
      have h2 : (s.elements s.ear).Prev = c := by simpa using hprev
      simp only [List.cons_append, hl, List.length_cons, List.length_nil] at hcap
      have hi : s.i ≤ s.t.length := by omega
      simp [Polygon.step, ringStep, hl, h1, h2, hi, StepMatch, hout]
    | c :: r :: rest, hl, hring, hlen, hprev =>
      have hnext : (s.elements s.ear).Next = c := hring.next_eq
      set p := (r :: rest).getLast (List.cons_ne_nil r rest) with hpdef
      have hp2 : (s.elements s.ear).Prev = p := by
        rw [hprev, List.getLast_cons_cons, List.getLast_cons_cons]
      have hnd := hring.1
      have hpc : p ≠ c := by
        intro hh
        have hmem : p ∈ r :: rest := List.getLast_mem _
        rw [hh] at hmem
        exact (List.nodup_cons.1 (List.nodup_cons.1 hnd).2).1 hmem
      have hE : isEar n s.elements s.ear = .ok (isEarRing pt (s.ear :: c :: r :: rest)) :=
        isEar_eq hpts hring (by simp at hlen ⊢; omega)
      have hlen3 : (s.ear :: (post1 ++ pre)).length = rest.length + 3 := by
        rw [hl]; simp
      simp only [List.cons_append, hlen3] at hcap
      simp only [Polygon.step, hnext, hp2, if_neg hpc, hE, ringStep, List.cons_append, hl, hpts]
      cases hb : isEarRing pt (s.ear :: c :: r :: rest) with
      | true =>
        simp only [if_true, hring.remove_next]
        have hrem := hring.remove
        have hpts1 : ∀ k, (Element.Remove s.elements s.ear k).Point = pt k := fun k => by
          rw [Remove_point, hpts]
        have hlen1 : (r :: rest).length < n := by simp at hlen ⊢; omega
        by_cases harea : polygonArea [pt p, pt s.ear, pt c] > 0
        · obtain ⟨t1, hw, hlt1, htake⟩ :=
            writeTriangle_ok s.t s.i (pt p) (pt s.ear) (pt c) (by omega)
          simp only [harea, if_true, hw, StepMatch]
          refine ⟨hpts1, ⟨c, r :: rest, by simp, hrem, hlen1⟩, by simp, rfl, rfl, ?_, ?_, ?_,
            hlt1.trans hbuf⟩
          · simp [coords, hidx]
          · simp only [htake, hout]
          · simp only [hlt1, List.append_nil, List.length_cons]; omega
        · simp only [harea, if_false, StepMatch]
          refine ⟨hpts1, ⟨c, r :: rest, by simp, hrem, hlen1⟩, by simp, rfl, rfl, hidx, hout, ?_,
            hbuf⟩
          simp only [List.append_nil, List.length_cons]; omega
      | false =>
        simp only [Bool.false_eq_true, if_false]
        cases post1 with
        | nil =>
          simp only [List.nil_append] at hl
          subst hl
          simp only [List.cons_append, List.head?_cons, Option.some.injEq] at hstop
          simp [hstop, StepMatch]
        | cons c1 post2 =>
          simp only [List.cons_append, List.cons.injEq] at hl
          obtain ⟨rfl, hl2⟩ := hl
          have hcs : c1 ≠ s.stop := by
            intro hh
            rw [← hl2] at hnd
            cases pre with
            | nil =>
              simp only [List.nil_append, List.head?_cons, Option.some.injEq] at hstop
              rw [← hh] at hstop
              simp [hstop] at hnd
            | cons x pre1 =>
              simp only [List.cons_append, List.head?_cons, Option.some.injEq] at hstop
              rw [← hh] at hstop
              subst hstop
              simp at hnd
          simp only [if_neg hcs, StepMatch]
          refine ⟨hpts, ⟨c1, (r :: rest) ++ [s.ear], ?_, hring.rotate, ?_⟩, by simp, rfl, ?_,
            hidx, hout, ?_, hbuf⟩
          · simp [← hl2]
          · simp at hlen ⊢; omega
          · simpa using hstop
          · have : ((c1 :: post2) ++ (pre ++ [s.ear])).length = rest.length + 3 := by
              have := congrArg List.length hl2
              simp at this ⊢; omega
            rw [this]; exact hcap


theorem loop_sim {pt : Nat → Point} {n : Nat} :
    ∀ (fuel : Nat) {s : State} {r : RingState}, Holds pt n s r →
      Polygon.loop n fuel s = ringLoop pt fuel r
  | 0, _, _, _ => rfl
  | fuel + 1, s, r, H => by
    have hs := step_sim H
    simp only [Polygon.loop, ringLoop]
    cases h1 : Polygon.step n s with
    | next s1 =>
      cases h2 : ringStep pt r with
      | next r1 =>
        rw [h1, h2] at hs
        exact loop_sim fuel hs
      | ret t e => rw [h1, h2] at hs; exact hs.elim
    | ret t e =>
      cases h2 : ringStep pt r with
      | next r1 => rw [h1, h2] at hs; exact hs.elim
      | ret t1 e1 =>
        rw [h1, h2] at hs
        simp only [StepMatch] at hs
        simp [hs.1, hs.2]
    | fault f =>
      cases h2 : ringStep pt r with
      | next r1 => rw [h1, h2] at hs; exact hs.elim
      | ret t1 e1 => rw [h1, h2] at hs; exact hs.elim

/-- The point of the input at position `k`. -/
theorem initElements_point (points : List Point) (k : Nat) :
    (Polygon.initElements points k).Point = points.getD k default := by
  unfold Polygon.initElements
  simp only
  split_ifs with h1 h2 h3
  · rw [h1]
  · rfl
  · rw [h3]
  · have : points.length ≤ k := by omega
    rw [List.getD_eq_default _ _ this]
    rfl

theorem initElements_chain (points : List Point) (hn : 2 ≤ points.length) :
    ∀ (k a : Nat), a + k + 1 = points.length →
      List.Chain (Follows (Polygon.initElements points)) a (List.range' (a + 1) k ++ [0])
  | 0, a, h => by
    have ha : a = points.length - 1 := by omega
    have h0 : ¬ a = 0 := by omega
    simp only [List.range'_zero, List.nil_append, List.chain_cons, List.Chain.nil, and_true,
      Follows, Polygon.initElements]
    have h1 : ¬ points.length - 1 = 0 := by omega
    simp [h0, ha, h1]
  | k + 1, a, h => by
    rw [List.range'_succ, List.cons_append, List.chain_cons]
    refine ⟨?_, initElements_chain points hn k (a + 1) (by omega)⟩
    simp only [Follows, Polygon.initElements]
    by_cases h0 : a = 0
    · subst h0
      by_cases h1 : 1 < points.length - 1
      · simp [h1]
      · have : 1 = points.length - 1 := by omega
        simp [h1, ← this]
        omega
    · have h1 : a < points.length - 1 := by omega
      simp only [h0, h1, if_true, if_false, Nat.add_eq_zero, one_ne_zero, and_false,
        add_tsub_cancel_right, true_and]
      by_cases h2 : a + 1 < points.length - 1
      · simp [h2]
      · have : a + 1 = points.length - 1 := by omega
        simp [h2, this]
        omega

theorem initElements_ring (points : List Point) (hn : 2 ≤ points.length) :
    IsRing (Polygon.initElements points) 0 (List.range' 1 (points.length - 1)) := by
  refine ⟨?_, initElements_chain points hn (points.length - 1) 0 (by omega)⟩
  have : (0 :: List.range' 1 (points.length - 1)) = List.range' 0 (points.length - 1 + 1) := by
    rw [List.range'_succ]
  rw [this]
  exact List.nodup_range' _ _

theorem holds_init (points : List Point) (hn : 3 ≤ points.length) :
    Holds (fun k => points.getD k default) points.length (Polygon.init points)
      ⟨[], List.range points.length, []⟩ := by
  have hr : List.range points.length = 0 :: List.range' 1 (points.length - 1) := by
    rw [List.range_eq_range']
    obtain ⟨m, hm⟩ : ∃ m, points.length = m + 1 := ⟨points.length - 1, by omega⟩
    rw [hm, List.range'_succ]; simp
  refine ⟨initElements_point points, ⟨0, _, ?_, initElements_ring points (by omega), ?_⟩, ?_, ?_,
    ?_, rfl, rfl, ?_, ?_⟩
  · simp [hr]
  · simp; omega
  · simp [hr]
  · simp [hr, Polygon.init]
  · simp [hr, Polygon.init]
  · simp only [List.append_nil, List.length_range, List.length_replicate, Polygon.init]
    omega
  · simp [Polygon.init]

/-- The function `Polygon` is the clipping loop over the ring `0, 1, ..., n-1` as a list. -/
theorem Polygon_eq_ringLoop (points : List Point) (hn : 3 ≤ points.length) :
    Polygon points =
      ringLoop (fun k => points.getD k default) (points.length * points.length)
        ⟨[], List.range points.length, []⟩ := by
  unfold Polygon
  simp only [if_neg (by omega : ¬ points.length < 3)]
  apply loop_sim
  exact holds_init points hn


/-! ## The loop on the ring as a list -/

theorem ringStep_spec (pt : Nat → Point) (s : RingState) :
    RingStepSpec pt s (ringStep pt s) := by
  obtain ⟨pre, post, out⟩ := s
  unfold ringStep
  simp only
  match hm : post ++ pre with
  | [] => exact RingStepSpec.done (by simp [hm])
  | [_] => exact RingStepSpec.done (by simp [hm])
  | [_, _] => exact RingStepSpec.done (by simp [hm])
  | e :: c :: r :: rest =>
    simp only
    by_cases hE : isEarRing pt (e :: c :: r :: rest) = true
    · simp only [hE, if_true]
      by_cases hA : polygonArea [pt ((r :: rest).getLast (List.cons_ne_nil r rest)), pt e, pt c] > 0
      · simp only [hA, if_true]
        exact RingStepSpec.emit e c r rest hm hE hA
      · simp only [hA, if_false]
        exact RingStepSpec.drop e c r rest hm hE hA
    · simp only [hE, if_false]
      have hE' : isEarRing pt (post ++ pre) = false := by
        rw [hm]; simpa using hE
      have h3 : 3 ≤ (post ++ pre).length := by rw [hm]; simp
      match post, hm, hE', h3 with
      | [], hm, hE', h3 => exact RingStepSpec.stuck (by simp) h3 hE'
      | [_], hm, hE', h3 => exact RingStepSpec.stuck (by simp) h3 hE'
      | e1 :: c1 :: post1, hm, hE', h3 =>
        simp only [List.cons_append, List.cons.injEq] at hm
        obtain ⟨rfl, rfl, _⟩ := hm
        exact RingStepSpec.advance e1 c1 post1 rfl h3 hE'

theorem ringLoop_inv {pt : Nat → Point} (I : RingState → Prop)
    (hI : ∀ s s1, I s → ringStep pt s = .next s1 → I s1) :
    ∀ (fuel : Nat) (s : RingState) (t : List ℚ) (e : Option GoError), I s →
      ringLoop pt fuel s = .ok (t, e) → ∃ s1, I s1 ∧ ringStep pt s1 = .ret t e
  | 0, _, _, _, _, h => by simp [ringLoop] at h
  | fuel + 1, s, t, e, hs, h => by
    simp only [ringLoop] at h
    cases h1 : ringStep pt s with
    | next s1 =>
      rw [h1] at h
      exact ringLoop_inv I hI fuel s1 t e (hI s s1 hs h1) h
    | ret t1 e1 =>
      rw [h1] at h
      simp only [Except.ok.injEq, Prod.mk.injEq] at h
      exact ⟨s, hs, by rw [h1, h.1, h.2]⟩

theorem le_lapBudget : ∀ m, m ≤ lapBudget m
  | 0 => le_refl _
  | m + 1 => by simp only [lapBudget]; omega

theorem two_mul_lapBudget : ∀ m, 2 * lapBudget m = m * (m + 1)
  | 0 => rfl
  | m + 1 => by
    simp only [lapBudget, Nat.mul_add, two_mul_lapBudget m]
    ring

theorem potential_step {pt : Nat → Point} {s s1 : RingState} (hp : s.post ≠ [])
    (h : ringStep pt s = .next s1) : s1.post ≠ [] ∧ potential s1 < potential s := by
  have hs := ringStep_spec pt s
  rw [h] at hs
  have hk : s.pre.length < (s.post ++ s.pre).length := by
    rw [List.length_append]
    have : 0 < s.post.length := List.length_pos.2 hp
    omega
  cases hs with
  | emit e c r rest hm hE hA =>
    refine ⟨by simp, ?_⟩
    have hlen : (s.post ++ s.pre).length = rest.length + 3 := by rw [hm]; simp
    have hlen1 : ((c :: r :: rest) ++ ([] : List Nat)).length = rest.length + 2 := by simp
    have hb : lapBudget (rest.length + 3) = lapBudget (rest.length + 2) + (rest.length + 3) := rfl
    simp only [potential, hlen, hlen1, hb, List.length_nil] at hk ⊢
    omega
  | drop e c r rest hm hE hA =>
    refine ⟨by simp, ?_⟩
    have hlen : (s.post ++ s.pre).length = rest.length + 3 := by rw [hm]; simp
    have hlen1 : ((c :: r :: rest) ++ ([] : List Nat)).length = rest.length + 2 := by simp
    have hb : lapBudget (rest.length + 3) = lapBudget (rest.length + 2) + (rest.length + 3) := rfl
    simp only [potential, hlen, hlen1, hb, List.length_nil] at hk ⊢
    omega
  | advance e c post1 hpost h3 hE =>
    refine ⟨by simp, ?_⟩
    have hlen : ((c :: post1) ++ (s.pre ++ [e])).length = (s.post ++ s.pre).length := by
      rw [hpost]; simp; omega
    simp only [potential, hlen]
    have := le_lapBudget (s.post ++ s.pre).length
    generalize (s.post ++ s.pre).length = m at hk this ⊢
    simp only [List.length_append, List.length_singleton]
    omega

/-- With more fuel than the potential of the state, the loop returns. -/
theorem ringLoop_returns {pt : Nat → Point} :
    ∀ (fuel : Nat) (s : RingState), s.post ≠ [] → potential s < fuel →
      (∃ res, ringLoop pt fuel s = .ok res)
  | 0, _, _, h => by omega
  | fuel + 1, s, hp, h => by
    simp only [ringLoop]
    cases h1 : ringStep pt s with
    | next s1 =>
      have := potential_step hp h1
      exact ringLoop_returns fuel s1 this.1 (by omega)
    | ret t e => exact ⟨_, rfl⟩

theorem potential_init (n : Nat) (hn : 3 ≤ n) :
    potential ⟨[], List.range n, []⟩ < n * n := by
  simp only [potential, List.append_nil, List.length_range, List.length_nil, Nat.sub_zero]
  have := two_mul_lapBudget n
  nlinarith

/-- The function `Polygon` always returns: it neither panics nor runs out of fuel. -/
theorem Polygon_returns (points : List Point) : ∃ res, Polygon points = .ok res := by
  by_cases hn : points.length < 3
  · exact ⟨([], some .lessThanThreePoints), by simp [Polygon, hn]⟩
  · rw [Polygon_eq_ringLoop points (by omega)]
    refine ringLoop_returns _ _ ?_ (potential_init _ (by omega))
    intro h
    have := congrArg List.length h
    simp only [List.length_range, List.length_nil] at this
    omega


/-! ## Areas -/

theorem polygonArea_triangle (a b c : Point) : polygonArea [a, b, c] = ccw a b c / 2 := by
  simp only [polygonArea, List.getLast?, List.getLast, shoelaceSum, Point.Cross, ccw]
  ring

theorem isReflex_eq_false_iff (a b c : Point) : isReflex a b c = false ↔ 0 ≤ ccw a b c := by
  simp [isReflex, ccw]

theorem shoelaceSum_append_singleton :
    ∀ (l : List Point) (p q : Point),
      shoelaceSum p (l ++ [q]) =
        shoelaceSum p l + ((p :: l).getLast (List.cons_ne_nil p l)).Cross q
  | [], p, q => by simp [shoelaceSum]
  | x :: l, p, q => by
    have ih := shoelaceSum_append_singleton l x q
    rw [List.cons_append]
    simp only [shoelaceSum, List.getLast_cons_cons]
    rw [ih]
    ring

theorem polygonArea_cons (e : Point) (l : List Point) :
    polygonArea (e :: l) =
      (((e :: l).getLast (List.cons_ne_nil e l)).Cross e + shoelaceSum e l) / 2 := by
  simp only [polygonArea, List.getLast?_eq_getLast _ (List.cons_ne_nil e l), shoelaceSum]

/-- The shoelace area does not depend on the vertex the polygon starts at. -/
theorem polygonArea_rotate (e : Point) (l : List Point) :
    polygonArea (l ++ [e]) = polygonArea (e :: l) := by
  rw [polygonArea_cons]
  cases l with
  | nil => simp [polygonArea, shoelaceSum]
  | cons x l =>
    rw [List.cons_append, polygonArea_cons, shoelaceSum_append_singleton]
    simp only [shoelaceSum, List.getLast_cons_cons]
    have : (x :: (l ++ [e])).getLast (List.cons_ne_nil _ _) = e := by
      simp [List.getLast_cons_cons, List.getLast_append]
    rw [this]
    have h2 : (e :: x :: l).getLast (List.cons_ne_nil _ _)
        = (x :: l).getLast (List.cons_ne_nil _ _) := List.getLast_cons_cons ..
    simp only [List.getLast_cons_cons] at h2 ⊢
    ring

/-- Cutting the vertex `e` off the polygon `e :: c :: rest` removes the area of
the triangle `(p, e, c)`, where `p` is the vertex before `e`. -/
theorem polygonArea_clip (e c : Point) (rest : List Point) :
    polygonArea (e :: c :: rest) =
      polygonArea (c :: rest) +
        polygonArea [(c :: rest).getLast (List.cons_ne_nil c rest), e, c] := by
  rw [polygonArea_cons, polygonArea_cons, polygonArea_triangle]
  simp only [List.getLast_cons_cons, shoelaceSum, Point.Cross, ccw]
  ring

theorem polygonArea_short (l : List Point) (h : l.length ≤ 2) : polygonArea l = 0 := by
  match l, h with
  | [], _ => rfl
  | [a], _ => simp [polygonArea, shoelaceSum, Point.Cross]; ring
  | [a, b], _ => simp [polygonArea, shoelaceSum, Point.Cross]; ring

theorem triangles_append (l : List ℚ) :
    ∀ (out : List ℚ), out.length % 6 = 0 → triangles (out ++ l) = triangles out ++ triangles l := by
  intro out
  induction out using triangles.induct with
  | case1 ax ay bx by1 cx cy rest ih =>
    intro h
    have h2 : rest.length % 6 = 0 := by simp at h; omega
    simp [triangles, ih h2]
  | case2 out hne =>
    intro h
    match out, hne, h with
    | [], _, _ => simp [triangles]
    | [_], _, h => simp at h
    | [_, _], _, h => simp at h
    | [_, _, _], _, h => simp at h
    | [_, _, _, _], _, h => simp at h
    | [_, _, _, _, _], _, h => simp at h
    | ax :: ay :: bx :: by1 :: cx :: cy :: rest, hne, _ => exact absurd rfl (hne ax ay bx by1 cx cy rest)

theorem triangles_coords (a b c : Point) : triangles (coords a b c) = [(a, b, c)] := by
  simp [coords, triangles]

theorem triangleAreaSum_append_coords (out : List ℚ) (h : out.length % 6 = 0) (a b c : Point) :
    triangleAreaSum (out ++ coords a b c) = triangleAreaSum out + polygonArea [a, b, c] := by
  simp [triangleAreaSum, triangles_append _ _ h, triangles_coords]


/-! ## The invariant of the clipping loop -/

theorem isEarRing_not_reflex {pt : Nat → Point} {e c r : Nat} {rest : List Nat}
    (h : isEarRing pt (e :: c :: r :: rest) = true) :
    0 ≤ ccw (pt ((r :: rest).getLast (List.cons_ne_nil r rest))) (pt e) (pt c) := by
  simp only [isEarRing, List.getLast_cons_cons, Bool.and_eq_true, Bool.not_eq_true'] at h
  exact (isReflex_eq_false_iff _ _ _).1 h.1

theorem polygonArea_clip_map (pt : Nat → Point) (e c r : Nat) (rest : List Nat) :
    polygonArea ((e :: c :: r :: rest).map pt) =
      polygonArea ((c :: r :: rest).map pt) +
        polygonArea [pt ((r :: rest).getLast (List.cons_ne_nil r rest)), pt e, pt c] := by
  have h := polygonArea_clip (pt e) (pt c) ((r :: rest).map pt)
  have hl : (pt c :: (r :: rest).map pt).getLast (List.cons_ne_nil _ _)
      = pt ((r :: rest).getLast (List.cons_ne_nil r rest)) := by
    have := List.getLast_map pt (l := c :: r :: rest) (by simp)
    simpa [List.getLast_cons_cons] using this
  rw [hl] at h
  exact h

theorem RingInv.step {pt : Nat → Point} {n : Nat} {A : ℚ} {s s1 : RingState}
    (H : RingInv pt n A s) (h : ringStep pt s = .next s1) : RingInv pt n A s1 := by
  have hs := ringStep_spec pt s
  rw [h] at hs
  obtain ⟨hpost, hnd, hb, h6, hcap, harea, hccw, hsrc⟩ := H
  cases hs with
  | emit e c r rest hm hE hA =>
    rw [hm] at hnd hb hcap harea
    set p := (r :: rest).getLast (List.cons_ne_nil r rest) with hp
    have hpmem : p ∈ r :: rest := List.getLast_mem _
    have hclip := polygonArea_clip_map pt e c r rest
    rw [← hp] at hclip
    have hnd1 : (c :: r :: rest).Nodup := (List.nodup_cons.1 hnd).2
    have hpe : p ≠ e := fun hh =>
      (List.nodup_cons.1 hnd).1 (List.mem_cons_of_mem _ (hh ▸ hpmem))
    have hpc : p ≠ c := fun hh => (List.nodup_cons.1 hnd1).1 (hh ▸ hpmem)
    have hec : e ≠ c := fun hh => (List.nodup_cons.1 hnd).1 (hh ▸ List.mem_cons_self _ _)
    have hnew : triangles (s.out ++ coords (pt p) (pt e) (pt c))
        = triangles s.out ++ [(pt p, pt e, pt c)] := by
      rw [triangles_append _ _ h6, triangles_coords]
    refine ⟨by simp, by simpa using hnd1, ?_, ?_, ?_, ?_, ?_, ?_⟩
    · intro x hx
      exact hb x (List.mem_cons_of_mem _ (by simpa using hx))
    · simp [coords]; omega
    · simp only [List.append_nil, List.length_append, coords, List.length_cons,
        List.length_nil] at hcap ⊢
      omega
    · simp only [List.append_nil]
      rw [triangleAreaSum_append_coords _ h6, ← harea]
      simp only [List.map_cons] at hclip ⊢
      rw [hclip]; ring
    · intro tr htr
      rw [hnew, List.mem_append, List.mem_singleton] at htr
      rcases htr with htr | rfl
      · exact hccw tr htr
      · rw [polygonArea_triangle] at hA
        simp only
        linarith
    · intro tr htr
      rw [hnew, List.mem_append, List.mem_singleton] at htr
      rcases htr with htr | rfl
      · exact hsrc tr htr
      · exact ⟨p, e, c, hb p (by simp [hpmem]), hb e (by simp), hb c (by simp), hpe, hec, hpc, rfl⟩
  | drop e c r rest hm hE hA =>
    rw [hm] at hnd hb hcap harea
    set p := (r :: rest).getLast (List.cons_ne_nil r rest) with hp
    have hclip := polygonArea_clip_map pt e c r rest
    rw [← hp] at hclip
    have hnd1 : (c :: r :: rest).Nodup := (List.nodup_cons.1 hnd).2
    have hzero : polygonArea [pt p, pt e, pt c] = 0 := by
      have h0 := isEarRing_not_reflex hE
      rw [polygonArea_triangle] at hA ⊢
      have : Triangolatte.ccw (pt p) (pt e) (pt c) ≤ 0 := by
        by_contra hh
        exact hA (by push_neg at hh; positivity)
      have : Triangolatte.ccw (pt p) (pt e) (pt c) = 0 := le_antisymm this h0
      rw [this]; simp
    refine ⟨by simp, by simpa using hnd1, ?_, h6, ?_, ?_, hccw, hsrc⟩
    · intro x hx
      exact hb x (List.mem_cons_of_mem _ (by simpa using hx))
    · simp only [List.append_nil, List.length_cons] at hcap ⊢
      omega
    · simp only [List.append_nil]
      rw [← harea]
      simp only [List.map_cons] at hclip ⊢
      rw [hclip, hzero]; ring
  | advance e c post1 hpost1 h3 hE =>
    have hperm : ((c :: post1) ++ (s.pre ++ [e])).Perm (s.post ++ s.pre) := by
      rw [hpost1]
      have : (c :: post1) ++ (s.pre ++ [e]) = (c :: (post1 ++ s.pre)) ++ [e] := by simp
      rw [this]
      exact List.perm_append_singleton e _
    refine ⟨by simp, hperm.nodup_iff.2 hnd, ?_, h6, ?_, ?_, hccw, hsrc⟩
    · intro x hx
      exact hb x (hperm.mem_iff.1 hx)
    · rw [hperm.length_eq]; exact hcap
    · rw [← harea, hpost1]
      have : (c :: post1) ++ (s.pre ++ [e]) = (c :: (post1 ++ s.pre)) ++ [e] := by simp
      simp only [this, List.map_append, List.map_cons, List.map_nil, List.cons_append]
      rw [← polygonArea_rotate (pt e)]
      simp

theorem map_getD_range (points : List Point) :
    (List.range points.length).map (fun k => points.getD k default) = points := by
  apply List.ext_getElem
  · simp
  · intro i h1 h2
    simp [List.getD_eq_getElem?_getD, List.getElem?_eq_getElem h2]

theorem ringInv_init (points : List Point) (hn : 3 ≤ points.length) :
    RingInv (fun k => points.getD k default) points.length (polygonArea points)
      ⟨[], List.range points.length, []⟩ := by
  refine ⟨?_, by simpa using List.nodup_range _, by simp, rfl, ?_, ?_, by simp [triangles],
    by simp [triangles]⟩
  · intro h
    have := congrArg List.length h
    simp only [List.length_range, List.length_nil] at this
    omega
  · simp
  · have := map_getD_range points
    simp only [List.append_nil, this, triangleAreaSum, triangles, List.map_nil, List.sum_nil,
      zero_add]

/-- What `Polygon` returns on at least three points: the outcome of the last
iteration from a ring state that satisfies the invariant. -/
theorem Polygon_result {points : List Point} {t : List ℚ} {e : Option GoError}
    (hn : 3 ≤ points.length) (h : Polygon points = .ok (t, e)) :
    ∃ s, RingInv (fun k => points.getD k default) points.length (polygonArea points) s ∧
      ringStep (fun k => points.getD k default) s = .ret t e := by
  rw [Polygon_eq_ringLoop points hn] at h
  exact ringLoop_inv _ (fun s s1 hs h1 => hs.step h1) _ _ t e (ringInv_init points hn) h

theorem Polygon_short {points : List Point} (hn : points.length < 3) :
    Polygon points = .ok ([], some .lessThanThreePoints) := by
  simp [Polygon, hn]


/-! ## Results on `Polygon` -/

/-- A successful run of `Polygon` ends in a ring of at most two nodes. -/
theorem Polygon_ok_final {points : List Point} {t : List ℚ}
    (h : Polygon points = .ok (t, none)) :
    3 ≤ points.length ∧
    ∃ s, RingInv (fun k => points.getD k default) points.length (polygonArea points) s ∧
      s.out = t ∧ (s.post ++ s.pre).length ≤ 2 := by
  by_cases hn : points.length < 3
  · rw [Polygon_short hn] at h
    simp at h
  · have hn3 : 3 ≤ points.length := by omega
    obtain ⟨s, hs, hret⟩ := Polygon_result hn3 h
    have hspec := ringStep_spec (fun k => points.getD k default) s
    rw [hret] at hspec
    cases hspec with
    | done hlen => exact ⟨hn3, s, hs, rfl, hlen⟩

/-- A run of `Polygon` that returns an error returns no triangles. -/
theorem Polygon_error_empty {points : List Point} {t : List ℚ} {e : GoError}
    (h : Polygon points = .ok (t, some e)) : t = [] := by
  by_cases hn : points.length < 3
  · rw [Polygon_short hn] at h
    simp only [Except.ok.injEq, Prod.mk.injEq] at h
    exact h.1.symm
  · obtain ⟨s, _, hret⟩ := Polygon_result (by omega) h
    have hspec := ringStep_spec (fun k => points.getD k default) s
    rw [hret] at hspec
    cases hspec with
    | stuck _ _ _ => rfl

theorem isEar_true_not_reflex {fuel : Nat} {hp : Heap} {ear : Nat}
    (h : isEar fuel hp ear = .ok true) :
    isReflex (hp (hp ear).Prev).Point (hp ear).Point (hp (hp ear).Next).Point = false := by
  unfold isEar at h
  by_contra hh
  simp only [Bool.not_eq_false] at hh
  simp [hh] at h

theorem mem_triangles_of_mem :
    ∀ (t : List ℚ), t.length % 6 = 0 → ∀ x ∈ t, ∃ tr ∈ triangles t,
      x = tr.1.X ∨ x = tr.1.Y ∨ x = tr.2.1.X ∨ x = tr.2.1.Y ∨ x = tr.2.2.X ∨ x = tr.2.2.Y := by
  intro t
  induction t using triangles.induct with
  | case1 ax ay bx by1 cx cy rest ih =>
    intro h x hx
    have h2 : rest.length % 6 = 0 := by simp at h; omega
    simp only [List.mem_cons] at hx
    simp only [triangles, List.mem_cons, exists_eq_or_imp]
    rcases hx with rfl | rfl | rfl | rfl | rfl | rfl | hx
    · exact Or.inl (Or.inl rfl)
    · exact Or.inl (Or.inr (Or.inl rfl))
    · exact Or.inl (Or.inr (Or.inr (Or.inl rfl)))
    · exact Or.inl (Or.inr (Or.inr (Or.inr (Or.inl rfl))))
    · exact Or.inl (Or.inr (Or.inr (Or.inr (Or.inr (Or.inl rfl)))))
    · exact Or.inl (Or.inr (Or.inr (Or.inr (Or.inr (Or.inr rfl)))))
    · exact Or.inr (ih h2 x hx)
  | case2 out hne =>
    intro h x hx
    match out, hne, h, hx with
    | [], _, _, hx => simp at hx
    | [_], _, h, _ => simp at h
    | [_, _], _, h, _ => simp at h
    | [_, _, _], _, h, _ => simp at h
    | [_, _, _, _], _, h, _ => simp at h
    | [_, _, _, _, _], _, h, _ => simp at h
    | ax :: ay :: bx :: by1 :: cx :: cy :: rest, hne, _, _ =>
      exact absurd rfl (hne ax ay bx by1 cx cy rest)

theorem length_triangles : ∀ (t : List ℚ), t.length % 6 = 0 →
    t.length = 6 * (triangles t).length := by
  intro t
  induction t using triangles.induct with
  | case1 ax ay bx by1 cx cy rest ih =>
    intro h
    have h2 : rest.length % 6 = 0 := by simp at h; omega
    simp only [triangles, List.length_cons, ih h2]
    omega
  | case2 out hne =>
    intro h
    match out, hne, h with
    | [], _, _ => simp [triangles]
    | [_], _, h => simp at h
    | [_, _], _, h => simp at h
    | [_, _, _], _, h => simp at h
    | [_, _, _, _], _, h => simp at h
    | [_, _, _, _, _], _, h => simp at h
    | ax :: ay :: bx :: by1 :: cx :: cy :: rest, hne, _ =>
      exact absurd rfl (hne ax ay bx by1 cx cy rest)

theorem Polygon_ok_len6 (points : List Point) (t : List ℚ)
    (h : Polygon points = .ok (t, none)) : t.length % 6 = 0 := by
  obtain ⟨_, s, hs, rfl, _⟩ := Polygon_ok_final h
  exact hs.len6

theorem Holds.iter {pt : Nat → Point} {n : Nat} :
    ∀ (k : Nat) {s s1 : State} {r : RingState}, Holds pt n s r →
      Polygon.iter n k s = some s1 → ∃ r1, Holds pt n s1 r1
  | 0, s, s1, r, H, h => by
    simp only [Polygon.iter, Option.some.injEq] at h
    exact ⟨r, h ▸ H⟩
  | k + 1, s, s1, r, H, h => by
    have hs := step_sim H
    simp only [Polygon.iter] at h
    cases h1 : Polygon.step n s with
    | next s2 =>
      rw [h1] at h hs
      cases h2 : ringStep pt r with
      | next r2 =>
        rw [h2] at hs
        exact Holds.iter k hs h
      | ret t e => rw [h2] at hs; exact hs.elim
    | ret t e => rw [h1] at h; simp at h
    | fault f => rw [h1] at h; simp at h

/-- In a state that holds a ring and in which the loop body is entered, there
is room in the buffer for six more values. -/
theorem Holds.room {pt : Nat → Point} {n : Nat} {s : State} {r : RingState}
    (H : Holds pt n s r) (h : (s.elements s.ear).Prev ≠ (s.elements s.ear).Next) :
    s.i + 6 ≤ s.t.length := by
  have hs := step_sim H
  have hcap := H.cap
  have hspec := ringStep_spec pt r
  have h3 : 3 ≤ (r.post ++ r.pre).length := by
    by_contra hlt
    have hd : ringStep pt r = .ret r.out none := by
      generalize hrs : ringStep pt r = rs at hspec
      cases hspec with
      | done _ => rfl
      | emit e c r1 rest hm _ _ => rw [hm] at hlt; simp at hlt
      | drop e c r1 rest hm _ _ => rw [hm] at hlt; simp at hlt
      | advance _ _ _ _ h3 _ => exact absurd h3 hlt
      | stuck _ h3 _ => exact absurd h3 hlt
    rw [hd] at hs
    unfold Polygon.step at hs
    simp only [if_neg h] at hs
    cases hE : isEar n s.elements s.ear with
    | error f => rw [hE] at hs; exact hs
    | ok b =>
      rw [hE] at hs
      cases b with
      | false =>
        simp only at hs
        split_ifs at hs
        · simp [StepMatch] at hs
        · exact hs
      | true =>
        simp only at hs
        split_ifs at hs
        · split at hs <;> exact hs
        · exact hs
  omega


/-! ## Claims on `Polygon` -/

/-- C1 (area conservation). When `Polygon` returns no error, the shoelace
signed areas of the emitted triangles add up to the shoelace signed area of the
input polygon, in exact arithmetic; and a triangle that is dropped (the
candidate passed `isEar` and the test `polygonArea(...) > 0` failed) has area
exactly zero. -/
theorem C1_area_conservation (points : List Point) (t : List ℚ)
    (h : Polygon points = .ok (t, none)) :
    triangleAreaSum t = polygonArea points ∧
    ∀ (fuel : Nat) (hp : Heap) (ear : Nat), isEar fuel hp ear = .ok true →
      ¬ polygonArea [(hp (hp ear).Prev).Point, (hp ear).Point, (hp (hp ear).Next).Point] > 0 →
      polygonArea [(hp (hp ear).Prev).Point, (hp ear).Point, (hp (hp ear).Next).Point] = 0 := by
  refine ⟨?_, ?_⟩
  · obtain ⟨_, s, hs, rfl, hlen⟩ := Polygon_ok_final h
    have := hs.area
    rw [polygonArea_short _ (by simpa using hlen)] at this
    simpa using this
  · intro fuel hp ear hE hA
    have h0 := (isReflex_eq_false_iff _ _ _).1 (isEar_true_not_reflex hE)
    rw [polygonArea_triangle] at hA ⊢
    have h1 : ccw (hp (hp ear).Prev).Point (hp ear).Point (hp (hp ear).Next).Point ≤ 0 := by
      by_contra hh
      exact hA (by push_neg at hh; positivity)
    rw [le_antisymm h1 h0]
    simp

/-- Witness of C1: a pentagon with a collinear vertex, of area 4; two triangles
are emitted and one is dropped. -/
theorem C1_area_conservation_witness :
    triangleAreaSum [0, 2, 0, 0, 2, 0, 0, 2, 2, 0, 2, 2] =
      polygonArea [⟨0, 0⟩, ⟨2, 0⟩, ⟨2, 2⟩, ⟨1, 2⟩, ⟨0, 2⟩] :=
  (C1_area_conservation [⟨0, 0⟩, ⟨2, 0⟩, ⟨2, 2⟩, ⟨1, 2⟩, ⟨0, 2⟩]
    [0, 2, 0, 0, 2, 0, 0, 2, 2, 0, 2, 2] (by decide!)).1

/-- C2 (counter-clockwise output). Whatever `Polygon` returns, its output is
made of whole groups of six values and in every group `(ax, ay, bx, by, cx, cy)`
the cross product `(b-a) × (c-b)` is strictly positive. -/
theorem C2_triangles_strictly_ccw (points : List Point) (t : List ℚ) (e : Option GoError)
    (h : Polygon points = .ok (t, e)) :
    t.length = 6 * (triangles t).length ∧
    ∀ tr ∈ triangles t, 0 < ccw tr.1 tr.2.1 tr.2.2 := by
  cases e with
  | some e =>
    rw [Polygon_error_empty h]
    simp [triangles]
  | none =>
    obtain ⟨_, s, hs, rfl, _⟩ := Polygon_ok_final h
    exact ⟨length_triangles _ hs.len6, hs.ccw⟩

/-- Witness of C2 on the unit square. -/
theorem C2_triangles_strictly_ccw_witness :
    [(0 : ℚ), 1, 0, 0, 1, 0, 0, 1, 1, 0, 1, 1].length
        = 6 * (triangles [0, 1, 0, 0, 1, 0, 0, 1, 1, 0, 1, 1]).length ∧
    ∀ tr ∈ triangles [0, 1, 0, 0, 1, 0, 0, 1, 1, 0, 1, 1], 0 < ccw tr.1 tr.2.1 tr.2.2 :=
  C2_triangles_strictly_ccw [⟨0, 0⟩, ⟨1, 0⟩, ⟨1, 1⟩, ⟨0, 1⟩]
    [0, 1, 0, 0, 1, 0, 0, 1, 1, 0, 1, 1] none (by decide!)

/-- C3 (triangle count bound). `Polygon` always returns (no write to `t` and no
slice of it is out of range); when it returns no error, the length of the output
is a multiple of 6 and at most `6 * (n - 2)`; and in every state that the loop
reaches, `t` has length `6 * (n - 2)`, the write index `i` is within it, and
whenever the loop body is entered there is room for the six values of one more
triangle. -/
theorem C3_triangle_count_bound (points : List Point) :
    (∃ res, Polygon points = .ok res) ∧
    (∀ t, Polygon points = .ok (t, none) →
      t.length % 6 = 0 ∧ t.length ≤ 6 * (points.length - 2)) ∧
    (3 ≤ points.length → ∀ k s, Polygon.iter points.length k (Polygon.init points) = some s →
      s.t.length = 6 * (points.length - 2) ∧ s.i ≤ s.t.length ∧
      ((s.elements s.ear).Prev ≠ (s.elements s.ear).Next → s.i + 6 ≤ s.t.length)) := by
  refine ⟨Polygon_returns points, ?_, ?_⟩
  · intro t h
    obtain ⟨_, s, hs, rfl, _⟩ := Polygon_ok_final h
    have := hs.cap
    exact ⟨hs.len6, by omega⟩
  · intro hn k s hk
    obtain ⟨r, hr⟩ := Holds.iter k (holds_init points hn) hk
    have := hr.cap
    exact ⟨by rw [hr.buf, Nat.mul_comm], by omega, hr.room⟩

/-- Witness of C3 on the unit square: `12 ≤ 6 * (4 - 2)`. -/
theorem C3_triangle_count_bound_witness :
    [(0 : ℚ), 1, 0, 0, 1, 0, 0, 1, 1, 0, 1, 1].length % 6 = 0 ∧
      [(0 : ℚ), 1, 0, 0, 1, 0, 0, 1, 1, 0, 1, 1].length
        ≤ 6 * ([(⟨0, 0⟩ : Point), ⟨1, 0⟩, ⟨1, 1⟩, ⟨0, 1⟩].length - 2) :=
  (C3_triangle_count_bound [⟨0, 0⟩, ⟨1, 0⟩, ⟨1, 1⟩, ⟨0, 1⟩]).2.1
    [0, 1, 0, 0, 1, 0, 0, 1, 1, 0, 1, 1] (by decide!)

/-- C4 (ear validity). When `Polygon` returns no error, every emitted triangle
is made of the points at three distinct positions of the input, and every value
of the output is a coordinate of an input point. -/
theorem C4_vertices_from_input (points : List Point) (t : List ℚ)
    (h : Polygon points = .ok (t, none)) :
    (∀ tr ∈ triangles t, ∃ i j k : Nat, i ≠ j ∧ j ≠ k ∧ i ≠ k ∧
      points[i]? = some tr.1 ∧ points[j]? = some tr.2.1 ∧ points[k]? = some tr.2.2) ∧
    (∀ x ∈ t, ∃ p ∈ points, x = p.X ∨ x = p.Y) := by
  obtain ⟨_, s, hs, rfl, _⟩ := Polygon_ok_final h
  have hget : ∀ i, i < points.length → points[i]? = some (points.getD i default) := by
    intro i hi
    rw [List.getD_eq_getElem?_getD, List.getElem?_eq_getElem hi]
    rfl
  have h1 : ∀ tr ∈ triangles s.out, ∃ i j k : Nat, i ≠ j ∧ j ≠ k ∧ i ≠ k ∧
      points[i]? = some tr.1 ∧ points[j]? = some tr.2.1 ∧ points[k]? = some tr.2.2 := by
    intro tr htr
    obtain ⟨i, j, k, hi, hj, hk, hij, hjk, hik, rfl⟩ := hs.src tr htr
    exact ⟨i, j, k, hij, hjk, hik, hget i hi, hget j hj, hget k hk⟩
  refine ⟨h1, ?_⟩
  intro x hx
  obtain ⟨tr, htr, hx⟩ := mem_triangles_of_mem _ hs.len6 x hx
  obtain ⟨i, j, k, _, _, _, hi, hj, hk⟩ := h1 tr htr
  have mi := List.getElem?_mem hi
  have mj := List.getElem?_mem hj
  have mk := List.getElem?_mem hk
  rcases hx with hx | hx | hx | hx | hx | hx
  · exact ⟨_, mi, Or.inl hx⟩
  · exact ⟨_, mi, Or.inr hx⟩
  · exact ⟨_, mj, Or.inl hx⟩
  · exact ⟨_, mj, Or.inr hx⟩
  · exact ⟨_, mk, Or.inl hx⟩
  · exact ⟨_, mk, Or.inr hx⟩

/-- Witness of C4 on the quadrilateral `(0,6), (0,1), (2,2), (3,2)`: the value
`3` of the output is a coordinate of an input point. -/
theorem C4_vertices_from_input_witness :
    ∃ p ∈ [(⟨0, 6⟩ : Point), ⟨0, 1⟩, ⟨2, 2⟩, ⟨3, 2⟩], (3 : ℚ) = p.X ∨ (3 : ℚ) = p.Y :=
  (C4_vertices_from_input [⟨0, 6⟩, ⟨0, 1⟩, ⟨2, 2⟩, ⟨3, 2⟩]
    [0, 6, 0, 1, 2, 2, 0, 6, 2, 2, 3, 2] (by decide!)).2 3 (by simp)


/-! ## Convex polygons -/

theorem ccw_rotate (a b c : Point) : ccw a b c = ccw b c a := by
  simp only [ccw]; ring

theorem getLast_range'_succ (a b : Nat) (h : List.range' a (b + 1) ≠ []) :
    (List.range' a (b + 1)).getLast h = a + b := by
  induction b generalizing a with
  | zero => simp
  | succ b ih =>
    have e1 : List.range' a (b + 1 + 1) = a :: List.range' (a + 1) (b + 1) := by
      rw [List.range'_succ]
    have h2 : List.range' (a + 1) (b + 1) ≠ [] := by simp
    have e2 : (List.range' a (b + 1 + 1)).getLast h
        = (List.range' (a + 1) (b + 1)).getLast h2 := by
      simp only [e1]
      exact List.getLast_cons h2
    rw [e2, ih (a + 1) h2]
    omega

/-- On vertices in increasing index order no candidate is rejected by the scan
for reflex vertices inside the ear, when all such triples turn left. -/
theorem scanRing_convex {pt : Nat → Point} {n : Nat}
    (hconv : ∀ i j k, i < j → j < k → k < n → 0 < ccw (pt i) (pt j) (pt k))
    (a b c : Point) :
    ∀ (j q : Nat), q + j < n → scanRing pt a b c q (List.range' (q + 1) j) = true
  | 0, q, _ => by simp [scanRing]
  | 1, q, _ => by simp [scanRing]
  | j + 2, q, h => by
    have e1 : List.range' (q + 1) (j + 2) = (q + 1) :: (q + 2) :: List.range' (q + 3) j := by
      rw [List.range'_succ, List.range'_succ]
    have e2 : (q + 2) :: List.range' (q + 3) j = List.range' (q + 1 + 1) (j + 1) := by
      rw [List.range'_succ]
    have hr : isReflex (pt q) (pt (q + 1)) (pt (q + 2)) = false :=
      (isReflex_eq_false_iff _ _ _).2
        (le_of_lt (hconv q (q + 1) (q + 2) (by omega) (by omega) (by omega)))
    rw [e1]
    simp only [scanRing, hr, Bool.and_false, Bool.not_false, Bool.true_and]
    rw [e2]
    exact scanRing_convex hconv a b c (j + 1) (q + 1) (by omega)

theorem length_flatMap_six (f : Nat → List ℚ) (hf : ∀ j, (f j).length = 6) :
    ∀ (l : List Nat), (l.flatMap f).length = 6 * l.length
  | [] => rfl
  | x :: l => by
    simp only [List.flatMap_cons, List.length_append, hf, length_flatMap_six f hf l,
      List.length_cons]
    omega

theorem ringStep_convex {pt : Nat → Point} {n : Nat}
    (hconv : ∀ i j k, i < j → j < k → k < n → 0 < ccw (pt i) (pt j) (pt k))
    (k m : Nat) (out : List ℚ) (hk : k + m + 3 = n) :
    ringStep pt ⟨[], List.range' k (m + 3), out⟩ =
      .next ⟨[], List.range' (k + 1) (m + 2),
        out ++ coords (pt (n - 1)) (pt k) (pt (k + 1))⟩ := by
  have e1 : List.range' k (m + 3) = k :: (k + 1) :: (k + 2) :: List.range' (k + 3) m := by
    rw [List.range'_succ, List.range'_succ, List.range'_succ]
  have e2 : (k + 2) :: List.range' (k + 3) m = List.range' (k + 1 + 1) (m + 1) := by
    rw [List.range'_succ]
  have e3 : (k + 1) :: (k + 2) :: List.range' (k + 3) m = List.range' (k + 1) (m + 2) := by
    rw [List.range'_succ, List.range'_succ]
  have hlast : ((k + 2) :: List.range' (k + 3) m).getLast (List.cons_ne_nil _ _) = n - 1 := by
    have := getLast_range'_succ (k + 1 + 1) m (by simp)
    simp only [← e2] at this
    rw [this]; omega
  have hpos : 0 < ccw (pt (n - 1)) (pt k) (pt (k + 1)) := by
    rw [ccw_rotate]
    exact hconv k (k + 1) (n - 1) (by omega) (by omega) (by omega)
  have hE : isEarRing pt (k :: (k + 1) :: (k + 2) :: List.range' (k + 3) m) = true := by
    simp only [isEarRing, List.getLast_cons_cons, hlast, Bool.and_eq_true, Bool.not_eq_true']
    refine ⟨(isReflex_eq_false_iff _ _ _).2 (le_of_lt hpos), ?_⟩
    rw [e2]
    exact scanRing_convex hconv _ _ _ (m + 1) (k + 1) (by omega)
  have hA : polygonArea [pt (n - 1), pt k, pt (k + 1)] > 0 := by
    rw [polygonArea_triangle]; positivity
  simp only [ringStep, List.append_nil]
  rw [e1]
  simp only [hE, if_true, hlast, hA]
  rw [e3]

theorem ringLoop_convex {pt : Nat → Point} {n : Nat}
    (hconv : ∀ i j k, i < j → j < k → k < n → 0 < ccw (pt i) (pt j) (pt k)) :
    ∀ (m k fuel : Nat) (out : List ℚ), k + m + 2 = n → m < fuel →
      ringLoop pt fuel ⟨[], List.range' k (m + 2), out⟩ =
        .ok (out ++ (List.range' k m).flatMap
          (fun j => coords (pt (n - 1)) (pt j) (pt (j + 1))), none)
  | 0, k, fuel, out, _, hf => by
    obtain ⟨f, rfl⟩ : ∃ f, fuel = f + 1 := ⟨fuel - 1, by omega⟩
    have e1 : List.range' k 2 = [k, k + 1] := by
      rw [List.range'_succ, List.range'_succ]; rfl
    simp [ringLoop, ringStep, e1]
  | m + 1, k, fuel, out, hk, hf => by
    obtain ⟨f, rfl⟩ : ∃ f, fuel = f + 1 := ⟨fuel - 1, by omega⟩
    have hs := ringStep_convex hconv k m out (by omega)
    simp only [ringLoop, hs]
    rw [ringLoop_convex hconv m (k + 1) f _ (by omega) (by omega)]
    rw [List.range'_succ k m]
    simp [List.append_assoc]

/-- In exact arithmetic, for a strictly convex counter-clockwise polygon
`p_0 .. p_(n-1)`, `n ≥ 3` (every triple of vertices in increasing index order
is strictly counter-clockwise), `Polygon` returns no error and its output is
the fan `(p_(n-1), p_k, p_(k+1))`, `k = 0, ..., n-3`, in this order: `n - 2`
triangles. -/
theorem Polygon_convex_fan (points : List Point) (hn : 3 ≤ points.length)
    (hconv : ∀ i j k, i < j → j < k → k < points.length →
      0 < ccw (points.getD i default) (points.getD j default) (points.getD k default)) :
    Polygon points =
      .ok ((List.range (points.length - 2)).flatMap (fun k =>
          coords (points.getD (points.length - 1) default) (points.getD k default)
            (points.getD (k + 1) default)), none) ∧
    ∀ t, Polygon points = .ok (t, none) → (triangles t).length = points.length - 2 := by
  have key : Polygon points =
      .ok ((List.range (points.length - 2)).flatMap (fun k =>
          coords (points.getD (points.length - 1) default) (points.getD k default)
            (points.getD (k + 1) default)), none) := by
    rw [Polygon_eq_ringLoop points hn]
    have hr : List.range points.length = List.range' 0 (points.length - 2 + 2) := by
      rw [List.range_eq_range']
      congr 1; omega
    have hf : points.length - 2 < points.length * points.length := by
      have := Nat.le_mul_self points.length
      omega
    rw [hr, @ringLoop_convex (fun k => points.getD k default) points.length hconv
      (points.length - 2) 0
      _ [] (by omega) hf]
    simp [List.range_eq_range']
  refine ⟨key, ?_⟩
  intro t ht
  have h6 := (Polygon_ok_len6 points t ht)
  rw [key] at ht
  simp only [Except.ok.injEq, Prod.mk.injEq, and_true] at ht
  have hlen : t.length = 6 * (points.length - 2) := by
    rw [← ht]
    rw [length_flatMap_six _ (fun j => by simp [coords]) _, List.length_range]
  have := length_triangles t h6
  omega


/-! ## Runs of the loop, iteration by iteration -/

/-- An invariant of the iteration on the ring, indexed by the number of
iterations made, holds in every state that `Polygon` reaches. -/
theorem iter_inv {pt : Nat → Point} {n : Nat} (I : Nat → RingState → Prop)
    (hI : ∀ j r r1, I j r → ringStep pt r = .next r1 → I (j + 1) r1) :
    ∀ (k j : Nat) {s s1 : State} {r : RingState}, Holds pt n s r → I j r →
      Polygon.iter n k s = some s1 → ∃ r1, Holds pt n s1 r1 ∧ I (j + k) r1
  | 0, j, s, s1, r, H, hr, h => by
    simp only [Polygon.iter, Option.some.injEq] at h
    exact ⟨r, h ▸ H, hr⟩
  | k + 1, j, s, s1, r, H, hr, h => by
    have hs := step_sim H
    simp only [Polygon.iter] at h
    cases h1 : Polygon.step n s with
    | next s2 =>
      rw [h1] at h hs
      cases h2 : ringStep pt r with
      | next r2 =>
        rw [h2] at hs
        have := iter_inv I hI k (j + 1) hs (hI j r r2 hr h2) h
        rwa [show j + 1 + k = j + (k + 1) by omega] at this
      | ret t e => rw [h2] at hs; exact hs.elim
    | ret t e => rw [h1] at h; simp at h
    | fault f => rw [h1] at h; simp at h

theorem loop_ret {n : Nat} :
    ∀ (fuel : Nat) {s0 : State} {t : List ℚ} {e : Option GoError},
      Polygon.loop n fuel s0 = .ok (t, e) →
      ∃ k s, Polygon.iter n k s0 = some s ∧ Polygon.step n s = .ret t e
  | 0, _, _, _, h => by simp [Polygon.loop] at h
  | fuel + 1, s0, t, e, h => by
    simp only [Polygon.loop] at h
    cases h1 : Polygon.step n s0 with
    | next s1 =>
      rw [h1] at h
      obtain ⟨k, s, hk, hs⟩ := loop_ret fuel h
      exact ⟨k + 1, s, by simp only [Polygon.iter, h1, hk], hs⟩
    | ret t1 e1 =>
      rw [h1] at h
      simp only [Except.ok.injEq, Prod.mk.injEq] at h
      exact ⟨0, s0, rfl, by rw [h1, h.1, h.2]⟩
    | fault f => rw [h1] at h; simp at h

theorem loop_of_iter {n : Nat} :
    ∀ (k : Nat) {s0 s : State}, Polygon.iter n k s0 = some s →
      ∀ fuel, Polygon.loop n (k + fuel) s0 = Polygon.loop n fuel s
  | 0, s0, s, h, fuel => by
    simp only [Polygon.iter, Option.some.injEq] at h
    rw [h, Nat.zero_add]
  | k + 1, s0, s, h, fuel => by
    simp only [Polygon.iter] at h
    rw [show k + 1 + fuel = (k + fuel) + 1 by omega]
    simp only [Polygon.loop]
    cases h1 : Polygon.step n s0 with
    | next s1 =>
      rw [h1] at h
      exact loop_of_iter k h fuel
    | ret t e => rw [h1] at h; simp at h
    | fault f => rw [h1] at h; simp at h

theorem loop_outOfFuel_of_iter {n : Nat} :
    ∀ (fuel k : Nat) {s0 s : State}, Polygon.iter n k s0 = some s → fuel ≤ k →
      Polygon.loop n fuel s0 = .error .outOfFuel
  | 0, _, _, _, _, _ => rfl
  | fuel + 1, k, s0, s, h, hk => by
    obtain ⟨k1, rfl⟩ : ∃ k1, k = k1 + 1 := ⟨k - 1, by omega⟩
    simp only [Polygon.iter] at h
    simp only [Polygon.loop]
    cases h1 : Polygon.step n s0 with
    | next s1 =>
      rw [h1] at h
      exact loop_outOfFuel_of_iter fuel k1 h (by omega)
    | ret t e => rw [h1] at h; simp at h
    | fault f => rw [h1] at h; simp at h

/-! ## Stuck states -/

theorem isEar_nextIter {h : Heap} {pt : Nat → Point} (hpt : ∀ k, (h k).Point = pt k)
    {n : Nat} :
    ∀ (j e : Nat) (l : List Nat), IsRing h e l → 2 ≤ l.length → l.length < n →
      isEar n h (nextIter h j e) = .ok (isEarRing pt ((e :: l).rotate j))
  | 0, e, l, hr, h2, hn => by
    match l, hr, h2, hn with
    | c :: r :: rest, hr, _, hn =>
      simp only [nextIter, List.rotate_zero]
      exact isEar_eq hpt hr (by simp at hn ⊢; omega)
  | j + 1, e, l, hr, h2, hn => by
    match l, hr, h2, hn with
    | c :: l1, hr, h2, hn =>
      have hnext : (h e).Next = c := hr.next_eq
      simp only [nextIter, hnext, List.rotate_cons_succ]
      have hl2 : 2 ≤ (l1 ++ [e]).length := by
        simp only [List.length_cons, List.length_append, List.length_nil] at h2 ⊢; omega
      have hln : (l1 ++ [e]).length < n := by
        simp only [List.length_cons, List.length_append, List.length_nil] at hn ⊢; omega
      have := isEar_nextIter hpt j c (l1 ++ [e]) hr.rotate hl2 hln
      rw [this, ← List.cons_append]

theorem rejected_step {pt : Nat → Point} {r r1 : RingState} (H : Rejected pt r)
    (h : ringStep pt r = .next r1) : Rejected pt r1 := by
  have hs := ringStep_spec pt r
  rw [h] at hs
  cases hs with
  | emit e c r2 rest hm hE hA => intro j hj; simp at hj
  | drop e c r2 rest hm hE hA => intro j hj; simp at hj
  | advance e c post1 hpost h3 hE =>
    intro j hj
    have heq : (r.pre ++ [e]) ++ (c :: post1) = r.pre ++ r.post := by
      rw [hpost]; simp
    simp only [heq]
    simp only [List.length_append, List.length_singleton] at hj
    by_cases hlt : j < r.pre.length
    · exact H j hlt
    · have : j = r.pre.length := by omega
      rw [this, List.rotate_append_length_eq]
      exact hE

/-- With no ear at any rotation of a ring of at least three nodes, the loop
never removes a node: it ends with the error, if it does not run out of fuel. -/
theorem ringLoop_stuck {pt : Nat → Point} :
    ∀ (fuel : Nat) (r : RingState), 3 ≤ (r.post ++ r.pre).length →
      (∀ j, isEarRing pt ((r.post ++ r.pre).rotate j) = false) →
      ringLoop pt fuel r = .error .outOfFuel ∨ ringLoop pt fuel r = .ok ([], some .oops)
  | 0, _, _, _ => Or.inl rfl
  | fuel + 1, r, h3, hall => by
    have hs := ringStep_spec pt r
    have h0 : isEarRing pt (r.post ++ r.pre) = false := by
      simpa using hall 0
    simp only [ringLoop]
    generalize hrs : ringStep pt r = rs at hs
    cases hs with
    | done hlen => omega
    | emit e c r2 rest hm hE hA => rw [hm, hE] at h0; simp at h0
    | drop e c r2 rest hm hE hA => rw [hm, hE] at h0; simp at h0
    | advance e c post1 hpost _ hE =>
      simp only
      have heq : (c :: post1) ++ (r.pre ++ [e]) = (r.post ++ r.pre).rotate 1 := by
        rw [hpost]; simp [List.rotate_cons_succ]
      apply ringLoop_stuck fuel
      · simp only [heq, List.length_rotate]; exact h3
      · intro j
        simp only [heq, List.rotate_rotate]
        exact hall (1 + j)
    | stuck _ _ _ => exact Or.inr rfl


theorem IsRing.prev_ne_next {h : Heap} {e c r : Nat} {rest : List Nat}
    (hr : IsRing h e (c :: r :: rest)) : (h e).Prev ≠ (h e).Next := by
  rw [hr.next_eq, hr.prev_eq, List.getLast_cons_cons, List.getLast_cons_cons]
  intro hh
  have hmem : (r :: rest).getLast (List.cons_ne_nil r rest) ∈ r :: rest := List.getLast_mem _
  rw [hh] at hmem
  exact (List.nodup_cons.1 (List.nodup_cons.1 hr.1).2).1 hmem

/-- In a state that holds a ring, `ear.Prev != ear.Next` exactly when the ring
has at least three nodes. -/
theorem Holds.three_iff {pt : Nat → Point} {n : Nat} {s : State} {r : RingState}
    (H : Holds pt n s r) :
    (s.elements s.ear).Prev ≠ (s.elements s.ear).Next ↔ 3 ≤ (r.post ++ r.pre).length := by
  obtain ⟨e, l, hel, hring, _⟩ := H.ring
  have hear : s.ear = e := by
    have h1 := H.ear
    have h2 := H.post
    cases hp : r.post with
    | nil => exact absurd hp h2
    | cons x post1 =>
      rw [hp] at h1 hel
      simp only [List.head?_cons, Option.some.injEq] at h1
      simp only [List.cons_append, List.cons.injEq] at hel
      rw [← h1, hel.1]
  rw [hel, hear]
  match l, hring with
  | [], hring =>
    have := hring.2
    simp only [List.nil_append, List.chain_cons, List.Chain.nil, and_true, Follows] at this
    simp [this.1, this.2]
  | [c], hring =>
    have h1 := hring.next_eq
    have h2 := hring.prev_eq
    simp only [List.getLast_cons_cons, List.getLast_singleton] at h2
    simp [h1, h2]
  | c :: r1 :: rest, hring =>
    simp only [List.length_cons]
    exact ⟨fun _ => by omega, fun _ => hring.prev_ne_next⟩

/-- In a state that holds a ring of at least three nodes, `isEar` on the node
`j` steps after `ear` is `isEarRing` on the ring rotated by `j`. -/
theorem Holds.isEar_rotate {pt : Nat → Point} {n : Nat} {s : State} {r : RingState}
    (H : Holds pt n s r) (h3 : 3 ≤ (r.post ++ r.pre).length) (j : Nat) :
    isEar n s.elements (nextIter s.elements j s.ear) =
      .ok (isEarRing pt ((r.post ++ r.pre).rotate j)) := by
  obtain ⟨e, l, hel, hring, hlen⟩ := H.ring
  have hear : s.ear = e := by
    have h1 := H.ear
    have h2 := H.post
    cases hp : r.post with
    | nil => exact absurd hp h2
    | cons x post1 =>
      rw [hp] at h1 hel
      simp only [List.head?_cons, Option.some.injEq] at h1
      simp only [List.cons_append, List.cons.injEq] at hel
      rw [← h1, hel.1]
  rw [hel] at h3 ⊢
  rw [hear]
  exact isEar_nextIter H.points j e l hring (by simp at h3; omega) hlen

/-- C6 (errors of `Polygon`). `Polygon` returns an error exactly when the input
has fewer than 3 points or the loop reaches a state in which at least three
nodes are left and none of them is an ear; and whenever it returns an error the
returned triangle sequence is empty. -/
theorem C6_error_iff_stuck (points : List Point) :
    ((∃ t e, Polygon points = .ok (t, some e)) ↔
      (points.length < 3 ∨
        ∃ k s, Polygon.iter points.length k (Polygon.init points) = some s ∧
          Stuck points.length s)) ∧
    (∀ t e, Polygon points = .ok (t, some e) → t = []) := by
  refine ⟨⟨?_, ?_⟩, fun t e h => Polygon_error_empty h⟩
  · rintro ⟨t, e, h⟩
    by_cases hn : points.length < 3
    · exact Or.inl hn
    · right
      have hn3 : 3 ≤ points.length := by omega
      have hloop : Polygon.loop points.length (points.length * points.length)
          (Polygon.init points) = .ok (t, some e) := by
        rw [← h]; simp [Polygon, hn]
      obtain ⟨k, s, hk, hstep⟩ := loop_ret _ hloop
      obtain ⟨r, hr, hrej⟩ := iter_inv (fun _ r => Rejected (fun k => points.getD k default) r)
        (fun _ r r1 hr h1 => rejected_step hr h1) k 0 (holds_init points hn3)
        (fun j hj => by simp at hj) hk
      have hsim := step_sim hr
      rw [hstep] at hsim
      have hspec := ringStep_spec (fun k => points.getD k default) r
      generalize hrs : ringStep (fun k => points.getD k default) r = rs at hsim hspec
      cases hspec with
      | done _ => simp [StepMatch] at hsim
      | emit _ _ _ _ _ _ _ => exact hsim.elim
      | drop _ _ _ _ _ _ _ => exact hsim.elim
      | advance _ _ _ _ _ _ => exact hsim.elim
      | stuck hp1 h3 hE =>
        refine ⟨k, s, hk, (hr.three_iff).2 h3, ?_⟩
        intro j
        rw [hr.isEar_rotate h3 j]
        congr 1
        -- every rotation of the ring starts at a rejected candidate
        obtain ⟨x, hx⟩ : ∃ x, r.post = [x] := by
          match hpost : r.post, hr.post, hp1 with
          | [x], _, _ => exact ⟨x, rfl⟩
          | [], hne, _ => exact absurd rfl hne
          | _ :: _ :: _, _, hlen => simp at hlen
        have hrot : r.post ++ r.pre = (r.pre ++ r.post).rotate r.pre.length :=
          (List.rotate_append_length_eq _ _).symm
        have hm : (r.pre ++ r.post).length = r.pre.length + 1 := by simp [hx]
        rw [hrot, List.rotate_rotate, ← List.rotate_mod, hm]
        have hlt : (r.pre.length + j) % (r.pre.length + 1) < r.pre.length + 1 :=
          Nat.mod_lt _ (by omega)
        by_cases hc : (r.pre.length + j) % (r.pre.length + 1) < r.pre.length
        · exact hrej _ hc
        · have : (r.pre.length + j) % (r.pre.length + 1) = r.pre.length := by omega
          rw [this, ← hrot]
          exact hE
  · rintro (hn | ⟨k, s, hk, hstuck⟩)
    · exact ⟨[], _, Polygon_short hn⟩
    · by_cases hn : points.length < 3
      · exact ⟨[], _, Polygon_short hn⟩
      · have hn3 : 3 ≤ points.length := by omega
        obtain ⟨res, hres⟩ := Polygon_returns points
        have hloop : Polygon points = Polygon.loop points.length
            (points.length * points.length) (Polygon.init points) := by
          simp [Polygon, hn]
        obtain ⟨r, hr⟩ := Holds.iter k (holds_init points hn3) hk
        have h3 := (hr.three_iff).1 hstuck.1
        by_cases hf : points.length * points.length ≤ k
        · rw [hloop, loop_outOfFuel_of_iter _ k hk hf] at hres
          simp at hres
        · obtain ⟨f, hfk⟩ : ∃ f, points.length * points.length = k + f :=
            ⟨points.length * points.length - k, by omega⟩
          have hall : ∀ j, isEarRing (fun k => points.getD k default)
              ((r.post ++ r.pre).rotate j) = false := by
            intro j
            have h1 := hr.isEar_rotate h3 j
            rw [hstuck.2 j] at h1
            simp only [Except.ok.injEq] at h1
            exact h1.symm
          rw [hloop, hfk, loop_of_iter k hk f, loop_sim f hr] at hres ⊢
          rcases ringLoop_stuck f r h3 hall with h1 | h1
          · rw [h1] at hres; simp at hres
          · exact ⟨[], .oops, h1⟩

/-- Witness of C6: on the clockwise unit square `Polygon` returns an error, so
a stuck state is reached. -/
theorem C6_error_iff_stuck_witness :
    ∃ k s, Polygon.iter 4 k (Polygon.init [⟨0, 0⟩, ⟨0, 1⟩, ⟨1, 1⟩, ⟨1, 0⟩]) = some s ∧
      Stuck 4 s :=
  (((C6_error_iff_stuck [⟨0, 0⟩, ⟨0, 1⟩, ⟨1, 1⟩, ⟨1, 0⟩]).1).1
    ⟨[], .oops, by decide!⟩).resolve_left (by decide)


/-! ## Hole joining -/

theorem index_eq_ok {α : Type} {s : List α} {i : Nat} {a : α} :
    index s i = .ok a ↔ s[i]? = some a := by
  unfold index
  cases h : s[i]? with
  | none => simp
  | some b => simp

theorem index_of_lt {α : Type} (s : List α) (i : Nat) (h : i < s.length) :
    index s i = .ok s[i] := by
  rw [index_eq_ok, List.getElem?_eq_getElem h]

theorem cyclic_of_nonneg (a n : Nat) (hn : 0 < n) :
    (cyclic (a : Int) (n : Int)).toNat = a % n := by
  unfold cyclic
  have h1 : Int.tmod (a : Int) (n : Int) = ((a % n : Nat) : Int) := by
    rw [Int.tmod_eq_emod (by positivity) (by positivity)]
    norm_cast
  rw [h1]
  have h2 : Int.tmod (((a % n : Nat) : Int) + (n : Int)) (n : Int) = ((a % n : Nat) : Int) := by
    rw [Int.tmod_eq_emod (by positivity) (by positivity)]
    norm_cast
    rw [Nat.add_mod_right, Nat.mod_mod]
  rw [h2]
  exact Int.toNat_ofNat _

/-- The loop of `combinePolygons` that appends the hole, started at `mIndex`
and taken around cyclically. -/
theorem splice_hole_loop (inner : List Point) (m : Nat) (hi : inner ≠ []) :
    ∀ (l : List Nat) (init : List Point),
      l.foldlM (fun (result : List Point) (i : Nat) => do
          let q ← index inner (cyclic ((m : Int) + (i : Int)) inner.length).toNat
          pure (result ++ [q])) init
        = (.ok (init ++ l.map (fun i => inner.getD ((m + i) % inner.length) default)) :
            Except Fault (List Point))
  | [], init => by simp [pure, Except.pure]
  | i :: l, init => by
    have hpos : 0 < inner.length := List.length_pos.2 hi
    have hc : (cyclic ((m : Int) + i) inner.length).toNat = (m + i) % inner.length := by
      have := cyclic_of_nonneg (m + i) inner.length hpos
      push_cast at this
      exact this
    have hlt : (m + i) % inner.length < inner.length := Nat.mod_lt _ hpos
    have ih := splice_hole_loop inner m hi l (init ++ [inner[(m + i) % inner.length]])
    simp only [List.foldlM, hc, index_of_lt inner _ hlt, bind, Except.bind, pure,
      Except.pure] at ih ⊢
    rw [ih]
    simp [List.getD_eq_getElem?_getD, List.getElem?_eq_getElem hlt]

theorem map_cyclic_eq_rotate (inner : List Point) (m : Nat) (hm : m < inner.length) :
    (List.range inner.length).map (fun i => inner.getD ((m + i) % inner.length) default)
      = inner.drop m ++ inner.take m := by
  rw [← List.rotate_eq_drop_append_take (le_of_lt hm)]
  apply List.ext_getElem
  · simp
  · intro i h1 h2
    have hlt : (m + i) % inner.length < inner.length := Nat.mod_lt _ (by omega)
    simp only [List.getElem_map, List.getElem_range, List.getElem_rotate,
      List.getD_eq_getElem?_getD, List.getElem?_eq_getElem hlt, Option.getD_some]
    congr 1
    rw [Nat.add_comm]

/-- What `combinePolygons.splice` returns when it returns. -/
theorem splice_eq {outer inner res : List Point} {m : Nat} {vi : Int}
    (h : combinePolygons.splice outer inner m vi = .ok res) :
    ∃ (hv : vi.toNat < outer.length) (hm : m < inner.length),
      res = outer.take (vi.toNat + 1) ++ (inner.drop m ++ inner.take m) ++
        [inner[m], outer[vi.toNat]] ++ outer.drop (vi.toNat + 1) := by
  unfold combinePolygons.splice at h
  by_cases hv : outer.length < vi.toNat + 1
  · simp [hv, throw, throwThe, MonadExceptOf.throw, bind, Except.bind] at h
  · have hv2 : vi.toNat < outer.length := by omega
    by_cases hi : inner = []
    · subst hi
      simp [hv, index, bind, Except.bind, pure, Except.pure] at h
    · by_cases hm : m < inner.length
      · refine ⟨hv2, hm, ?_⟩
        simp only [hv, if_false, bind, Except.bind, pure, Except.pure] at h
        have hloop := splice_hole_loop inner m hi (List.range inner.length)
          (outer.take (vi.toNat + 1))
        simp only [bind, Except.bind, pure, Except.pure] at hloop
        rw [hloop] at h
        simp only [index_of_lt inner m hm, index_of_lt outer _ hv2, Except.ok.injEq] at h
        rw [← h, map_cyclic_eq_rotate inner m hm]
      · simp only [hv, if_false, bind, Except.bind, pure, Except.pure] at h
        have hloop := splice_hole_loop inner m hi (List.range inner.length)
          (outer.take (vi.toNat + 1))
        simp only [bind, Except.bind, pure, Except.pure] at hloop
        rw [hloop] at h
        have : index inner m = .error .indexOutOfRange := by
          unfold index
          rw [List.getElem?_eq_none (by omega)]
        simp [this] at h

/-- When the search for the bridge succeeds, `visibleIndex` is not negative and
`mIndex` is the index found by the first loop. -/
theorem bridge_ok {outer inner : List Point} {m : Nat} {vi : Int}
    (h : combinePolygons.bridge outer inner = .ok (.ok (m, vi))) :
    0 ≤ vi ∧ m = combinePolygons.mIndex inner := by
  unfold combinePolygons.bridge at h
  simp only [bind, Except.bind, pure, Except.pure] at h
  repeat' split at h
  all_goals first
    | (simp only [Except.ok.injEq, Prod.mk.injEq] at h
       obtain ⟨rfl, rfl⟩ := h
       exact ⟨by omega, rfl⟩)
    | simp at h

/-- What `combinePolygons` returns when it returns no error. -/
theorem combinePolygons_eq {outer inner res : List Point}
    (h : combinePolygons outer inner = .ok (res, none)) :
    ∃ (v m : Nat) (hv : v < outer.length) (hm : m < inner.length),
      combinePolygons.bridge outer inner = .ok (.ok (m, (v : Int))) ∧
      res = outer.take (v + 1) ++ (inner.drop m ++ inner.take m) ++
        [inner[m], outer[v]] ++ outer.drop (v + 1) := by
  unfold combinePolygons at h
  cases hb : combinePolygons.bridge outer inner with
  | error f => simp [hb, bind, Except.bind] at h
  | ok b =>
    cases b with
    | error e => simp [hb, bind, Except.bind, pure, Except.pure] at h
    | ok mv =>
      obtain ⟨m, vi⟩ := mv
      simp only [hb, bind, Except.bind, pure, Except.pure] at h
      cases hs : combinePolygons.splice outer inner m vi with
      | error f => simp [hs] at h
      | ok r =>
        simp only [hs, Except.ok.injEq, Prod.mk.injEq, and_true] at h
        subst h
        obtain ⟨hv, hm, hr⟩ := splice_eq hs
        refine ⟨vi.toNat, m, hv, hm, ?_, hr⟩
        rw [Int.toNat_of_nonneg (bridge_ok hb).1]


theorem shoelaceSum_append_cons :
    ∀ (l : List Point) (p q : Point) (l1 : List Point),
      shoelaceSum p (l ++ q :: l1) =
        shoelaceSum p l + ((p :: l).getLast (List.cons_ne_nil p l)).Cross q + shoelaceSum q l1
  | [], p, q, l1 => by simp [shoelaceSum]
  | x :: l, p, q, l1 => by
    have ih := shoelaceSum_append_cons l x q l1
    rw [List.cons_append]
    simp only [shoelaceSum, List.getLast_cons_cons]
    rw [ih]
    ring

theorem getLast_cons_concat (a : Point) (l : List Point) (b : Point) :
    (a :: (l ++ [b])).getLast (List.cons_ne_nil _ _) = b := by
  have h : (a :: (l ++ [b])).getLast? = some b := by
    rw [← List.cons_append, List.getLast?_append]
    simp
  rw [List.getLast?_eq_getLast _ (List.cons_ne_nil _ _)] at h
  exact Option.some.inj h

/-- The shoelace area does not depend on where the cyclic sequence is cut. -/
theorem polygonArea_append_comm :
    ∀ (l1 l2 : List Point), polygonArea (l1 ++ l2) = polygonArea (l2 ++ l1)
  | [], l2 => by simp
  | e :: l1, l2 => by
    rw [List.cons_append, ← polygonArea_rotate, List.append_assoc,
      polygonArea_append_comm l1 (l2 ++ [e])]
    simp

/-- The two bridge edges of a seam cancel: a closed polygon `X ++ [o]` with the
closed polygon `hm :: Y` attached at `o` by the edges `o → hm` and `hm → o`. -/
theorem polygonArea_seam (X Y : List Point) (o hm : Point) :
    polygonArea (X ++ [o] ++ (hm :: Y) ++ [hm, o]) =
      polygonArea (X ++ [o]) + polygonArea (hm :: Y) := by
  have e1 : X ++ [o] ++ (hm :: Y) ++ [hm, o] = (X ++ [o] ++ (hm :: Y) ++ [hm]) ++ [o] := by
    simp
  rw [e1, polygonArea_rotate, polygonArea_rotate, polygonArea_cons, polygonArea_cons,
    polygonArea_cons]
  have e2 : X ++ [o] ++ (hm :: Y) ++ [hm] = (X ++ [o]) ++ hm :: (Y ++ [hm]) := by simp
  have hl : (o :: (X ++ [o] ++ (hm :: Y) ++ [hm])).getLast (List.cons_ne_nil _ _) = hm :=
    getLast_cons_concat o _ hm
  have hl2 : (o :: (X ++ [o])).getLast (List.cons_ne_nil _ _) = o :=
    getLast_cons_concat o _ o
  rw [hl, e2, shoelaceSum_append_cons, hl2, shoelaceSum_append_singleton,
    shoelaceSum_append_singleton]
  simp only [Point.Cross]
  ring

theorem take_succ_eq (l : List Point) (v : Nat) (hv : v < l.length) :
    l.take (v + 1) = l.take v ++ [l[v]] := by
  rw [List.take_succ, List.getElem?_eq_getElem hv]
  rfl

/-- Splicing a hole into a boundary adds its signed area. -/
theorem polygonArea_splice (outer inner : List Point) (v m : Nat) (hv : v < outer.length)
    (hm : m < inner.length) :
    polygonArea (outer.take (v + 1) ++ (inner.drop m ++ inner.take m) ++
        [inner[m], outer[v]] ++ outer.drop (v + 1)) =
      polygonArea outer + polygonArea inner := by
  have ho : polygonArea outer = polygonArea ((outer.drop (v + 1) ++ outer.take v) ++ [outer[v]]) := by
    conv_lhs => rw [← List.take_append_drop (v + 1) outer]
    rw [polygonArea_append_comm, take_succ_eq outer v hv, List.append_assoc]
  have hi : polygonArea inner = polygonArea (inner[m] :: (inner.drop (m + 1) ++ inner.take m)) := by
    conv_lhs => rw [← List.take_append_drop m inner]
    rw [polygonArea_append_comm, List.drop_eq_getElem_cons hm, List.cons_append]
  rw [ho, hi, ← polygonArea_seam, polygonArea_append_comm]
  congr 1
  rw [take_succ_eq outer v hv, List.drop_eq_getElem_cons hm]
  simp only [List.append_assoc, List.cons_append, List.nil_append, List.singleton_append]

theorem length_splice (outer inner : List Point) (v m : Nat) (hv : v < outer.length)
    (hm : m < inner.length) :
    (outer.take (v + 1) ++ (inner.drop m ++ inner.take m) ++
        [inner[m], outer[v]] ++ outer.drop (v + 1)).length =
      outer.length + inner.length + 2 := by
  simp only [List.length_append, List.length_take, List.length_drop, List.length_cons,
    List.length_nil]
  omega

theorem JoinHoles_loop_ok :
    ∀ (holes : List (List Point)) (current res : List Point),
      JoinHoles.loop current holes = .ok (res, none) →
      res.length = current.length + (holes.map List.length).sum + 2 * holes.length ∧
      polygonArea res = polygonArea current + (holes.map polygonArea).sum
  | [], current, res, h => by
    simp only [JoinHoles.loop, Except.ok.injEq, Prod.mk.injEq, and_true] at h
    simp [h]
  | hole :: rest, current, res, h => by
    simp only [JoinHoles.loop] at h
    cases hc : combinePolygons current hole with
    | error f => rw [hc] at h; simp at h
    | ok r =>
      obtain ⟨next, err⟩ := r
      cases err with
      | some e => rw [hc] at h; simp at h
      | none =>
        rw [hc] at h
        simp only at h
        obtain ⟨v, m, hv, hm, _, hr⟩ := combinePolygons_eq hc
        have ih := JoinHoles_loop_ok rest next res h
        have hl := length_splice current hole v m hv hm
        have ha := polygonArea_splice current hole v m hv hm
        rw [← hr] at hl ha
        refine ⟨?_, ?_⟩
        · rw [ih.1, hl]
          simp only [List.map_cons, List.sum_cons, List.length_cons]
          omega
        · rw [ih.2, ha]
          simp only [List.map_cons, List.sum_cons]
          ring

theorem JoinHoles_ok {sort : List (List Point) → List (List Point)}
    (hsort : ∀ l, (sort l).Perm l) {outer res : List Point} {holes : List (List Point)}
    (h : JoinHoles sort (outer :: holes) = .ok (res, none)) :
    res.length = outer.length + (holes.map List.length).sum + 2 * holes.length ∧
    polygonArea res = polygonArea outer + (holes.map polygonArea).sum := by
  cases holes with
  | nil =>
    simp only [JoinHoles, Except.ok.injEq, Prod.mk.injEq, and_true] at h
    simp [h]
  | cons hole rest =>
    simp only [JoinHoles] at h
    have := JoinHoles_loop_ok _ _ _ h
    have hp := hsort (hole :: rest)
    rw [(hp.map List.length).sum_eq, (hp.map polygonArea).sum_eq, hp.length_eq] at this
    exact this


/-! ## Claims on hole joining -/

/-- C7 (splice structure). Whenever `combinePolygons` succeeds (which needs a
non-empty outer boundary and a non-empty hole), there are `v < len(outer)` and
`m < len(hole)` such that the result is `outer[0..v]`, then the hole from
`hole[m]` cyclically around (each hole vertex once), then `hole[m]` and
`outer[v]` a second time, then `outer[v+1..]`; and on the square-in-square
input the result is the boundary that `TestJoinHoles` expects. -/
theorem C7_splice_structure :
    (∀ (outer inner res : List Point), combinePolygons outer inner = .ok (res, none) →
      outer ≠ [] ∧ inner ≠ [] ∧
      ∃ (v m : Nat) (hv : v < outer.length) (hm : m < inner.length),
        res = outer.take (v + 1) ++ (inner.drop m ++ inner.take m) ++
          [inner[m], outer[v]] ++ outer.drop (v + 1)) ∧
    combinePolygons [⟨0, 0⟩, ⟨4, 0⟩, ⟨4, 4⟩, ⟨0, 4⟩] [⟨1, 1⟩, ⟨1, 3⟩, ⟨3, 3⟩, ⟨3, 1⟩] =
      .ok ([⟨0, 0⟩, ⟨4, 0⟩, ⟨4, 4⟩, ⟨3, 3⟩, ⟨3, 1⟩, ⟨1, 1⟩, ⟨1, 3⟩, ⟨3, 3⟩, ⟨4, 4⟩, ⟨0, 4⟩],
        none) := by
  refine ⟨?_, by decide!⟩
  intro outer inner res h
  obtain ⟨v, m, hv, hm, _, hr⟩ := combinePolygons_eq h
  refine ⟨?_, ?_, v, m, hv, hm, hr⟩
  · intro h0; rw [h0] at hv; simp at hv
  · intro h0; rw [h0] at hm; simp at hm

/-- Witness of C7: the hole with a vertex on the outer edge of
`TestJoinHoles`. -/
theorem C7_splice_structure_witness :
    ∃ (v m : Nat) (hv : v < [(⟨0, 0⟩ : Point), ⟨4, 0⟩, ⟨4, 4⟩, ⟨0, 4⟩].length)
      (hm : m < [(⟨1, 1⟩ : Point), ⟨1, 3⟩, ⟨4, 2⟩].length),
      [(⟨0, 0⟩ : Point), ⟨4, 2⟩, ⟨1, 1⟩, ⟨1, 3⟩, ⟨4, 2⟩, ⟨0, 0⟩, ⟨4, 0⟩, ⟨4, 4⟩, ⟨0, 4⟩] =
        [(⟨0, 0⟩ : Point), ⟨4, 0⟩, ⟨4, 4⟩, ⟨0, 4⟩].take (v + 1) ++
          ([(⟨1, 1⟩ : Point), ⟨1, 3⟩, ⟨4, 2⟩].drop m ++ [(⟨1, 1⟩ : Point), ⟨1, 3⟩, ⟨4, 2⟩].take m)
          ++ [[(⟨1, 1⟩ : Point), ⟨1, 3⟩, ⟨4, 2⟩][m], [(⟨0, 0⟩ : Point), ⟨4, 0⟩, ⟨4, 4⟩, ⟨0, 4⟩][v]]
          ++ [(⟨0, 0⟩ : Point), ⟨4, 0⟩, ⟨4, 4⟩, ⟨0, 4⟩].drop (v + 1) :=
  (C7_splice_structure.1 [⟨0, 0⟩, ⟨4, 0⟩, ⟨4, 4⟩, ⟨0, 4⟩] [⟨1, 1⟩, ⟨1, 3⟩, ⟨4, 2⟩]
    [⟨0, 0⟩, ⟨4, 2⟩, ⟨1, 1⟩, ⟨1, 3⟩, ⟨4, 2⟩, ⟨0, 0⟩, ⟨4, 0⟩, ⟨4, 4⟩, ⟨0, 4⟩] (by decide!)).2.2

/-- C8 (length of the joined boundary). When `JoinHoles` returns no error on an
outer boundary and holes, the returned boundary has the length of the outer
boundary plus the lengths of all holes plus 2 per hole. The library sort is any
function that permutes the holes. -/
theorem C8_join_length (sort : List (List Point) → List (List Point))
    (hsort : ∀ l, (sort l).Perm l) (outer : List Point) (holes : List (List Point))
    (res : List Point) (h : JoinHoles sort (outer :: holes) = .ok (res, none)) :
    res.length = outer.length + (holes.map List.length).sum + 2 * holes.length :=
  (JoinHoles_ok hsort h).1

/-- Witness of C8 on the square-in-square input: `10 = 4 + 4 + 2`. -/
theorem C8_join_length_witness :
    [(⟨0, 0⟩ : Point), ⟨4, 0⟩, ⟨4, 4⟩, ⟨3, 3⟩, ⟨3, 1⟩, ⟨1, 1⟩, ⟨1, 3⟩, ⟨3, 3⟩, ⟨4, 4⟩,
        ⟨0, 4⟩].length =
      [(⟨0, 0⟩ : Point), ⟨4, 0⟩, ⟨4, 4⟩, ⟨0, 4⟩].length +
        ([[(⟨1, 1⟩ : Point), ⟨1, 3⟩, ⟨3, 3⟩, ⟨3, 1⟩]].map List.length).sum +
        2 * [[(⟨1, 1⟩ : Point), ⟨1, 3⟩, ⟨3, 3⟩, ⟨3, 1⟩]].length :=
  C8_join_length id (fun l => List.Perm.refl l) [⟨0, 0⟩, ⟨4, 0⟩, ⟨4, 4⟩, ⟨0, 4⟩]
    [[⟨1, 1⟩, ⟨1, 3⟩, ⟨3, 3⟩, ⟨3, 1⟩]]
    [⟨0, 0⟩, ⟨4, 0⟩, ⟨4, 4⟩, ⟨3, 3⟩, ⟨3, 1⟩, ⟨1, 1⟩, ⟨1, 3⟩, ⟨3, 3⟩, ⟨4, 4⟩, ⟨0, 4⟩]
    (by decide!)

/-- C9 (hole joining preserves signed area). When `JoinHoles` returns no error,
the shoelace signed area of the joined boundary is the signed area of the outer
boundary plus the sum of the signed areas of the holes; on the square-in-square
input, with its clockwise hole, this is `16 + (-4) = 12`. The library sort is
any function that permutes the holes. -/
theorem C9_join_area (sort : List (List Point) → List (List Point))
    (hsort : ∀ l, (sort l).Perm l) :
    (∀ (outer : List Point) (holes : List (List Point)) (res : List Point),
      JoinHoles sort (outer :: holes) = .ok (res, none) →
      polygonArea res = polygonArea outer + (holes.map polygonArea).sum) ∧
    JoinHoles sort [[⟨0, 0⟩, ⟨4, 0⟩, ⟨4, 4⟩, ⟨0, 4⟩], [⟨1, 1⟩, ⟨1, 3⟩, ⟨3, 3⟩, ⟨3, 1⟩]] =
      .ok ([⟨0, 0⟩, ⟨4, 0⟩, ⟨4, 4⟩, ⟨3, 3⟩, ⟨3, 1⟩, ⟨1, 1⟩, ⟨1, 3⟩, ⟨3, 3⟩, ⟨4, 4⟩, ⟨0, 4⟩],
        none) ∧
    polygonArea [⟨0, 0⟩, ⟨4, 0⟩, ⟨4, 4⟩, ⟨0, 4⟩] = 16 ∧
    polygonArea [⟨1, 1⟩, ⟨1, 3⟩, ⟨3, 3⟩, ⟨3, 1⟩] = -4 ∧
    polygonArea [⟨0, 0⟩, ⟨4, 0⟩, ⟨4, 4⟩, ⟨3, 3⟩, ⟨3, 1⟩, ⟨1, 1⟩, ⟨1, 3⟩, ⟨3, 3⟩, ⟨4, 4⟩,
      ⟨0, 4⟩] = 12 := by
  refine ⟨fun outer holes res h => (JoinHoles_ok hsort h).2, ?_, by decide!, by decide!,
    by decide!⟩
  have h1 : sort [[⟨1, 1⟩, ⟨1, 3⟩, ⟨3, 3⟩, ⟨3, 1⟩]] = [[⟨1, 1⟩, ⟨1, 3⟩, ⟨3, 3⟩, ⟨3, 1⟩]] :=
    List.perm_singleton.1 (hsort _)
  simp only [JoinHoles, h1]
  decide!

/-- Witness of C9 on the square-in-square input. -/
theorem C9_join_area_witness :
    polygonArea [⟨0, 0⟩, ⟨4, 0⟩, ⟨4, 4⟩, ⟨3, 3⟩, ⟨3, 1⟩, ⟨1, 1⟩, ⟨1, 3⟩, ⟨3, 3⟩, ⟨4, 4⟩,
        ⟨0, 4⟩] =
      polygonArea [⟨0, 0⟩, ⟨4, 0⟩, ⟨4, 4⟩, ⟨0, 4⟩] +
        ([[(⟨1, 1⟩ : Point), ⟨1, 3⟩, ⟨3, 3⟩, ⟨3, 1⟩]].map polygonArea).sum :=
  (C9_join_area id (fun l => List.Perm.refl l)).1 [⟨0, 0⟩, ⟨4, 0⟩, ⟨4, 4⟩, ⟨0, 4⟩]
    [[⟨1, 1⟩, ⟨1, 3⟩, ⟨3, 3⟩, ⟨3, 1⟩]]
    [⟨0, 0⟩, ⟨4, 0⟩, ⟨4, 4⟩, ⟨3, 3⟩, ⟨3, 1⟩, ⟨1, 1⟩, ⟨1, 3⟩, ⟨3, 3⟩, ⟨4, 4⟩, ⟨0, 4⟩]
    (by decide!)


/-- C10 (mutual visibility of the bridge) fails on the code. The boundary
`notchedOuter` is simple and counter-clockwise and the hole `notchedHole` lies
strictly inside it; `JoinHoles` succeeds and bridges the hole vertex
`M = hole[2] = (102, 5)` to the outer vertex `V = outer[2] = (108, 10)`; and the
segment from `M` to `V` crosses the outer edge from `(103, 2)` to `(103, 10)`.
`findK` returns the first edge it finds that the ray from `M` crosses, the edge
at `x = 108`, not the closest one at `x = 103`. -/
theorem C10_bridge_crosses_outer_edge :
    isSimple notchedOuter = true ∧ 0 < polygonArea notchedOuter ∧
    holeStrictlyInside notchedOuter notchedHole = true ∧
    findK ⟨102, 5⟩ notchedOuter = (⟨108, 5⟩, 1, 2, none) ∧
    combinePolygons.bridge notchedOuter notchedHole = .ok (.ok (2, 2)) ∧
    JoinHoles id [notchedOuter, notchedHole] =
      .ok ([⟨100, 0⟩, ⟨108, 0⟩, ⟨108, 10⟩, ⟨102, 5⟩, ⟨101, 4⟩, ⟨101, 6⟩, ⟨102, 5⟩, ⟨108, 10⟩,
        ⟨105, 10⟩, ⟨105, 2⟩, ⟨103, 2⟩, ⟨103, 10⟩, ⟨100, 10⟩], none) ∧
    properCross ⟨102, 5⟩ ⟨108, 10⟩ ⟨103, 2⟩ ⟨103, 10⟩ = true ∧
    crossesBoundary notchedOuter ⟨102, 5⟩ ⟨108, 10⟩ = true := by
  refine ⟨by decide!, by decide!, by decide!, by decide!, by decide!, by decide!, by decide!,
    by decide!⟩


/-! ## The geometric predicates in exact arithmetic -/

/-- In exact arithmetic `isReflex(a, b, c)` is true exactly when the cross
product `(b-a) × (c-b)` is strictly negative. -/
theorem isReflex_iff_ccw (a b c : Point) : isReflex a b c = true ↔ ccw a b c < 0 := by
  simp [isReflex, ccw]

theorem isInsideTriangle_iff (a b c p : Point) :
    isInsideTriangle a b c p = true ↔
      0 ≤ (c.X - p.X) * (a.Y - p.Y) - (a.X - p.X) * (c.Y - p.Y) ∧
      0 ≤ (a.X - p.X) * (b.Y - p.Y) - (b.X - p.X) * (a.Y - p.Y) ∧
      0 ≤ (b.X - p.X) * (c.Y - p.Y) - (c.X - p.X) * (b.Y - p.Y) := by
  simp [isInsideTriangle, and_assoc]

/-- In exact arithmetic, for a strictly counter-clockwise triangle `(a, b, c)`,
`isInsideTriangle(a, b, c, p)` is true exactly when `p` is a convex combination
of `a`, `b` and `c` with non-negative weights. -/
theorem isInsideTriangle_iff_convex (a b c p : Point) (hD : 0 < ccw a b c) :
    isInsideTriangle a b c p = true ↔
      ∃ u v w : ℚ, 0 ≤ u ∧ 0 ≤ v ∧ 0 ≤ w ∧ u + v + w = 1 ∧
        p.X = u * a.X + v * b.X + w * c.X ∧ p.Y = u * a.Y + v * b.Y + w * c.Y := by
  rw [isInsideTriangle_iff]
  have hD' : ccw a b c ≠ 0 := ne_of_gt hD
  constructor
  · rintro ⟨h1, h2, h3⟩
    refine ⟨((b.X - p.X) * (c.Y - p.Y) - (c.X - p.X) * (b.Y - p.Y)) / ccw a b c,
      ((c.X - p.X) * (a.Y - p.Y) - (a.X - p.X) * (c.Y - p.Y)) / ccw a b c,
      ((a.X - p.X) * (b.Y - p.Y) - (b.X - p.X) * (a.Y - p.Y)) / ccw a b c,
      div_nonneg h3 hD.le, div_nonneg h1 hD.le, div_nonneg h2 hD.le, ?_, ?_, ?_⟩
    · field_simp
      simp only [ccw]; ring
    · field_simp
      simp only [ccw]; ring
    · field_simp
      simp only [ccw]; ring
  · rintro ⟨u, v, w, hu, hv, hw, hs, hx, hy⟩
    have hw' : w = 1 - u - v := by linarith
    subst hw'
    have e1 : (c.X - p.X) * (a.Y - p.Y) - (a.X - p.X) * (c.Y - p.Y) = v * ccw a b c := by
      rw [hx, hy]; simp only [ccw]; ring
    have e2 : (a.X - p.X) * (b.Y - p.Y) - (b.X - p.X) * (a.Y - p.Y)
        = (1 - u - v) * ccw a b c := by
      rw [hx, hy]; simp only [ccw]; ring
    have e3 : (b.X - p.X) * (c.Y - p.Y) - (c.X - p.X) * (b.Y - p.Y) = u * ccw a b c := by
      rw [hx, hy]; simp only [ccw]; ring
    rw [e1, e2, e3]
    exact ⟨mul_nonneg hv hD.le, mul_nonneg hw hD.le, mul_nonneg hu hD.le⟩

/-- In exact arithmetic the vertices of a strictly counter-clockwise triangle
are inside it. -/
theorem isInsideTriangle_vertices (a b c : Point) (hD : 0 < ccw a b c) :
    isInsideTriangle a b c a = true ∧ isInsideTriangle a b c b = true ∧
      isInsideTriangle a b c c = true := by
  refine ⟨(isInsideTriangle_iff_convex a b c a hD).2 ⟨1, 0, 0, ?_⟩,
    (isInsideTriangle_iff_convex a b c b hD).2 ⟨0, 1, 0, ?_⟩,
    (isInsideTriangle_iff_convex a b c c hD).2 ⟨0, 0, 1, ?_⟩⟩ <;> norm_num


/-! ## Claims on the errors of `JoinHoles` -/

/-- C13 (identity on a single boundary). For every boundary `b`, of any length,
and whatever the library sort does, `JoinHoles` on `[b]` returns `b` unchanged
and no error; so it does on the two points of the test `only outer`. -/
theorem C13_join_single_identity (sort : List (List Point) → List (List Point)) :
    (∀ b : List Point, JoinHoles sort [b] = .ok (b, none)) ∧
    JoinHoles sort [[⟨0, 0⟩, ⟨1, 1⟩]] = .ok ([⟨0, 0⟩, ⟨1, 1⟩], none) :=
  ⟨fun _ => rfl, rfl⟩

theorem JoinHoles_loop_error_iff (e : GoError) :
    ∀ (hs : List (List Point)) (cur0 res : List Point),
      JoinHoles.loop cur0 hs = .ok (res, some e) ↔
        res = [] ∧ ∃ pre hole post cur r, hs = pre ++ hole :: post ∧
          JoinHoles.loop cur0 pre = .ok (cur, none) ∧
          combinePolygons cur hole = .ok (r, some e)
  | [], cur0, res => by
    simp [JoinHoles.loop]
  | h :: rest, cur0, res => by
    have ih := JoinHoles_loop_error_iff e rest
    constructor
    · intro hl
      simp only [JoinHoles.loop] at hl
      cases hc : combinePolygons cur0 h with
      | error f => rw [hc] at hl; simp at hl
      | ok r =>
        obtain ⟨next, err⟩ := r
        cases err with
        | some e1 =>
          rw [hc] at hl
          simp only [Except.ok.injEq, Prod.mk.injEq, Option.some.injEq] at hl
          obtain ⟨rfl, rfl⟩ := hl
          exact ⟨rfl, [], h, rest, cur0, next, rfl, rfl, hc⟩
        | none =>
          rw [hc] at hl
          simp only at hl
          obtain ⟨hres, pre, hole, post, cur, r, hsplit, hpre, hcomb⟩ := (ih next res).1 hl
          refine ⟨hres, h :: pre, hole, post, cur, r, by rw [hsplit]; rfl, ?_, hcomb⟩
          simp only [JoinHoles.loop, hc]
          exact hpre
    · rintro ⟨rfl, pre, hole, post, cur, r, hsplit, hpre, hcomb⟩
      cases pre with
      | nil =>
        simp only [List.nil_append, List.cons.injEq] at hsplit
        obtain ⟨rfl, rfl⟩ := hsplit
        simp only [JoinHoles.loop, Except.ok.injEq, Prod.mk.injEq, and_true] at hpre
        subst hpre
        simp only [JoinHoles.loop, hcomb]
      | cons h1 pre1 =>
        simp only [List.cons_append, List.cons.injEq] at hsplit
        obtain ⟨rfl, rfl⟩ := hsplit
        simp only [JoinHoles.loop] at hpre ⊢
        cases hc : combinePolygons cur0 h with
        | error f => rw [hc] at hpre; simp at hpre
        | ok r1 =>
          obtain ⟨next, err⟩ := r1
          cases err with
          | some e1 => rw [hc] at hpre; simp at hpre
          | none =>
            rw [hc] at hpre
            simp only at hpre ⊢
            exact (ih next []).2 ⟨rfl, pre1, hole, post, cur, r, rfl, hpre, hcomb⟩

/-- C12 (errors of `JoinHoles`). `JoinHoles` returns the error `e` exactly when
the input is empty (and `e` is the empty-input error) or, with the holes in the
order the sort leaves them, some hole fails in `combinePolygons` with `e`
against the boundary accumulated from the holes before it, which all joined
without error; whatever holes come after it, the error is returned with no
boundary. -/
theorem C12_join_errors (sort : List (List Point) → List (List Point))
    (points : List (List Point)) :
    (∀ e, (∃ res, JoinHoles sort points = .ok (res, some e)) ↔
      ((points = [] ∧ e = .cannotProcessEmptyPointsArray) ∨
        ∃ outer h0 holes pre hole post cur r, points = outer :: h0 :: holes ∧
          sort (h0 :: holes) = pre ++ hole :: post ∧
          JoinHoles.loop outer pre = .ok (cur, none) ∧
          combinePolygons cur hole = .ok (r, some e))) ∧
    (∀ res e, JoinHoles sort points = .ok (res, some e) → res = []) := by
  match points with
  | [] =>
    refine ⟨fun e => ⟨?_, ?_⟩, ?_⟩
    · rintro ⟨res, h⟩
      simp only [JoinHoles, Except.ok.injEq, Prod.mk.injEq, Option.some.injEq] at h
      exact Or.inl ⟨rfl, h.2.symm⟩
    · rintro (⟨_, rfl⟩ | ⟨outer, h0, holes, _, _, _, _, _, hp, _⟩)
      · exact ⟨[], rfl⟩
      · simp at hp
    · intro res e h
      simp only [JoinHoles, Except.ok.injEq, Prod.mk.injEq] at h
      exact h.1.symm
  | [b] =>
    refine ⟨fun e => ⟨?_, ?_⟩, ?_⟩
    · rintro ⟨res, h⟩
      simp [JoinHoles] at h
    · rintro (⟨hp, _⟩ | ⟨outer, h0, holes, _, _, _, _, _, hp, _⟩)
      · simp at hp
      · simp at hp
    · intro res e h
      simp [JoinHoles] at h
  | outer :: h0 :: holes =>
    refine ⟨fun e => ⟨?_, ?_⟩, ?_⟩
    · rintro ⟨res, h⟩
      simp only [JoinHoles] at h
      obtain ⟨_, pre, hole, post, cur, r, hsplit, hpre, hcomb⟩ :=
        (JoinHoles_loop_error_iff e _ _ _).1 h
      exact Or.inr ⟨outer, h0, holes, pre, hole, post, cur, r, rfl, hsplit, hpre, hcomb⟩
    · rintro (⟨hp, _⟩ | ⟨outer1, h1, holes1, pre, hole, post, cur, r, hp, hsplit, hpre, hcomb⟩)
      · simp at hp
      · simp only [List.cons.injEq] at hp
        obtain ⟨rfl, rfl, rfl⟩ := hp
        refine ⟨[], ?_⟩
        simp only [JoinHoles]
        exact (JoinHoles_loop_error_iff e _ _ _).2 ⟨rfl, pre, hole, post, cur, r, hsplit, hpre, hcomb⟩
    · intro res e h
      simp only [JoinHoles] at h
      exact ((JoinHoles_loop_error_iff e _ _ _).1 h).1

/-- Witness of C12: the hole `rightHole` fails in `combinePolygons` against the
boundary `notchedOuterFrom5`, and `JoinHoles` returns that error. -/
theorem C12_join_errors_witness :
    ∃ res, JoinHoles (insertionSort byMaxX.Less) [notchedOuterFrom5, rightHole] =
      .ok (res, some GoError.cannotCalculateIntersection) :=
  ((C12_join_errors (insertionSort byMaxX.Less) [notchedOuterFrom5, rightHole]).1
    .cannotCalculateIntersection).2
    (Or.inr ⟨notchedOuterFrom5, rightHole, [], [], rightHole, [], notchedOuterFrom5, [],
      rfl, rfl, rfl, by decide!⟩)


/-! ## Counting the iterations of `Polygon` -/

theorem count_of_iter {n : Nat} :
    ∀ (k : Nat) {s s1 : State} (a b : Nat), Polygon.iter n k s = some s1 →
      ∃ removed rejected, Polygon.count n k s a b = some (s1, removed, rejected)
  | 0, s, s1, a, b, h => by
    simp only [Polygon.iter, Option.some.injEq] at h
    exact ⟨a, b, by simp [Polygon.count, h]⟩
  | k + 1, s, s1, a, b, h => by
    simp only [Polygon.iter] at h
    simp only [Polygon.count]
    cases h1 : Polygon.step n s with
    | next s2 =>
      rw [h1] at h
      simp only
      split_ifs
      · exact count_of_iter k _ _ h
      · exact count_of_iter k _ _ h
    | ret t e => rw [h1] at h; simp at h
    | fault f => rw [h1] at h; simp at h

theorem two_le_potential (r : RingState) (hp : r.post ≠ [])
    (h2 : 2 ≤ (r.post ++ r.pre).length) : 2 ≤ potential r := by
  have hk : r.pre.length < (r.post ++ r.pre).length := by
    rw [List.length_append]
    have : 0 < r.post.length := List.length_pos.2 hp
    omega
  unfold potential
  obtain ⟨m, hm⟩ : ∃ m, (r.post ++ r.pre).length = m + 1 :=
    ⟨(r.post ++ r.pre).length - 1, by omega⟩
  rw [hm] at hk h2 ⊢
  have := le_lapBudget m
  simp only [lapBudget]
  omega

/-- The counters of `Polygon.count` along a run, on the ring as a list:
`rejected` is the number of candidates in `pre`, and the ring has lost
`removed` nodes. -/
theorem count_inv {pt : Nat → Point} {n : Nat} :
    ∀ (k : Nat) {s s1 : State} {r : RingState} {rem rej rem1 rej1 : Nat},
      Holds pt n s r → r.pre.length = rej → (r.post ++ r.pre).length + rem = n →
      2 ≤ (r.post ++ r.pre).length →
      Polygon.count n k s rem rej = some (s1, rem1, rej1) →
      ∃ r1, Holds pt n s1 r1 ∧ r1.pre.length = rej1 ∧
        (r1.post ++ r1.pre).length + rem1 = n ∧ 2 ≤ (r1.post ++ r1.pre).length ∧
        potential r1 + k ≤ potential r
  | 0, s, s1, r, rem, rej, rem1, rej1, H, hrej, hrem, h2, h => by
    simp only [Polygon.count, Option.some.injEq, Prod.mk.injEq] at h
    obtain ⟨rfl, rfl, rfl⟩ := h
    exact ⟨r, H, hrej, hrem, h2, le_refl _⟩
  | k + 1, s, s1, r, rem, rej, rem1, rej1, H, hrej, hrem, h2, h => by
    have hsim := step_sim H
    simp only [Polygon.count] at h
    cases h1 : Polygon.step n s with
    | ret t e => rw [h1] at h; simp at h
    | fault f => rw [h1] at h; simp at h
    | next s2 =>
      rw [h1] at h hsim
      simp only at h
      cases h3 : ringStep pt r with
      | ret t e => rw [h3] at hsim; exact hsim.elim
      | next r2 =>
        rw [h3] at hsim
        have hpot := potential_step H.post h3
        have hspec := ringStep_spec pt r
        rw [h3] at hspec
        cases hspec with
        | emit e c r3 rest hm hE hA =>
          have hlen3 : 3 ≤ (r.post ++ r.pre).length := by rw [hm]; simp
          have hear := H.isEar_rotate hlen3 0
          rw [List.rotate_zero, hm, hE] at hear
          simp only [nextIter] at hear
          rw [if_pos hear] at h
          obtain ⟨r1, hr1, hj1, hm1, h21, hp1⟩ := count_inv k hsim rfl
            (by rw [hm] at hrem; simp at hrem ⊢; omega) (by simp) h
          exact ⟨r1, hr1, hj1, hm1, h21, by omega⟩
        | drop e c r3 rest hm hE hA =>
          have hlen3 : 3 ≤ (r.post ++ r.pre).length := by rw [hm]; simp
          have hear := H.isEar_rotate hlen3 0
          rw [List.rotate_zero, hm, hE] at hear
          simp only [nextIter] at hear
          rw [if_pos hear] at h
          obtain ⟨r1, hr1, hj1, hm1, h21, hp1⟩ := count_inv k hsim rfl
            (by rw [hm] at hrem; simp at hrem ⊢; omega) (by simp) h
          exact ⟨r1, hr1, hj1, hm1, h21, by omega⟩
        | advance e c post1 hpost hlen3 hE =>
          have hear := H.isEar_rotate hlen3 0
          rw [List.rotate_zero, hE] at hear
          simp only [nextIter] at hear
          have hne : ¬ isEar n s.elements s.ear = .ok true := by
            rw [hear]; simp
          rw [if_neg hne] at h
          have hlen : ((c :: post1) ++ (r.pre ++ [e])).length = (r.post ++ r.pre).length := by
            rw [hpost]; simp; omega
          obtain ⟨r1, hr1, hj1, hm1, h21, hp1⟩ := count_inv k hsim
            (by simp [hrej]) (by rw [hlen]; exact hrem) (by rw [hlen]; exact h2) h
          exact ⟨r1, hr1, hj1, hm1, h21, by omega⟩

/-- C16 (termination). For every input of `n ≥ 3` points the loop of `Polygon`
ends: after some number `k` of iterations that continue, the next evaluation
returns, and `k + 1 < n * n`. Along the run, with `removed` vertices removed so
far (so `m = n - removed` are left) fewer than `m` candidates have been rejected
since the last removal, so at most `m` are inspected before a vertex is removed
or the error is returned; at most `n - 2` vertices are removed; and every
number of iterations made is less than `n * n`. -/
theorem C16_termination (points : List Point) (hn : 3 ≤ points.length) :
    (∃ k s t e, Polygon.iter points.length k (Polygon.init points) = some s ∧
      Polygon.step points.length s = .ret t e ∧ k + 1 < points.length * points.length) ∧
    (∀ k s, Polygon.iter points.length k (Polygon.init points) = some s →
      ∃ removed rejected,
        Polygon.count points.length k (Polygon.init points) 0 0 = some (s, removed, rejected)) ∧
    (∀ k s removed rejected,
      Polygon.count points.length k (Polygon.init points) 0 0 = some (s, removed, rejected) →
      rejected < points.length - removed ∧ removed ≤ points.length - 2 ∧
        k + 1 < points.length * points.length) := by
  have bound : ∀ k s removed rejected,
      Polygon.count points.length k (Polygon.init points) 0 0 = some (s, removed, rejected) →
      rejected < points.length - removed ∧ removed ≤ points.length - 2 ∧
        k + 1 < points.length * points.length := by
    intro k s removed rejected h
    obtain ⟨r1, hr1, hj1, hm1, h21, hp1⟩ := count_inv k (holds_init points (by omega))
      (by simp) (by simp) (by simp; omega) h
    have hk : r1.pre.length < (r1.post ++ r1.pre).length := by
      rw [List.length_append]
      have : 0 < r1.post.length := List.length_pos.2 hr1.post
      omega
    have hpot := two_le_potential r1 hr1.post h21
    have h0 : potential ⟨[], List.range points.length, []⟩ = lapBudget points.length := by
      simp [potential]
    rw [h0] at hp1
    have h2 := two_mul_lapBudget points.length
    refine ⟨by omega, by omega, ?_⟩
    nlinarith
  refine ⟨?_, fun k s h => count_of_iter k 0 0 h, bound⟩
  obtain ⟨res, hres⟩ := Polygon_returns points
  have hloop : Polygon.loop points.length (points.length * points.length)
      (Polygon.init points) = .ok (res.1, res.2) := by
    rw [← hres]; simp [Polygon, show ¬ points.length < 3 by omega]
  obtain ⟨k, s, hk, hstep⟩ := loop_ret _ hloop
  obtain ⟨removed, rejected, hc⟩ := count_of_iter k 0 0 hk
  exact ⟨k, s, res.1, res.2, hk, hstep, (bound k s removed rejected hc).2.2⟩

/-- Witness of C16 on the unit square. -/
theorem C16_termination_witness :
    ∃ k s t e, Polygon.iter 4 k (Polygon.init [⟨0, 0⟩, ⟨1, 0⟩, ⟨1, 1⟩, ⟨0, 1⟩]) = some s ∧
      Polygon.step 4 s = .ret t e ∧ k + 1 < 4 * 4 :=
  (C16_termination [⟨0, 0⟩, ⟨1, 0⟩, ⟨1, 1⟩, ⟨0, 1⟩] (by decide)).1


/-! ## The order in which the holes are joined -/

theorem foldl_xMax_ge (l : List Point) :
    ∀ (x0 : ℚ), x0 ≤ l.foldl (fun (xMax : ℚ) (p : Point) => if p.X > xMax then p.X else xMax) x0 ∧
      ∀ p ∈ l, p.X ≤ l.foldl (fun (xMax : ℚ) (p : Point) => if p.X > xMax then p.X else xMax) x0 := by
  induction l with
  | nil => intro x0; simp
  | cons q l ih =>
    intro x0
    simp only [List.foldl_cons, List.mem_cons, forall_eq_or_imp]
    obtain ⟨h1, h2⟩ := ih (if q.X > x0 then q.X else x0)
    refine ⟨?_, ?_, h2⟩
    · refine le_trans ?_ h1
      split_ifs with h
      · exact le_of_lt h
      · exact le_refl _
    · refine le_trans ?_ h1
      split_ifs with h
      · exact le_refl _
      · exact not_lt.1 h

theorem foldl_xMax_mem (l : List Point) :
    ∀ (x0 : ℚ),
      l.foldl (fun (xMax : ℚ) (p : Point) => if p.X > xMax then p.X else xMax) x0 = x0 ∨
      ∃ p ∈ l, l.foldl (fun (xMax : ℚ) (p : Point) => if p.X > xMax then p.X else xMax) x0 = p.X := by
  induction l with
  | nil => intro x0; simp
  | cons q l ih =>
    intro x0
    simp only [List.foldl_cons, List.mem_cons, exists_eq_or_imp]
    rcases ih (if q.X > x0 then q.X else x0) with h | ⟨p, hp, h⟩
    · rw [h]
      split_ifs with hq
      · exact Or.inr (Or.inl rfl)
      · exact Or.inl rfl
    · exact Or.inr (Or.inr ⟨p, hp, h⟩)

theorem clampedMaxX_nonneg (a : List Point) : 0 ≤ clampedMaxX a := (foldl_xMax_ge a 0).1

theorem le_clampedMaxX {a : List Point} {p : Point} (h : p ∈ a) : p.X ≤ clampedMaxX a :=
  (foldl_xMax_ge a 0).2 p h

/-- The comparison `byMaxX.Less(i, j)` says that the clamped maximum of `j` is
at most that of `i`. -/
theorem byMaxX_Less_iff (a b : List Point) :
    byMaxX.Less a b = true ↔ clampedMaxX b ≤ clampedMaxX a := by
  have e : byMaxX.Less a b = true ↔ ∀ q ∈ b, q.X ≤ clampedMaxX a := by
    simp [byMaxX.Less, clampedMaxX]
  rw [e]
  constructor
  · intro h
    rcases foldl_xMax_mem b 0 with h0 | ⟨q, hq, h1⟩
    · show clampedMaxX b ≤ _
      unfold clampedMaxX at *
      rw [h0]; exact (foldl_xMax_ge a 0).1
    · show clampedMaxX b ≤ _
      have := h q hq
      unfold clampedMaxX at *
      rw [h1]; exact this
  · intro h q hq
    exact le_trans (le_clampedMaxX hq) h

theorem insert_perm {α : Type} (less : α → α → Bool) :
    ∀ (rp : List α) (x : α), (insertionSort.insert less rp x).Perm (x :: rp)
  | [], x => List.Perm.refl _
  | z :: zs, x => by
    simp only [insertionSort.insert]
    split_ifs
    · exact ((insert_perm less zs x).cons z).trans (List.Perm.swap x z zs)
    · exact List.Perm.refl _

theorem insert_sorted (rp : List (List Point)) (x : List Point)
    (h : rp.Pairwise (fun a b => clampedMaxX a ≤ clampedMaxX b)) :
    (insertionSort.insert byMaxX.Less rp x).Pairwise
      (fun a b => clampedMaxX a ≤ clampedMaxX b) := by
  induction rp with
  | nil => simp [insertionSort.insert]
  | cons z zs ih =>
    rw [List.pairwise_cons] at h
    simp only [insertionSort.insert]
    by_cases hl : byMaxX.Less x z = true
    · rw [if_pos hl, List.pairwise_cons]
      refine ⟨?_, ih h.2⟩
      intro y hy
      rcases List.mem_cons.1 ((insert_perm byMaxX.Less zs x).mem_iff.1 hy) with rfl | hy
      · exact (byMaxX_Less_iff _ _).1 hl
      · exact h.1 y hy
    · rw [if_neg hl]
      have hlt : clampedMaxX x < clampedMaxX z := by
        rw [byMaxX_Less_iff] at hl
        exact not_le.1 hl
      rw [List.pairwise_cons]
      refine ⟨?_, List.pairwise_cons.2 h⟩
      intro y hy
      rcases List.mem_cons.1 hy with rfl | hy
      · exact le_of_lt hlt
      · exact le_trans (le_of_lt hlt) (h.1 y hy)

theorem foldl_insert_sorted :
    ∀ (data rp : List (List Point)),
      rp.Pairwise (fun a b => clampedMaxX a ≤ clampedMaxX b) →
      (data.foldl (insertionSort.insert byMaxX.Less) rp).Pairwise
        (fun a b => clampedMaxX a ≤ clampedMaxX b)
  | [], _, h => h
  | x :: data, rp, h => foldl_insert_sorted data _ (insert_sorted rp x h)

theorem foldl_insert_perm {α : Type} (less : α → α → Bool) :
    ∀ (data rp : List α), (data.foldl (insertionSort.insert less) rp).Perm (data ++ rp)
  | [], rp => List.Perm.refl _
  | x :: data, rp => by
    refine (foldl_insert_perm less data _).trans ?_
    refine (List.Perm.append_left data (insert_perm less rp x)).trans ?_
    simp

/-- The insertion sort permutes its input. -/
theorem insertionSort_perm {α : Type} (less : α → α → Bool) (data : List α) :
    (insertionSort less data).Perm data := by
  unfold insertionSort
  refine (List.reverse_perm _).trans ?_
  simpa using foldl_insert_perm less data []

/-- With `byMaxX.Less` the insertion sort leaves the holes in descending order
of their clamped maximum X. -/
theorem insertionSort_clamped (holes : List (List Point)) :
    (insertionSort byMaxX.Less holes).Pairwise
      (fun a b => clampedMaxX b ≤ clampedMaxX a) := by
  unfold insertionSort
  rw [List.pairwise_reverse]
  exact foldl_insert_sorted holes [] List.Pairwise.nil

/-- For holes that each have a vertex with `X ≥ 0`, the insertion sort with
`byMaxX.Less` leaves the holes in descending order of maximum X. -/
theorem insertionSort_descending (holes : List (List Point))
    (h : ∀ hole ∈ holes, ∃ p ∈ hole, 0 ≤ p.X) :
    (insertionSort byMaxX.Less holes).Pairwise (fun a b => maxXLe b a) := by
  have hs := insertionSort_clamped holes
  have hg : ∀ a ∈ insertionSort byMaxX.Less holes, ∃ p ∈ a, clampedMaxX a = p.X := by
    intro a ha
    obtain ⟨p, hp, hp0⟩ := h a ((insertionSort_perm _ _).mem_iff.1 ha)
    rcases foldl_xMax_mem a 0 with h0 | ⟨q, hq, h1⟩
    · refine ⟨p, hp, ?_⟩
      have hle := le_clampedMaxX hp
      unfold clampedMaxX at hle ⊢
      rw [h0] at hle ⊢
      exact le_antisymm hp0 hle
    · exact ⟨q, hq, h1⟩
  refine List.Pairwise.imp_of_mem ?_ hs
  intro a b ha _ hab q hq
  obtain ⟨p, hp, hpe⟩ := hg a ha
  exact ⟨p, hp, by rw [← hpe]; exact le_trans (le_clampedMaxX hq) hab⟩

theorem sort_Sort_short {α : Type} (long : (α → α → Bool) → List α → List α)
    (less : α → α → Bool) (data : List α) (h : data.length ≤ 12) :
    sort.Sort long less data = insertionSort less data := by
  unfold sort.Sort
  rw [if_pos h]

/-- C11 as stated fails: the triangular holes of maximum X `2` and `6`, given
in ascending order of maximum X, are exchanged by `sort.Sort`, so the hole of
maximum X `6` is processed before the hole of maximum X `2`. -/
theorem C11_ascending_counterexample :
    (∀ long : (List Point → List Point → Bool) → List (List Point) → List (List Point),
      sort.Sort long byMaxX.Less [[⟨1, 1⟩, ⟨1, 2⟩, ⟨2, 1⟩], [⟨5, 1⟩, ⟨5, 2⟩, ⟨6, 1⟩]] =
        [[⟨5, 1⟩, ⟨5, 2⟩, ⟨6, 1⟩], [⟨1, 1⟩, ⟨1, 2⟩, ⟨2, 1⟩]]) ∧
    ¬ List.Pairwise maxXLe [[⟨5, 1⟩, ⟨5, 2⟩, ⟨6, 1⟩], [⟨1, 1⟩, ⟨1, 2⟩, ⟨2, 1⟩]] := by
  refine ⟨fun long => ?_, by decide!⟩
  rw [sort_Sort_short long _ _ (by decide)]
  decide!

/-- C11, amended (hole ordering). For at most 12 holes, on which `sort.Sort`
is its insertion sort, that each have a vertex with `X ≥ 0`, `sort.Sort` with
`byMaxX.Less` leaves the holes in descending order of maximum X: for every
pair of holes at positions `i < j` the maximum X of hole `j` is at most the
maximum X of hole `i`; the sort only permutes the holes; and `JoinHoles` joins
them in this order. -/
theorem C11_descending_maxX
    (long : (List Point → List Point → Bool) → List (List Point) → List (List Point))
    (holes : List (List Point)) (hlen : holes.length ≤ 12)
    (h : ∀ hole ∈ holes, ∃ p ∈ hole, 0 ≤ p.X) :
    (sort.Sort long byMaxX.Less holes).Pairwise (fun a b => maxXLe b a) ∧
    (sort.Sort long byMaxX.Less holes).Perm holes ∧
    ∀ outer : List Point, holes ≠ [] →
      JoinHoles (sort.Sort long byMaxX.Less) (outer :: holes) =
        JoinHoles.loop outer (sort.Sort long byMaxX.Less holes) := by
  rw [sort_Sort_short long _ _ hlen]
  refine ⟨insertionSort_descending holes h, insertionSort_perm _ _, ?_⟩
  intro outer hne
  cases holes with
  | nil => exact absurd rfl hne
  | cons h0 rest =>
    simp only [JoinHoles]
    rw [sort_Sort_short long _ _ hlen]

/-- Witness of C11, amended, on three triangular holes. -/
theorem C11_descending_maxX_witness :
    (sort.Sort (fun _ data => data) byMaxX.Less [[⟨1, 1⟩, ⟨1, 2⟩, ⟨2, 1⟩],
      [⟨5, 1⟩, ⟨5, 2⟩, ⟨6, 1⟩], [⟨3, 1⟩, ⟨3, 2⟩, ⟨4, 1⟩]]).Pairwise (fun a b => maxXLe b a) :=
  (C11_descending_maxX (fun _ data => data)
    [[⟨1, 1⟩, ⟨1, 2⟩, ⟨2, 1⟩], [⟨5, 1⟩, ⟨5, 2⟩, ⟨6, 1⟩], [⟨3, 1⟩, ⟨3, 2⟩, ⟨4, 1⟩]]
    (by decide) (by decide!)).1


/-! ## Defects of the visibility search -/

/-- C17 (closest crossing) fails on the code. For `M = (102, 5)` and the boundary
`notchedOuter`, `findK` returns without error the point `K = (108, 5)` on the
edge `(k1, k2) = (1, 2)`, the first edge in list order that the ray crosses;
the edge from `(103, 2)` to `(103, 10)` straddles the Y coordinate of `M` and
crosses the ray at `X = 103`, strictly closer to `M`. -/
theorem C17_findK_not_closest :
    findK ⟨102, 5⟩ notchedOuter = (⟨108, 5⟩, 1, 2, none) ∧
    rayCrossing ⟨102, 5⟩ ⟨108, 0⟩ ⟨108, 10⟩ = some 108 ∧
    (⟨103, 2⟩, ⟨103, 10⟩) ∈ edges notchedOuter ∧
    rayCrossing ⟨102, 5⟩ ⟨103, 2⟩ ⟨103, 10⟩ = some 103 ∧
    (103 : ℚ) - 102 < 108 - 102 := by
  refine ⟨by decide!, by decide!, by decide!, by decide!, by norm_num⟩

/-- C18 (the intersection error on well-formed input) fails on the code. The
boundary `notchedOuterFrom5` is simple and counter-clockwise and has no
horizontal edge at `Y = 5`; `M = (107, 5)` lies strictly inside it, as does the
hole `rightHole`, whose rightmost vertex is `M`; and `findK`, and with it
`combinePolygons`, returns the 'cannot calculate intersection' error: the
upward edge from `(103, 2)` to `(103, 10)`, left of `M`, comes first in the
list. Started at the vertex `(100, 0)`, the same boundary gives no error. -/
theorem C18_findK_error_on_simple_polygon :
    isSimple notchedOuterFrom5 = true ∧ 0 < polygonArea notchedOuterFrom5 ∧
    ((edges notchedOuterFrom5).all fun e => !(decide (e.1.Y = 5) && decide (e.2.Y = 5))) = true ∧
    strictlyInside notchedOuterFrom5 ⟨107, 5⟩ = true ∧
    holeStrictlyInside notchedOuterFrom5 rightHole = true ∧
    rightHole[combinePolygons.mIndex rightHole]? = some ⟨107, 5⟩ ∧
    findK ⟨107, 5⟩ notchedOuterFrom5 = (⟨0, 0⟩, 0, 0, some .cannotCalculateIntersection) ∧
    combinePolygons notchedOuterFrom5 rightHole =
      .ok ([], some .cannotCalculateIntersection) ∧
    notchedOuterFrom5 = notchedOuter.rotate 5 ∧
    findK ⟨107, 5⟩ notchedOuter = (⟨108, 5⟩, 1, 2, none) := by
  refine ⟨by decide!, by decide!, by decide!, by decide!, by decide!, by decide!, by decide!,
    by decide!, by decide!, by decide!⟩

/-- C19 (selection of `M`) fails on the code. For the hole
`(-5,0), (-3,1), (-1,0)`, whose X coordinates are all negative, the first loop
of `combinePolygons` leaves `mIndex = 0`, and the hole is bridged from
`M = hole[0] = (-5, 0)`, while the vertex of maximum X is `hole[2] = (-1, 0)`:
`xMax` starts at `0.0`. -/
theorem C19_mIndex_negative_coordinates :
    combinePolygons.mIndex [⟨-5, 0⟩, ⟨-3, 1⟩, ⟨-1, 0⟩] = 0 ∧
    combinePolygons.bridge [⟨-10, -10⟩, ⟨10, -10⟩, ⟨10, 10⟩, ⟨-10, 10⟩]
      [⟨-5, 0⟩, ⟨-3, 1⟩, ⟨-1, 0⟩] = .ok (.ok (0, 0)) ∧
    combinePolygons [⟨-10, -10⟩, ⟨10, -10⟩, ⟨10, 10⟩, ⟨-10, 10⟩]
      [⟨-5, 0⟩, ⟨-3, 1⟩, ⟨-1, 0⟩] =
      .ok ([⟨-10, -10⟩, ⟨-5, 0⟩, ⟨-3, 1⟩, ⟨-1, 0⟩, ⟨-5, 0⟩, ⟨-10, -10⟩, ⟨10, -10⟩, ⟨10, 10⟩,
        ⟨-10, 10⟩], none) ∧
    ((⟨-5, 0⟩ : Point).X < (⟨-1, 0⟩ : Point).X) := by
  refine ⟨by decide!, by decide!, by decide!, by decide!⟩


/-! ## The search for the visible vertex, step by step -/

theorem cyclic_lt (a : Int) (n : Nat) (hn : 0 < n) : (cyclic a (n : Int)).toNat < n := by
  unfold cyclic
  have hn' : (0 : Int) < (n : Int) := by exact_mod_cast hn
  have h1 : Int.tmod a n < n := Int.tmod_lt_of_pos a hn'
  have h2 : -(n : Int) < Int.tmod a n := by
    cases a with
    | ofNat m =>
      have h0 : 0 ≤ Int.tmod (Int.ofNat m) (n : Int) :=
        Int.tmod_nonneg (n : Int) (Int.ofNat_nonneg m)
      omega
    | negSucc m =>
      have h4 : Int.tmod (Int.negSucc m) (n : Int) = -(((m + 1) % n : Nat) : Int) := rfl
      have h3 : (m + 1) % n < n := Nat.mod_lt _ hn
      rw [h4]
      omega
  have h5 : 0 ≤ Int.tmod a n + n := by omega
  have h6 : Int.tmod (Int.tmod a n + n) n < n := Int.tmod_lt_of_pos _ hn'
  have h7 : 0 ≤ Int.tmod (Int.tmod a n + n) n := Int.tmod_nonneg _ h5
  omega

theorem vertexAt_foldl (k : Point) (outer : List Point) :
    ∀ (l : List Nat) (init : Int), (∀ i ∈ l, outer.getD i default ≠ k) →
      l.foldl (fun (visibleIndex : Int) (i : Nat) =>
        if outer.getD i default = k then (i : Int) else visibleIndex) init = init
  | [], _, _ => rfl
  | i :: l, init, h => by
    simp only [List.foldl_cons]
    rw [if_neg (h i (List.mem_cons_self _ _))]
    exact vertexAt_foldl k outer l init (fun j hj => h j (List.mem_cons_of_mem _ hj))

/-- When `K` is no vertex of the outer boundary, the loop that looks for it
leaves `visibleIndex = -1`. -/
theorem vertexAt_not_mem {k : Point} {outer : List Point} (h : k ∉ outer) :
    combinePolygons.vertexAt k outer = -1 := by
  unfold combinePolygons.vertexAt
  apply vertexAt_foldl
  intro i hi hk
  have hlt : i < outer.length := List.mem_range.1 hi
  rw [List.getD_eq_getElem?_getD, List.getElem?_eq_getElem hlt] at hk
  simp only [Option.getD_some] at hk
  exact h (hk ▸ List.getElem_mem hlt)

theorem findK_loop_lt (m : Point) (outer : List Point) :
    ∀ (rem i j : Nat), i < outer.length → j + rem = outer.length →
      (findK.loop m outer rem i j).2.1 < outer.length ∧
      (findK.loop m outer rem i j).2.2.1 < outer.length
  | 0, i, j, hi, _ => by
    simp only [findK.loop]
    exact ⟨show 0 < outer.length by omega, show 0 < outer.length by omega⟩
  | rem + 1, i, j, hi, hj => by
    have ih := findK_loop_lt m outer rem j (j + 1) (by omega) (by omega)
    simp only [findK.loop]
    split_ifs
    · exact ih
    · exact ⟨hi, show j < outer.length by omega⟩
    · exact ih
    · exact ⟨show 0 < outer.length by omega, show 0 < outer.length by omega⟩

/-- The indices `k1` and `k2` that `findK` returns are within a non-empty outer
boundary. -/
theorem findK_lt (m : Point) (outer : List Point) (h : 0 < outer.length) :
    (findK m outer).2.1 < outer.length ∧ (findK m outer).2.2.1 < outer.length :=
  findK_loop_lt m outer outer.length (outer.length - 1) 0 (by omega) (by omega)

theorem areAllOutside_foldl (m k : Point) (pIndex : Nat) (outer : List Point)
    (hp : pIndex < outer.length) :
    ∀ (l : List Nat) (b : Bool), (∀ i ∈ l, i < outer.length) →
      l.foldlM (fun (allOutside : Bool) (i : Nat) =>
        if i = pIndex then pure allOutside
        else do
          let p ← index outer pIndex
          let q ← index outer i
          pure (if isInsideTriangle m k p q then false else allOutside)) b
        = (.ok (b && l.all fun i =>
            decide (i = pIndex) ||
              !isInsideTriangle m k (outer.getD pIndex default) (outer.getD i default)) :
          Except Fault Bool)
  | [], b, _ => by simp [pure, Except.pure]
  | i :: l, b, h => by
    have hi : i < outer.length := h i (List.mem_cons_self _ _)
    have ih := fun b1 => areAllOutside_foldl m k pIndex outer hp l b1
      (fun j hj => h j (List.mem_cons_of_mem _ hj))
    have gp : outer.getD pIndex default = outer[pIndex] := by
      rw [List.getD_eq_getElem?_getD, List.getElem?_eq_getElem hp]; rfl
    have gi : outer.getD i default = outer[i] := by
      rw [List.getD_eq_getElem?_getD, List.getElem?_eq_getElem hi]; rfl
    simp only [List.foldlM, bind, Except.bind, pure, Except.pure, index_of_lt outer _ hp,
      index_of_lt outer _ hi] at ih ⊢
    by_cases hip : i = pIndex
    · simp only [hip, if_true, ih]
      simp
    · simp only [hip, if_false, ih, gp, gi, List.all_cons, decide_False, Bool.false_or]
      cases isInsideTriangle m k outer[pIndex] outer[i] <;> simp

theorem getD_of_lt {α : Type} [Inhabited α] (s : List α) (i : Nat) (h : i < s.length) :
    s.getD i default = s[i] := by
  rw [List.getD_eq_getElem?_getD, List.getElem?_eq_getElem h]; rfl

/-- With an outer vertex other than `P` inside the triangle `(M, K, P)`,
`areAllOutside` returns false. -/
theorem areAllOutside_false {m k : Point} {pIndex : Nat} {outer : List Point}
    (hp : pIndex < outer.length)
    (h : ∃ i, i < outer.length ∧ i ≠ pIndex ∧
      isInsideTriangle m k (outer.getD pIndex default) (outer.getD i default) = true) :
    areAllOutside m k pIndex outer = .ok false := by
  unfold areAllOutside
  rw [areAllOutside_foldl m k pIndex outer hp _ true (fun i hi => List.mem_range.1 hi)]
  obtain ⟨i, hi, hne, hin⟩ := h
  simp only [Bool.true_and, Except.ok.injEq]
  rw [Bool.eq_false_iff]
  intro hall
  rw [List.all_eq_true] at hall
  have := hall i (List.mem_range.2 hi)
  rw [hin, decide_eq_false hne] at this
  exact Bool.false_ne_true this

theorem reflex_foldl (m k : Point) (pIndex : Nat) (outer : List Point)
    (hp : pIndex < outer.length) :
    ∀ (l : List Nat) (init : List Nat), (∀ i ∈ l, i < outer.length) →
      (∀ i ∈ l, ¬ (isInsideTriangle m k (outer.getD pIndex default) (outer.getD i default) = true ∧
        isReflex (outer.getD (cyclic ((i : Int) - 1) outer.length).toNat default)
          (outer.getD i default)
          (outer.getD (cyclic ((i : Int) + 1) outer.length).toNat default) = true)) →
      l.foldlM (fun (reflex : List Nat) (i : Nat) => do
          let p ← index outer pIndex
          let q ← index outer i
          let notInside := !isInsideTriangle m k p q
          let prev := cyclic ((i : Int) - 1) outer.length
          let next := cyclic ((i : Int) + 1) outer.length
          let a ← index outer prev.toNat
          let c ← index outer next.toNat
          let notReflex := !isReflex a q c
          if notInside || notReflex then pure reflex else pure (reflex ++ [i])) init
        = (.ok init : Except Fault (List Nat))
  | [], init, _, _ => by simp [pure, Except.pure]
  | i :: l, init, h, hno => by
    have hi : i < outer.length := h i (List.mem_cons_self _ _)
    have hpos : 0 < outer.length := by omega
    have ha := cyclic_lt ((i : Int) - 1) outer.length hpos
    have hc := cyclic_lt ((i : Int) + 1) outer.length hpos
    have ih := reflex_foldl m k pIndex outer hp l init
      (fun j hj => h j (List.mem_cons_of_mem _ hj))
      (fun j hj => hno j (List.mem_cons_of_mem _ hj))
    have hn := hno i (List.mem_cons_self _ _)
    rw [getD_of_lt outer _ hp, getD_of_lt outer _ hi, getD_of_lt outer _ ha,
      getD_of_lt outer _ hc] at hn
    simp only [List.foldlM, bind, Except.bind, pure, Except.pure, index_of_lt outer _ hp,
      index_of_lt outer _ hi, index_of_lt outer _ ha, index_of_lt outer _ hc] at ih ⊢
    have hcond : (!isInsideTriangle m k outer[pIndex] outer[i] ||
        !isReflex outer[(cyclic ((i : Int) - 1) outer.length).toNat] outer[i]
          outer[(cyclic ((i : Int) + 1) outer.length).toNat]) = true := by
      cases h1 : isInsideTriangle m k outer[pIndex] outer[i]
      · rfl
      · cases h2 : isReflex outer[(cyclic ((i : Int) - 1) outer.length).toNat] outer[i]
          outer[(cyclic ((i : Int) + 1) outer.length).toNat]
        · rfl
        · exact absurd ⟨h1, h2⟩ hn
    rw [if_pos hcond]
    exact ih

/-- When no outer vertex is both inside the triangle `(M, K, P)` and reflex, the
list of candidates of `findClosest` is empty and `findClosest` returns its
initial `closest`, the index 0. -/
theorem findClosest_eq_zero {m k : Point} {pIndex : Nat} {outer : List Point}
    (hp : pIndex < outer.length)
    (hno : ∀ i, i < outer.length →
      ¬ (isInsideTriangle m k (outer.getD pIndex default) (outer.getD i default) = true ∧
        isReflex (outer.getD (cyclic ((i : Int) - 1) outer.length).toNat default)
          (outer.getD i default)
          (outer.getD (cyclic ((i : Int) + 1) outer.length).toNat default) = true)) :
    findClosest.reflex m k pIndex outer = .ok [] ∧ findClosest m k pIndex outer = .ok 0 := by
  have h1 : findClosest.reflex m k pIndex outer = .ok [] := by
    unfold findClosest.reflex
    exact reflex_foldl m k pIndex outer hp _ [] (fun i hi => List.mem_range.1 hi)
      (fun i hi => hno i (List.mem_range.1 hi))
  refine ⟨h1, ?_⟩
  unfold findClosest
  rw [h1]
  rfl

/-- The result slice of `combinePolygons` for indices within the two slices. -/
theorem splice_ok (outer inner : List Point) (m v : Nat) (hv : v < outer.length)
    (hm : m < inner.length) :
    combinePolygons.splice outer inner m (v : Int) =
      .ok (outer.take (v + 1) ++ (inner.drop m ++ inner.take m) ++ [inner[m], outer[v]] ++
        outer.drop (v + 1)) := by
  have hi : inner ≠ [] := by
    intro h0; rw [h0] at hm; simp at hm
  have hloop := splice_hole_loop inner m hi (List.range inner.length) (outer.take (v + 1))
  unfold combinePolygons.splice
  have hv2 : ¬ outer.length < v + 1 := by omega
  simp only [Int.toNat_ofNat, hv2, if_false, bind, Except.bind, pure, Except.pure] at hloop ⊢
  rw [hloop]
  simp only [index_of_lt inner m hm, index_of_lt outer v hv]
  rw [map_cyclic_eq_rotate inner m hm]

/-- The search of `combinePolygons` when there is no candidate: `K` is no vertex
of the outer boundary, a vertex other than `P` is inside the triangle
`(M, K, P)`, and no vertex is both inside it and reflex. The search ends with
`visibleIndex = 0`, the initial `closest` of `findClosest`. -/
theorem bridge_no_candidate {outer inner : List Point} {m k : Point} {k1 k2 pIndex : Nat}
    (hM : inner[combinePolygons.mIndex inner]? = some m)
    (hK : findK m outer = (k, k1, k2, none))
    (hv : k ∉ outer)
    (hP : pIndex = if (outer.getD k1 default).X > (outer.getD k2 default).X then k1 else k2)
    (hin : ∃ i, i < outer.length ∧ i ≠ pIndex ∧
      isInsideTriangle m k (outer.getD pIndex default) (outer.getD i default) = true)
    (hno : ∀ i, i < outer.length →
      ¬ (isInsideTriangle m k (outer.getD pIndex default) (outer.getD i default) = true ∧
        isReflex (outer.getD (cyclic ((i : Int) - 1) outer.length).toNat default)
          (outer.getD i default)
          (outer.getD (cyclic ((i : Int) + 1) outer.length).toNat default) = true)) :
    combinePolygons.bridge outer inner = .ok (.ok (combinePolygons.mIndex inner, 0)) := by
  have hpos : 0 < outer.length := by
    obtain ⟨i, hi, _⟩ := hin
    omega
  have hk := findK_lt m outer hpos
  rw [hK] at hk
  obtain ⟨hk1, hk2⟩ := hk
  have hk1 : k1 < outer.length := hk1
  have hk2 : k2 < outer.length := hk2
  have hp : pIndex < outer.length := by
    rw [hP]; split_ifs <;> assumption
  rw [getD_of_lt outer _ hk1, getD_of_lt outer _ hk2] at hP
  unfold combinePolygons.bridge
  simp only [bind, Except.bind, pure, Except.pure, index_eq_ok.2 hM, hK, Option.isSome_none,
    Bool.false_eq_true, if_false, vertexAt_not_mem hv, index_of_lt outer _ hk1,
    index_of_lt outer _ hk2, ← hP, areAllOutside_false hp hin, (findClosest_eq_zero hp hno).2,
    Bool.and_false]
  rfl


/-! ## The search without a candidate -/

/-- The case 'triangle touching edge' of `TestJoinHoles`: `M = (4, 2)` lies on
the outer edge `(1, 2)`, so `K = M` and the triangle `(M, K, P)` is degenerate;
the vertex 1 passes `isInsideTriangle`, no vertex is a candidate of
`findClosest`, and the result, which the test expects, is bridged to the
vertex 0. -/
theorem JoinHoles_touching_edge :
    findK ⟨4, 2⟩ touchingOuter = (⟨4, 2⟩, 1, 2, none) ∧
    touchingHole[combinePolygons.mIndex touchingHole]? = some ⟨4, 2⟩ ∧
    (⟨4, 2⟩ : Point) ∉ touchingOuter ∧
    isInsideTriangle ⟨4, 2⟩ ⟨4, 2⟩ (touchingOuter.getD 2 default)
      (touchingOuter.getD 1 default) = true ∧
    findClosest.reflex ⟨4, 2⟩ ⟨4, 2⟩ 2 touchingOuter = .ok [] ∧
    JoinHoles (insertionSort byMaxX.Less) [touchingOuter, touchingHole] =
      .ok ([⟨0, 0⟩, ⟨4, 2⟩, ⟨1, 1⟩, ⟨1, 3⟩, ⟨4, 2⟩, ⟨0, 0⟩, ⟨4, 0⟩, ⟨4, 4⟩, ⟨0, 4⟩], none) := by
  refine ⟨?_, ?_, ?_, ?_, ?_, ?_⟩ <;> decide!

/-- When the search has no candidate, `combinePolygons` returns no error. Let
`M` be the vertex of the hole at `mIndex`, let `findK` succeed with `K` on the
edge `(k1, k2)`, `K` no vertex of the outer boundary, `P` the endpoint that
`combinePolygons` selects, some outer vertex other than `P` inside the triangle
`(M, K, P)`, and no outer vertex both inside it and reflex. Then `findClosest`
has no candidate and returns its initial `closest`, the index 0, the test
`visibleIndex < 0` that guards the 'could not find visible vertex' error is
false, and the hole is bridged from `M` to the first outer vertex. -/
theorem combinePolygons_no_candidate
    (sort : List (List Point) → List (List Point)) (outer inner : List Point) (m k : Point)
    (k1 k2 pIndex : Nat)
    (hs : (sort [inner]).Perm [inner])
    (hM : inner[combinePolygons.mIndex inner]? = some m)
    (hK : findK m outer = (k, k1, k2, none))
    (hv : k ∉ outer)
    (hP : pIndex = if (outer.getD k1 default).X > (outer.getD k2 default).X then k1 else k2)
    (hin : ∃ i, i < outer.length ∧ i ≠ pIndex ∧
      isInsideTriangle m k (outer.getD pIndex default) (outer.getD i default) = true)
    (hno : ∀ i, i < outer.length →
      ¬ (isInsideTriangle m k (outer.getD pIndex default) (outer.getD i default) = true ∧
        isReflex (outer.getD (cyclic ((i : Int) - 1) outer.length).toNat default)
          (outer.getD i default)
          (outer.getD (cyclic ((i : Int) + 1) outer.length).toNat default) = true)) :
    findClosest.reflex m k pIndex outer = .ok [] ∧
    findClosest m k pIndex outer = .ok 0 ∧
    combinePolygons outer inner =
      .ok (outer.take 1 ++
        (inner.drop (combinePolygons.mIndex inner) ++ inner.take (combinePolygons.mIndex inner))
        ++ [m, outer.getD 0 default] ++ outer.drop 1, none) ∧
    combinePolygons outer inner ≠ .ok ([], some .couldNotFindVisibleVertex) ∧
    JoinHoles sort [outer, inner] =
      .ok (outer.take 1 ++
        (inner.drop (combinePolygons.mIndex inner) ++ inner.take (combinePolygons.mIndex inner))
        ++ [m, outer.getD 0 default] ++ outer.drop 1, none) := by
  have hpos : 0 < outer.length := by
    obtain ⟨i, hi, _⟩ := hin
    omega
  have hk := findK_lt m outer hpos
  rw [hK] at hk
  have hk1 : k1 < outer.length := hk.1
  have hk2 : k2 < outer.length := hk.2
  have hp : pIndex < outer.length := by
    rw [hP]; split_ifs <;> assumption
  have hml : combinePolygons.mIndex inner < inner.length := by
    by_contra hge
    rw [List.getElem?_eq_none (by omega)] at hM
    exact Option.noConfusion hM
  have hmv : inner[combinePolygons.mIndex inner] = m := by
    rw [List.getElem?_eq_getElem hml] at hM
    exact Option.some.inj hM
  have hb := bridge_no_candidate hM hK hv hP hin hno
  have hsp := splice_ok outer inner (combinePolygons.mIndex inner) 0 hpos hml
  have hc : combinePolygons outer inner =
      .ok (outer.take 1 ++
        (inner.drop (combinePolygons.mIndex inner) ++ inner.take (combinePolygons.mIndex inner))
        ++ [m, outer.getD 0 default] ++ outer.drop 1, none) := by
    unfold combinePolygons
    rw [hb]
    simp only [bind, Except.bind, pure, Except.pure]
    have h0 : ((0 : Nat) : Int) = 0 := rfl
    rw [h0] at hsp
    rw [hsp, hmv, getD_of_lt outer 0 hpos]
  refine ⟨(findClosest_eq_zero hp hno).1, (findClosest_eq_zero hp hno).2, hc, ?_, ?_⟩
  · rw [hc]
    intro h
    simp only [Except.ok.injEq, Prod.mk.injEq] at h
    exact Option.noConfusion h.2
  · have hs1 : sort [inner] = [inner] := List.perm_singleton.1 hs
    simp only [JoinHoles, hs1, JoinHoles.loop, hc]


/-- C20 (no candidate, so the join fails) fails on the code. The boundary
`slantedOuterFrom1` is simple and counter-clockwise and the hole `notchedHole`
lies strictly inside it. `findK` succeeds for `M = (102, 5)` with
`K = (108, 5)` on the edge `(0, 1)`, `K` is no vertex of the boundary, `P` is
the vertex 1, the vertex 2 `= (105, 8)` is inside the triangle `(M, K, P)`, and
no vertex is both inside it and reflex: `findClosest` has no candidate. It
returns 0, the test `visibleIndex < 0` is false, and `combinePolygons` and
`JoinHoles` return no error but a boundary in which `M` is bridged to the
vertex 0 `= (108, 0)`, across the edges at `x = 103` and `x = 105`. -/
theorem C20_no_candidate_no_error :
    isSimple slantedOuterFrom1 = true ∧ 0 < polygonArea slantedOuterFrom1 ∧
    holeStrictlyInside slantedOuterFrom1 notchedHole = true ∧
    notchedHole[combinePolygons.mIndex notchedHole]? = some ⟨102, 5⟩ ∧
    findK ⟨102, 5⟩ slantedOuterFrom1 = (⟨108, 5⟩, 0, 1, none) ∧
    (⟨108, 5⟩ : Point) ∉ slantedOuterFrom1 ∧
    (if (slantedOuterFrom1.getD 0 default).X > (slantedOuterFrom1.getD 1 default).X
      then 0 else 1) = 1 ∧
    isInsideTriangle ⟨102, 5⟩ ⟨108, 5⟩ (slantedOuterFrom1.getD 1 default)
      (slantedOuterFrom1.getD 2 default) = true ∧
    (∀ i, i < slantedOuterFrom1.length →
      ¬ (isInsideTriangle ⟨102, 5⟩ ⟨108, 5⟩ (slantedOuterFrom1.getD 1 default)
          (slantedOuterFrom1.getD i default) = true ∧
        isReflex
          (slantedOuterFrom1.getD (cyclic ((i : Int) - 1) slantedOuterFrom1.length).toNat default)
          (slantedOuterFrom1.getD i default)
          (slantedOuterFrom1.getD (cyclic ((i : Int) + 1) slantedOuterFrom1.length).toNat default)
          = true)) ∧
    findClosest.reflex ⟨102, 5⟩ ⟨108, 5⟩ 1 slantedOuterFrom1 = .ok [] ∧
    findClosest ⟨102, 5⟩ ⟨108, 5⟩ 1 slantedOuterFrom1 = .ok 0 ∧
    combinePolygons.bridge slantedOuterFrom1 notchedHole = .ok (.ok (2, 0)) ∧
    combinePolygons slantedOuterFrom1 notchedHole =
      .ok ([⟨108, 0⟩, ⟨102, 5⟩, ⟨101, 4⟩, ⟨101, 6⟩, ⟨102, 5⟩, ⟨108, 0⟩, ⟨108, 12⟩, ⟨105, 8⟩,
        ⟨105, 2⟩, ⟨103, 2⟩, ⟨103, 8⟩, ⟨100, 8⟩, ⟨100, 0⟩], none) ∧
    JoinHoles (insertionSort byMaxX.Less) [slantedOuterFrom1, notchedHole] =
      .ok ([⟨108, 0⟩, ⟨102, 5⟩, ⟨101, 4⟩, ⟨101, 6⟩, ⟨102, 5⟩, ⟨108, 0⟩, ⟨108, 12⟩, ⟨105, 8⟩,
        ⟨105, 2⟩, ⟨103, 2⟩, ⟨103, 8⟩, ⟨100, 8⟩, ⟨100, 0⟩], none) ∧
    properCross ⟨102, 5⟩ ⟨108, 0⟩ ⟨103, 2⟩ ⟨103, 8⟩ = true ∧
    properCross ⟨102, 5⟩ ⟨108, 0⟩ ⟨105, 8⟩ ⟨105, 2⟩ = true ∧
    crossesBoundary slantedOuterFrom1 ⟨102, 5⟩ ⟨108, 0⟩ = true := by
  refine ⟨?_, ?_, ?_, ?_, ?_, ?_, ?_, ?_, ?_, ?_, ?_, ?_, ?_, ?_, ?_, ?_, ?_⟩ <;> decide!


/-! ## Exact operations in `float64` arithmetic -/

theorem bits_spec : ∀ (fuel n : Nat), n ≤ fuel → n ≠ 0 →
    2 ^ F64.bits fuel n ≤ n ∧ n < 2 ^ (F64.bits fuel n + 1)
  | 0, n, h, h0 => absurd (Nat.le_zero.1 h) h0
  | fuel + 1, n, h, h0 => by
    unfold F64.bits
    by_cases h2 : n < 2
    · rw [if_pos h2]
      constructor
      · simp; omega
      · simpa using h2
    · rw [if_neg h2]
      obtain ⟨h1, h3⟩ := bits_spec fuel (n / 2) (by omega) (by omega)
      have e1 : 2 ^ (F64.bits fuel (n / 2) + 1) = 2 * 2 ^ F64.bits fuel (n / 2) := by ring
      have e2 : 2 ^ (F64.bits fuel (n / 2) + 1 + 1) = 2 * 2 ^ (F64.bits fuel (n / 2) + 1) := by
        ring
      rw [e2]
      rw [e1] at h3 ⊢
      omega

theorem pow2_pos (e : Int) : 0 < pow2 e := by
  unfold pow2; positivity

theorem pow2_natCast (k : Nat) : pow2 (k : Int) = ((2 ^ k : Nat) : ℚ) := by
  unfold pow2; simp

/-- Rounding leaves a number with an integral significand of at most 53 bits at
the exponent of its last place as it is. -/
theorem round_of_floor {q : ℚ} (k : Nat) (hq : q ≠ 0)
    (hk : |q| / pow2 (max (F64.ilog2 |q| - 52) (-1074)) = (k : ℚ))
    (hlt : |q| < pow2 1024) : F64.round q = .fin q := by
  unfold F64.round
  rw [if_neg hq]
  simp only [hk]
  have hfl : Int.floor ((k : ℚ)) = (k : Int) := by
    have : ((k : ℚ)) = (((k : Int)) : ℚ) := by simp
    rw [this, Int.floor_intCast]
  rw [hfl]
  have h0 : ((k : ℚ)) - (((k : Int)) : ℚ) = 0 := by simp
  rw [h0]
  have hhalf : (0 : ℚ) < 1 / 2 := by norm_num
  rw [if_pos hhalf]
  have hv : ((((k : Int)) : ℚ)) * pow2 (max (F64.ilog2 |q| - 52) (-1074)) = |q| := by
    have hp := pow2_pos (max (F64.ilog2 |q| - 52) (-1074))
    have hk2 := (div_eq_iff (ne_of_gt hp)).1 hk
    rw [Int.cast_natCast]
    exact hk2.symm
  rw [hv, if_neg (not_le.2 hlt)]
  congr 1
  by_cases hneg : q < 0
  · rw [if_pos hneg, abs_of_neg hneg, neg_neg]
  · rw [if_neg hneg, abs_of_nonneg (not_lt.1 hneg)]

theorem ilog2_natCast (p : Nat) (hp : p ≠ 0) : F64.ilog2 (p : ℚ) = (F64.bits p p : Int) := by
  unfold F64.ilog2
  have hb := (bits_spec p p le_rfl hp).1
  have h1 : F64.bits 1 1 = 0 := rfl
  simp only [Rat.num_natCast, Rat.den_natCast, Int.natAbs_ofNat, h1, Nat.cast_zero, sub_zero]
  rw [if_neg]
  rw [not_lt, pow2_natCast]
  exact_mod_cast hb

/-- An integer of absolute value at most `2 ^ 53` is a `float64` value. -/
theorem round_intCast (n : Int) (hn : |n| ≤ 2 ^ 53) : F64.round (n : ℚ) = .fin (n : ℚ) := by
  by_cases h0 : n = 0
  · subst h0; simp [F64.round]
  have hq : (n : ℚ) ≠ 0 := by exact_mod_cast h0
  have hp0 : n.natAbs ≠ 0 := Int.natAbs_ne_zero.2 h0
  have habs : |(n : ℚ)| = ((n.natAbs : Nat) : ℚ) := by
    rw [Nat.cast_natAbs, Int.cast_abs]
  have hple : n.natAbs ≤ 2 ^ 53 := by
    have : ((n.natAbs : Nat) : Int) = |n| := Int.natCast_natAbs n
    omega
  obtain ⟨hb1, hb2⟩ := bits_spec n.natAbs n.natAbs le_rfl hp0
  have hL : F64.bits n.natAbs n.natAbs ≤ 53 := by
    by_contra hgt
    have : 2 ^ 54 ≤ 2 ^ F64.bits n.natAbs n.natAbs :=
      Nat.pow_le_pow_right (by norm_num) (by omega)
    omega
  have hlt : |(n : ℚ)| < pow2 1024 := by
    rw [habs]
    have h1 : ((n.natAbs : Nat) : ℚ) ≤ ((2 ^ 53 : Nat) : ℚ) := by exact_mod_cast hple
    have h2 : (((2 ^ 53 : Nat)) : ℚ) < pow2 1024 := by
      unfold pow2; norm_num
    exact lt_of_le_of_lt h1 h2
  have he : max (F64.ilog2 |(n : ℚ)| - 52) (-1074) =
      (F64.bits n.natAbs n.natAbs : Int) - 52 := by
    rw [habs, ilog2_natCast _ hp0]
    omega
  by_cases hc : F64.bits n.natAbs n.natAbs ≤ 52
  · refine round_of_floor (n.natAbs * 2 ^ (52 - F64.bits n.natAbs n.natAbs)) hq ?_ hlt
    rw [he, habs]
    have hp := pow2_pos ((F64.bits n.natAbs n.natAbs : Int) - 52)
    rw [div_eq_iff (ne_of_gt hp)]
    push_cast
    rw [mul_assoc]
    have : (2 : ℚ) ^ (52 - F64.bits n.natAbs n.natAbs) *
        pow2 ((F64.bits n.natAbs n.natAbs : Int) - 52) = 1 := by
      unfold pow2
      rw [← zpow_natCast, ← zpow_add₀ (by norm_num : (2 : ℚ) ≠ 0)]
      have : ((52 - F64.bits n.natAbs n.natAbs : Nat) : Int) +
          ((F64.bits n.natAbs n.natAbs : Int) - 52) = 0 := by omega
      rw [this, zpow_zero]
    rw [this, mul_one]
  · have hL53 : F64.bits n.natAbs n.natAbs = 53 := by omega
    rw [hL53] at hb1 he
    have hpe : n.natAbs = 2 ^ 53 := le_antisymm hple hb1
    refine round_of_floor (2 ^ 52) hq ?_ hlt
    rw [he, habs, hpe]
    unfold pow2
    norm_num


theorem smallInt_cast {q : ℚ} (h : smallInt q) : ∃ n : Int, q = (n : ℚ) ∧ |n| ≤ 2 ^ 25 := by
  obtain ⟨hd, hb⟩ := h
  refine ⟨q.num, (Rat.den_eq_one_iff q).1 hd |>.symm, ?_⟩
  have hq : q = (q.num : ℚ) := ((Rat.den_eq_one_iff q).1 hd).symm
  rw [hq, ← Int.cast_abs] at hb
  exact_mod_cast hb

theorem sub_intCast (m n : Int) (h : |m - n| ≤ 2 ^ 53) :
    F64.sub (.fin (m : ℚ)) (.fin (n : ℚ)) = .fin ((m - n : Int) : ℚ) := by
  simp only [F64.sub]
  rw [← Int.cast_sub]
  exact round_intCast _ h

theorem mul_intCast (m n : Int) (h : |m * n| ≤ 2 ^ 53) :
    F64.mul (.fin (m : ℚ)) (.fin (n : ℚ)) = .fin ((m * n : Int) : ℚ) := by
  simp only [F64.mul]
  rw [← Int.cast_mul]
  exact round_intCast _ h

theorem abs_mul_le_of_le {u v : Int} (hu : |u| ≤ 2 ^ 26) (hv : |v| ≤ 2 ^ 26) :
    |u * v| ≤ 2 ^ 52 := by
  rw [abs_mul]
  calc |u| * |v| ≤ 2 ^ 26 * 2 ^ 26 := mul_le_mul hu hv (abs_nonneg v) (by norm_num)
    _ = 2 ^ 52 := by norm_num

theorem abs_sub_le_of_le {K : Int} {u v : Int} (hu : |u| ≤ K) (hv : |v| ≤ K) :
    |u - v| ≤ 2 * K := by
  rw [abs_le] at hu hv ⊢
  constructor <;> omega

/-- The expression `(x1-x2)*(y1-y2)-(x3-x4)*(y3-y4)` of `isReflex` and
`isInsideTriangle` is computed exactly in `float64` arithmetic on integers of
absolute value at most `2 ^ 25`. -/
theorem det_exact {x1 x2 y1 y2 x3 x4 y3 y4 : ℚ} (h1 : smallInt x1) (h2 : smallInt x2)
    (h3 : smallInt y1) (h4 : smallInt y2) (h5 : smallInt x3) (h6 : smallInt x4)
    (h7 : smallInt y3) (h8 : smallInt y4) :
    F64.sub
      (F64.mul (F64.sub (.fin x1) (.fin x2)) (F64.sub (.fin y1) (.fin y2)))
      (F64.mul (F64.sub (.fin x3) (.fin x4)) (F64.sub (.fin y3) (.fin y4))) =
    .fin ((x1 - x2) * (y1 - y2) - (x3 - x4) * (y3 - y4)) := by
  obtain ⟨a1, rfl, b1⟩ := smallInt_cast h1
  obtain ⟨a2, rfl, b2⟩ := smallInt_cast h2
  obtain ⟨a3, rfl, b3⟩ := smallInt_cast h3
  obtain ⟨a4, rfl, b4⟩ := smallInt_cast h4
  obtain ⟨a5, rfl, b5⟩ := smallInt_cast h5
  obtain ⟨a6, rfl, b6⟩ := smallInt_cast h6
  obtain ⟨a7, rfl, b7⟩ := smallInt_cast h7
  obtain ⟨a8, rfl, b8⟩ := smallInt_cast h8
  have e : (2 : Int) * 2 ^ 25 = 2 ^ 26 := by norm_num
  have d1 : |a1 - a2| ≤ 2 ^ 26 := e ▸ abs_sub_le_of_le b1 b2
  have d2 : |a3 - a4| ≤ 2 ^ 26 := e ▸ abs_sub_le_of_le b3 b4
  have d3 : |a5 - a6| ≤ 2 ^ 26 := e ▸ abs_sub_le_of_le b5 b6
  have d4 : |a7 - a8| ≤ 2 ^ 26 := e ▸ abs_sub_le_of_le b7 b8
  have le53 : ∀ u : Int, |u| ≤ 2 ^ 26 → |u| ≤ 2 ^ 53 := fun u hu =>
    le_trans hu (by norm_num)
  have p1 := abs_mul_le_of_le d1 d2
  have p2 := abs_mul_le_of_le d3 d4
  have e2 : (2 : Int) * 2 ^ 52 = 2 ^ 53 := by norm_num
  have p3 : |(a1 - a2) * (a3 - a4) - (a5 - a6) * (a7 - a8)| ≤ 2 ^ 53 :=
    e2 ▸ abs_sub_le_of_le p1 p2
  rw [sub_intCast _ _ (le53 _ d1), sub_intCast _ _ (le53 _ d2), sub_intCast _ _ (le53 _ d3),
    sub_intCast _ _ (le53 _ d4), mul_intCast _ _ (le_trans p1 (by norm_num)),
    mul_intCast _ _ (le_trans p2 (by norm_num)), sub_intCast _ _ p3]
  push_cast
  rfl

/-- On points with integer coordinates of absolute value at most `2 ^ 25`,
`isReflex` in `float64` arithmetic is `isReflex` in exact arithmetic. -/
theorem isReflex_float_eq {a b c : Point} (ha : a.small) (hb : b.small) (hc : c.small) :
    F64.isReflex a b c = isReflex a b c := by
  unfold F64.isReflex isReflex
  rw [det_exact hb.1 ha.1 hc.2 hb.2 hc.1 hb.1 hb.2 ha.2]
  rfl

/-- On points with integer coordinates of absolute value at most `2 ^ 25`,
`isInsideTriangle` in `float64` arithmetic is `isInsideTriangle` in exact
arithmetic. -/
theorem isInsideTriangle_float_eq {a b c p : Point} (ha : a.small) (hb : b.small)
    (hc : c.small) (hp : p.small) :
    F64.isInsideTriangle a b c p = isInsideTriangle a b c p := by
  unfold F64.isInsideTriangle isInsideTriangle
  rw [det_exact hc.1 hp.1 ha.2 hp.2 ha.1 hp.1 hc.2 hp.2,
    det_exact ha.1 hp.1 hb.2 hp.2 hb.1 hp.1 ha.2 hp.2,
    det_exact hb.1 hp.1 hc.2 hp.2 hc.1 hp.1 hb.2 hp.2]
  rfl


/-! ## `Polygon` in `float64` arithmetic on integer coordinates -/

theorem small_default : (default : Point).small := by decide

theorem small_getD {points : List Point} (hs : ∀ p ∈ points, p.small) (k : Nat) :
    (points.getD k default).small := by
  by_cases hk : k < points.length
  · rw [List.getD_eq_getElem _ _ hk]
    exact hs _ (List.getElem_mem hk)
  · rw [List.getD_eq_default _ _ (by omega)]
    exact small_default

theorem initElements_small {points : List Point} (hs : ∀ p ∈ points, p.small) (k : Nat) :
    (Polygon.initElements points k).Point.small := by
  rw [initElements_point]
  exact small_getD hs k

theorem isEarLoop_float_eq {h : Heap} (hh : ∀ k, (h k).Point.small) {a b c : Point}
    (ha : a.small) (hb : b.small) (hc : c.small) (last : Nat) :
    ∀ (fuel r : Nat), F64.isEarLoop h a b c last fuel r = isEarLoop h a b c last fuel r
  | 0, _ => rfl
  | fuel + 1, r => by
    simp only [F64.isEarLoop, isEarLoop, isInsideTriangle_float_eq ha hb hc (hh r),
      isReflex_float_eq (hh (h r).Prev) (hh r) (hh (h r).Next),
      isEarLoop_float_eq hh ha hb hc last fuel (h r).Next]

theorem isEar_float_eq {h : Heap} (hh : ∀ k, (h k).Point.small) (fuel p : Nat) :
    F64.isEar fuel h p = isEar fuel h p := by
  simp only [F64.isEar, isEar, isReflex_float_eq (hh (h p).Prev) (hh p) (hh (h p).Next),
    isEarLoop_float_eq hh (hh (h p).Prev) (hh p) (hh (h p).Next)]

theorem step_float_eq {positiveArea : List Point → Bool}
    (harea : ∀ a b c : Point, a.small → b.small → c.small →
      positiveArea [a, b, c] = decide (0 < polygonArea [a, b, c]))
    (n : Nat) (s : State) (hs : ∀ k, (s.elements k).Point.small) :
    F64.Polygon.step positiveArea n s = Polygon.step n s := by
  simp only [F64.Polygon.step, Polygon.step, isEar_float_eq hs,
    harea _ _ _ (hs (s.elements s.ear).Prev) (hs s.ear) (hs (s.elements s.ear).Next),
    decide_eq_true_eq, gt_iff_lt]

theorem step_small {n : Nat} {s s1 : State} (hs : ∀ k, (s.elements k).Point.small)
    (h : Polygon.step n s = .next s1) : ∀ k, (s1.elements k).Point.small := by
  intro k
  unfold Polygon.step at h
  simp only at h
  repeat' split at h
  all_goals first
    | exact Step.noConfusion h
    | (simp only [Step.next.injEq] at h
       rw [← h]
       simp only [Remove_point]
       exact hs k)

theorem loop_float_eq {positiveArea : List Point → Bool}
    (harea : ∀ a b c : Point, a.small → b.small → c.small →
      positiveArea [a, b, c] = decide (0 < polygonArea [a, b, c]))
    (n : Nat) :
    ∀ (fuel : Nat) (s : State), (∀ k, (s.elements k).Point.small) →
      F64.Polygon.loop positiveArea n fuel s = Polygon.loop n fuel s
  | 0, _, _ => rfl
  | fuel + 1, s, hs => by
    simp only [F64.Polygon.loop, Polygon.loop, step_float_eq harea n s hs]
    cases hst : Polygon.step n s with
    | next s1 => exact loop_float_eq harea n fuel s1 (step_small hs hst)
    | ret t err => rfl
    | fault f => rfl

/-- On points with integer coordinates of absolute value at most `2 ^ 25`,
`Polygon` in `float64` arithmetic is `Polygon` in exact arithmetic, when the
test `polygonArea(...) > 0` is exact on such triangles. -/
theorem Polygon_float_eq {positiveArea : List Point → Bool}
    (harea : ∀ a b c : Point, a.small → b.small → c.small →
      positiveArea [a, b, c] = decide (0 < polygonArea [a, b, c]))
    (points : List Point) (hs : ∀ p ∈ points, p.small) :
    F64.Polygon positiveArea points = Polygon points := by
  unfold F64.Polygon Polygon
  simp only
  split_ifs
  · rfl
  · exact loop_float_eq harea _ _ _ (fun k => initElements_small hs k)


/-! ## Claims on the geometric predicates -/

/-- C15 as stated fails in `float64` arithmetic. The coordinates are integers
below `2 ^ 53`, so they are `float64` values; the cross product `(b-a) × (c-b)`
is `-1`, the turn is strictly clockwise; both products round to
`2 ^ 54 + 2 ^ 28`, and `isReflex` returns false. -/
theorem C15_float_counterexample :
    Point.isFloat ⟨0, 0⟩ = true ∧ Point.isFloat ⟨134217730, 134217729⟩ = true ∧
    Point.isFloat ⟨268435459, 268435457⟩ = true ∧
    ccw ⟨0, 0⟩ ⟨134217730, 134217729⟩ ⟨268435459, 268435457⟩ = -1 ∧
    F64.mul (F64.sub (.fin 134217730) (.fin 0)) (F64.sub (.fin 268435457) (.fin 134217729)) =
      .fin (2 ^ 54 + 2 ^ 28) ∧
    F64.mul (F64.sub (.fin 268435459) (.fin 134217730)) (F64.sub (.fin 134217729) (.fin 0)) =
      .fin (2 ^ 54 + 2 ^ 28) ∧
    F64.isReflex ⟨0, 0⟩ ⟨134217730, 134217729⟩ ⟨268435459, 268435457⟩ = false := by
  refine ⟨by decide!, by decide!, by decide!, by decide!, by decide!, by decide!, by decide!⟩

/-- C15, amended (reflex test). For all points whose coordinates are integers
of absolute value at most `2 ^ 25`, `isReflex(a, b, c)` in `float64` arithmetic
is true exactly when the cross product `(b-a) × (c-b)` is strictly negative; a
collinear triple of such points is not reflex; `isReflex` is false on
`(0,1),(1,0),(2,1)` and true on `(0,0),(0,3),(2,3)`. -/
theorem C15_float_isReflex_iff :
    (∀ a b c : Point, a.small → b.small → c.small →
      (F64.isReflex a b c = true ↔ ccw a b c < 0)) ∧
    (∀ a b c : Point, a.small → b.small → c.small → ccw a b c = 0 →
      F64.isReflex a b c = false) ∧
    F64.isReflex ⟨0, 1⟩ ⟨1, 0⟩ ⟨2, 1⟩ = false ∧ F64.isReflex ⟨0, 0⟩ ⟨0, 3⟩ ⟨2, 3⟩ = true := by
  refine ⟨fun a b c ha hb hc => ?_, fun a b c ha hb hc h => ?_, by decide!, by decide!⟩
  · rw [isReflex_float_eq ha hb hc]
    exact isReflex_iff_ccw a b c
  · rw [isReflex_float_eq ha hb hc, isReflex_eq_false_iff, h]

/-- Witness of C15, amended: the collinear triple `(0,0),(1,1),(2,2)` is not
reflex, and the clockwise triple `(0,0),(0,3),(2,3)` is. -/
theorem C15_float_isReflex_iff_witness :
    F64.isReflex ⟨0, 0⟩ ⟨1, 1⟩ ⟨2, 2⟩ = false ∧
    (F64.isReflex ⟨0, 0⟩ ⟨0, 3⟩ ⟨2, 3⟩ = true ↔ ccw ⟨0, 0⟩ ⟨0, 3⟩ ⟨2, 3⟩ < 0) :=
  ⟨C15_float_isReflex_iff.2.1 ⟨0, 0⟩ ⟨1, 1⟩ ⟨2, 2⟩ (by decide!) (by decide!) (by decide!)
      (by decide!),
    C15_float_isReflex_iff.1 ⟨0, 0⟩ ⟨0, 3⟩ ⟨2, 3⟩ (by decide!) (by decide!) (by decide!)⟩

/-- C14 as stated fails in `float64` arithmetic, on two inputs. The first is
the triangle `(0.7, 0), (3.7, 3.6), (0.7, 0.9)` with `p = (1.7, 1.2)`, the
coordinates being the `float64` values of these decimal literals: the triangle
is strictly counter-clockwise and `p` passes the three tests in exact
arithmetic, so it is in the closed triangle, but `isInsideTriangle` returns
false. The second is the triangle `(0,0), (2^702, 0), (0, 2^702)` with
`p = (2^700, 2^700)`: both products of the third test overflow, the test is
`Inf - Inf = NaN`, and `isInsideTriangle` returns false for a point of the
closed triangle. -/
theorem C14_float_counterexample :
    (Point.isFloat ⟨3152519739159347 / 4503599627370496, 0⟩ = true ∧
      Point.isFloat ⟨4165829655317709 / 1125899906842624,
        8106479329266893 / 2251799813685248⟩ = true ∧
      Point.isFloat ⟨3152519739159347 / 4503599627370496,
        8106479329266893 / 9007199254740992⟩ = true ∧
      Point.isFloat ⟨7656119366529843 / 4503599627370496,
        5404319552844595 / 4503599627370496⟩ = true ∧
      0 < ccw ⟨3152519739159347 / 4503599627370496, 0⟩
        ⟨4165829655317709 / 1125899906842624, 8106479329266893 / 2251799813685248⟩
        ⟨3152519739159347 / 4503599627370496, 8106479329266893 / 9007199254740992⟩ ∧
      isInsideTriangle ⟨3152519739159347 / 4503599627370496, 0⟩
        ⟨4165829655317709 / 1125899906842624, 8106479329266893 / 2251799813685248⟩
        ⟨3152519739159347 / 4503599627370496, 8106479329266893 / 9007199254740992⟩
        ⟨7656119366529843 / 4503599627370496, 5404319552844595 / 4503599627370496⟩ = true ∧
      F64.isInsideTriangle ⟨3152519739159347 / 4503599627370496, 0⟩
        ⟨4165829655317709 / 1125899906842624, 8106479329266893 / 2251799813685248⟩
        ⟨3152519739159347 / 4503599627370496, 8106479329266893 / 9007199254740992⟩
        ⟨7656119366529843 / 4503599627370496, 5404319552844595 / 4503599627370496⟩ = false) ∧
    (Point.isFloat ⟨2 ^ 702, 0⟩ = true ∧ Point.isFloat ⟨0, 2 ^ 702⟩ = true ∧
      Point.isFloat ⟨2 ^ 700, 2 ^ 700⟩ = true ∧
      0 < ccw ⟨0, 0⟩ ⟨2 ^ 702, 0⟩ ⟨0, 2 ^ 702⟩ ∧
      isInsideTriangle ⟨0, 0⟩ ⟨2 ^ 702, 0⟩ ⟨0, 2 ^ 702⟩ ⟨2 ^ 700, 2 ^ 700⟩ = true ∧
      F64.sub
        (F64.mul (F64.sub (.fin (2 ^ 702)) (.fin (2 ^ 700)))
          (F64.sub (.fin (2 ^ 702)) (.fin (2 ^ 700))))
        (F64.mul (F64.sub (.fin 0) (.fin (2 ^ 700))) (F64.sub (.fin 0) (.fin (2 ^ 700)))) =
        .nan ∧
      F64.isInsideTriangle ⟨0, 0⟩ ⟨2 ^ 702, 0⟩ ⟨0, 2 ^ 702⟩ ⟨2 ^ 700, 2 ^ 700⟩ = false) := by
  refine ⟨⟨?_, ?_, ?_, ?_, ?_, ?_, ?_⟩, ?_, ?_, ?_, ?_, ?_, ?_, ?_⟩ <;> decide!

/-- C14, amended (containment test). For a strictly counter-clockwise triangle
`(a, b, c)` and a point `p`, all with integer coordinates of absolute value at
most `2 ^ 25`, `isInsideTriangle(a, b, c, p)` in `float64` arithmetic is true
exactly when `p` is a convex combination of `a`, `b` and `c` with non-negative
weights; so the three vertices are inside; `(2,2)` is inside
`(0,2),(6,0),(6,2)` (on an edge) and outside `(0,0),(4,0),(4,2)`. -/
theorem C14_float_inside_triangle_iff :
    (∀ a b c p : Point, a.small → b.small → c.small → p.small → 0 < ccw a b c →
      (F64.isInsideTriangle a b c p = true ↔
        ∃ u v w : ℚ, 0 ≤ u ∧ 0 ≤ v ∧ 0 ≤ w ∧ u + v + w = 1 ∧
          p.X = u * a.X + v * b.X + w * c.X ∧ p.Y = u * a.Y + v * b.Y + w * c.Y)) ∧
    (∀ a b c : Point, a.small → b.small → c.small → 0 < ccw a b c →
      F64.isInsideTriangle a b c a = true ∧ F64.isInsideTriangle a b c b = true ∧
        F64.isInsideTriangle a b c c = true) ∧
    F64.isInsideTriangle ⟨0, 2⟩ ⟨6, 0⟩ ⟨6, 2⟩ ⟨2, 2⟩ = true ∧
    F64.isInsideTriangle ⟨0, 0⟩ ⟨4, 0⟩ ⟨4, 2⟩ ⟨2, 2⟩ = false := by
  refine ⟨fun a b c p ha hb hc hp hD => ?_, fun a b c ha hb hc hD => ?_, by decide!,
    by decide!⟩
  · rw [isInsideTriangle_float_eq ha hb hc hp]
    exact isInsideTriangle_iff_convex a b c p hD
  · rw [isInsideTriangle_float_eq ha hb hc ha, isInsideTriangle_float_eq ha hb hc hb,
      isInsideTriangle_float_eq ha hb hc hc]
    exact isInsideTriangle_vertices a b c hD

/-- Witness of C14, amended: the midpoint `(3,1)` of an edge of the
counter-clockwise triangle `(0,2),(6,0),(6,2)` is inside. -/
theorem C14_float_inside_triangle_iff_witness :
    F64.isInsideTriangle ⟨0, 2⟩ ⟨6, 0⟩ ⟨6, 2⟩ ⟨3, 1⟩ = true :=
  (C14_float_inside_triangle_iff.1 ⟨0, 2⟩ ⟨6, 0⟩ ⟨6, 2⟩ ⟨3, 1⟩ (by decide!) (by decide!)
    (by decide!) (by decide!) (by decide!)).2
    ⟨1 / 2, 1 / 2, 0, by norm_num, by norm_num, by norm_num, by norm_num, by norm_num,
      by norm_num⟩


/-! ## Convex polygons in `float64` arithmetic -/

theorem float_step_reject (positiveArea : List Point → Bool) (n : Nat) (s : State)
    (h1 : (s.elements s.ear).Prev ≠ (s.elements s.ear).Next)
    (h2 : F64.isEar n s.elements s.ear = .ok false)
    (h3 : (s.elements s.ear).Next ≠ s.stop) :
    F64.Polygon.step positiveArea n s = .next { s with ear := (s.elements s.ear).Next } := by
  unfold F64.Polygon.step
  simp only [h1, h2, h3, if_false]

theorem float_step_emit (positiveArea : List Point → Bool) (n : Nat) (s : State) (t1 : List ℚ)
    (h1 : (s.elements s.ear).Prev ≠ (s.elements s.ear).Next)
    (h2 : F64.isEar n s.elements s.ear = .ok true)
    (h3 : positiveArea [(s.elements (s.elements s.ear).Prev).Point, (s.elements s.ear).Point,
      (s.elements (s.elements s.ear).Next).Point] = true)
    (h4 : writeTriangle s.t s.i (s.elements (s.elements s.ear).Prev).Point
      (s.elements s.ear).Point (s.elements (s.elements s.ear).Next).Point = .ok t1) :
    F64.Polygon.step positiveArea n s =
      .next { elements := Element.Remove s.elements s.ear,
              ear := (Element.Remove s.elements s.ear s.ear).Next,
              stop := (Element.Remove s.elements s.ear s.ear).Next, i := s.i + 6, t := t1 } := by
  unfold F64.Polygon.step
  simp only [h1, h2, h3, h4, if_false, if_true]

theorem float_step_drop (positiveArea : List Point → Bool) (n : Nat) (s : State)
    (h1 : (s.elements s.ear).Prev ≠ (s.elements s.ear).Next)
    (h2 : F64.isEar n s.elements s.ear = .ok true)
    (h3 : positiveArea [(s.elements (s.elements s.ear).Prev).Point, (s.elements s.ear).Point,
      (s.elements (s.elements s.ear).Next).Point] = false) :
    F64.Polygon.step positiveArea n s =
      .next { elements := Element.Remove s.elements s.ear,
              ear := (Element.Remove s.elements s.ear s.ear).Next,
              stop := (Element.Remove s.elements s.ear s.ear).Next, i := s.i, t := s.t } := by
  unfold F64.Polygon.step
  simp only [h1, h2, h3, if_false, Bool.false_eq_true]

theorem float_step_done (positiveArea : List Point → Bool) (n : Nat) (s : State)
    (h1 : (s.elements s.ear).Prev = (s.elements s.ear).Next) (h2 : s.i ≤ s.t.length) :
    F64.Polygon.step positiveArea n s = .ret (s.t.take s.i) none := by
  unfold F64.Polygon.step
  simp only [h1, h2, if_true]

theorem Polygon_float_sliver (positiveArea : List Point → Bool) :
    F64.Polygon positiveArea sliverTriangle =
      .ok (if positiveArea sliverTriangle then
        coords (sliverTriangle.getD 0 default) (sliverTriangle.getD 1 default)
          (sliverTriangle.getD 2 default) else [], none) := by
  have e1 := float_step_reject positiveArea 3 (Polygon.init sliverTriangle) (by decide!)
    (by decide!) (by decide!)
  have hloop : F64.Polygon positiveArea sliverTriangle =
      F64.Polygon.loop positiveArea 3 8 { Polygon.init sliverTriangle with ear := 1 } := by
    show F64.Polygon.loop positiveArea 3 (8 + 1) (Polygon.init sliverTriangle) = _
    rw [F64.Polygon.loop, e1]
    rfl
  rw [hloop]
  cases hb : positiveArea sliverTriangle
  · have e2 := float_step_drop positiveArea 3 { Polygon.init sliverTriangle with ear := 1 }
      (by decide!) (by decide!) hb
    show F64.Polygon.loop positiveArea 3 (7 + 1) _ = _
    rw [F64.Polygon.loop, e2]
    show F64.Polygon.loop positiveArea 3 (6 + 1) _ = _
    rw [F64.Polygon.loop, float_step_done _ _ _ (by decide!) (by decide!)]
    rfl
  · have e2 := float_step_emit positiveArea 3 { Polygon.init sliverTriangle with ear := 1 }
      (coords (sliverTriangle.getD 0 default) (sliverTriangle.getD 1 default)
          (sliverTriangle.getD 2 default))
      (by decide!) (by decide!) hb (by decide!)
    show F64.Polygon.loop positiveArea 3 (7 + 1) _ = _
    rw [F64.Polygon.loop, e2]
    show F64.Polygon.loop positiveArea 3 (6 + 1) _ = _
    rw [F64.Polygon.loop, float_step_done _ _ _ (by decide!) (by decide!)]
    rfl


/-- C5 as stated fails in `float64` arithmetic. The triangle `sliverTriangle`,
`(3.8, 0.9), (2.2, 1.7), (1.4, 2.1)` as `float64` values, is strictly
counter-clockwise, and in exact arithmetic `Polygon` returns the fan
`(p_2, p_0, p_1)`. In `float64` arithmetic the cross product of
`(p_2, p_0, p_1)` is negative, `isEar` rejects the first candidate `p_0`, the
next candidate `p_1` is clipped, and `Polygon` returns the triangle
`(p_0, p_1, p_2)` or nothing, whatever `polygonArea` does: never the fan. -/
theorem C5_float_counterexample :
    sliverTriangle.all Point.isFloat = true ∧
    0 < ccw (sliverTriangle.getD 0 default) (sliverTriangle.getD 1 default)
      (sliverTriangle.getD 2 default) ∧
    Polygon sliverTriangle =
      .ok (coords (sliverTriangle.getD 2 default) (sliverTriangle.getD 0 default)
        (sliverTriangle.getD 1 default), none) ∧
    F64.isReflex (sliverTriangle.getD 2 default) (sliverTriangle.getD 0 default)
      (sliverTriangle.getD 1 default) = true ∧
    F64.isEar 3 (Polygon.initElements sliverTriangle) 0 = .ok false ∧
    (∀ positiveArea : List Point → Bool,
      F64.Polygon positiveArea sliverTriangle =
        .ok (if positiveArea sliverTriangle then
          coords (sliverTriangle.getD 0 default) (sliverTriangle.getD 1 default)
            (sliverTriangle.getD 2 default) else [], none)) ∧
    (∀ positiveArea : List Point → Bool,
      F64.Polygon positiveArea sliverTriangle ≠
        .ok (coords (sliverTriangle.getD 2 default) (sliverTriangle.getD 0 default)
          (sliverTriangle.getD 1 default), none)) := by
  refine ⟨by decide!, by decide!, by decide!, by decide!, by decide!, Polygon_float_sliver, ?_⟩
  intro positiveArea
  rw [Polygon_float_sliver]
  cases positiveArea sliverTriangle <;> decide!

/-- C5, amended (convex polygons). For a strictly convex counter-clockwise
polygon `p_0 .. p_(n-1)`, `n ≥ 3` (every triple of vertices in increasing index
order is strictly counter-clockwise), whose coordinates are integers of
absolute value at most `2 ^ 25`, `Polygon` in `float64` arithmetic returns no
error and its output is the fan `(p_(n-1), p_k, p_(k+1))`, `k = 0, ..., n-3`,
in this order: `n - 2` triangles. The test `polygonArea(...) > 0`, whose code
is not in `polygon.go`, is taken to be positive exactly on the triangles of
positive shoelace area. -/
theorem C5_float_convex_fan (positiveArea : List Point → Bool) (points : List Point)
    (hn : 3 ≤ points.length) (hs : ∀ p ∈ points, p.small)
    (harea : ∀ a b c : Point, a.small → b.small → c.small →
      positiveArea [a, b, c] = decide (0 < polygonArea [a, b, c]))
    (hconv : ∀ i j k, i < j → j < k → k < points.length →
      0 < ccw (points.getD i default) (points.getD j default) (points.getD k default)) :
    F64.Polygon positiveArea points =
      .ok ((List.range (points.length - 2)).flatMap (fun k =>
          coords (points.getD (points.length - 1) default) (points.getD k default)
            (points.getD (k + 1) default)), none) ∧
    ∀ t, F64.Polygon positiveArea points = .ok (t, none) →
      (triangles t).length = points.length - 2 := by
  rw [Polygon_float_eq harea points hs]
  exact Polygon_convex_fan points hn hconv

/-- Witness of C5, amended: the test `TestSingleTriangleTriangulation`. -/
theorem C5_float_convex_fan_witness :
    F64.Polygon (fun l => decide (0 < polygonArea l)) [⟨0, 0⟩, ⟨3, 0⟩, ⟨4, 4⟩] =
      .ok ([4, 4, 0, 0, 3, 0], none) :=
  (C5_float_convex_fan (fun l => decide (0 < polygonArea l)) [⟨0, 0⟩, ⟨3, 0⟩, ⟨4, 4⟩]
    (by decide) (by decide!) (fun _ _ _ _ _ _ => rfl) (by
    intro i j k hij hjk hk
    simp only [List.length_cons, List.length_nil] at hk
    have hi : i = 0 := by omega
    have hj : j = 1 := by omega
    have hk2 : k = 2 := by omega
    subst hi hj hk2
    decide!)).1

end Triangolatte
